import Mathlib

/-!
# The `ann` inference benchmark (`src/ann/ann.c`)

A shallow embedding of the network engine of `ann.c` and of its three dot-product
kernels.

Conventions of the embedding.

* A C `int` is a Lean `Int`.  Signed overflow is undefined in C, so every statement
  is about executions in which no intermediate value leaves the range of `int`; on
  those executions C arithmetic is the arithmetic of `Int` (`/` on `int` truncates,
  which is `Int.tdiv`).
* A `float` is an element of a type `R` carrying the operations the code uses.  The
  definitions ask only for `0`, `+`, `*` (and, for the random weights, a conversion
  from `int` and `/`).  Statements about "exact arithmetic" take `R` to be a
  semiring or a field.  The range of the random weights is a statement about rounded
  values: there `R` is `Float32`, binary32 with each conversion and division rounded
  to nearest.
* A heap block is the list of its elements, a null pointer is `none`, and a pointer
  into a block is the suffix of the block that starts at the pointed element.  Every
  access outside a block (undefined behaviour in C) makes the operation return
  `none`.
* The C library is an explicit environment: the values `rand()` returns, which of
  the `malloc` calls succeed, and the unspecified content of fresh blocks.
-/

namespace AnnBench

/-! ## Memory -/

/-- Read of `xs[i]`; `none` outside the block. -/
def load {α : Type} (xs : List α) (i : Int) : Option α :=
  if 0 ≤ i then xs[i.toNat]? else none

/-- Write `xs[i] = v`; `none` outside the block. -/
def store {α : Type} (xs : List α) (i : Int) (v : α) : Option (List α) :=
  if 0 ≤ i ∧ i < xs.length then some (xs.set i.toNat v) else none

/-- The pointer `xs + off`, seen as the part of the block from `off` on; `none` when it
would point before the block or past its end. -/
def ptr {α : Type} (xs : List α) (off : Int) : Option (List α) :=
  if 0 ≤ off ∧ off ≤ xs.length then some (xs.drop off.toNat) else none

/-- The call `memcpy(dst, src, n * sizeof(elem))`: the first `n` elements of `dst` are
replaced by those of `src`.  A negative `n` becomes a huge `size_t`, which overruns
both blocks. -/
def memcpy {α : Type} (dst src : List α) (n : Int) : Option (List α) :=
  if 0 ≤ n ∧ n ≤ src.length ∧ n ≤ dst.length then
    some (src.take n.toNat ++ dst.drop n.toNat)
  else none

/-- The call `malloc(n * sizeof(elem))`.  `ok` says whether the allocator grants the
request and `junk` is the unspecified initial content.  A negative `n` is converted to
a `size_t` larger than the address space, and such a request is refused. -/
def malloc {α : Type} (ok : Bool) (n : Int) (junk : Nat → α) : Option (List α) :=
  if ok = true ∧ 0 ≤ n then some ((List.range n.toNat).map junk) else none

/-- The three heap blocks an `ann` owns, named after the field that points to them. -/
inductive Blk where
  | nodes_in_layer
  | weight
  | output
  deriving DecidableEq

/-- The call `free(p)` on the set of live blocks: nothing happens for a null pointer,
otherwise the block `b` that `p` points to is released. -/
def free {α : Type} (live : List Blk) (b : Blk) (p : Option α) : List Blk :=
  match p with
  | none => live
  | some _ => live.erase b

/-! ## The network (`typedef struct { ... } ann`) -/

/-- The struct `ann`. -/
structure ann (R : Type) where
  inputs : Int
  hiddens : Int
  hidden_layers : Int
  outputs : Int
  total_nodes : Int
  nodes_in_layer : Option (List Int)
  weights : Int
  weight : Option (List R)
  output : Option (List R)

/-- What the C library does during a call: `RAND_MAX`, the successive results of
`rand()`, whether the `k`-th `malloc` of the call succeeds, and the content of fresh
blocks. -/
structure Env (R : Type) where
  RAND_MAX : Int
  rand : Nat → Int
  malloc_ok : Nat → Bool
  junkInt : Nat → Int
  junk : Nat → R

/-! ## `ann_free` -/

/-- The function `ann_free`, together with the set of live heap blocks; the argument
`none` is the null `ann *`. -/
def ann_free {R : Type} (a : Option (ann R)) (live : List Blk) :
    Option (ann R) × List Blk :=
  match a with
  | none => (none, live)
  | some s =>
    let live1 := free live Blk.nodes_in_layer s.nodes_in_layer
    let s1 : ann R := { s with nodes_in_layer := none }
    let live2 := free live1 Blk.weight s1.weight
    let s2 : ann R := { s1 with weight := none }
    let live3 := free live2 Blk.output s2.output
    let s3 : ann R := { s2 with output := none }
    (some s3, live3)

/-! ## `ann_init` -/

/-- The expression `(rand() - RAND_MAX / 2) / (float)RAND_MAX` for the value `r` of
`rand()`: the difference is an `int`, converted to `float` for the division. -/
def weight_of_rand {R : Type} [IntCast R] [Div R] (RAND_MAX r : Int) : R :=
  ((r - RAND_MAX.tdiv 2 : Int) : R) / ((RAND_MAX : Int) : R)

/-- The loop `for (l = 1; l < hidden_layers + 1; l++)` of `ann_init`, with `n` iterations
left: it yields the block `nodes_in_layer`, the running `weights` and the final `l`. -/
def init_layers (hiddens : Int) : Nat → Int → List Int → Int → Option (List Int × Int × Int)
  | 0, l, nodes, weights => some (nodes, weights, l)
  | n + 1, l, nodes, weights => do
    let nodes1 ← store nodes l hiddens
    let prev ← load nodes1 (l - 1)
    init_layers hiddens n (l + 1) nodes1 (weights + prev * hiddens)

/-- The loop `for (int i = 0; i < weights; i++)` of `ann_init`, with `n` iterations left;
`k` counts the calls to `rand()` made so far. -/
def init_weights {R : Type} [IntCast R] [Div R] (env : Env R) :
    Nat → Int → Nat → List R → Option (List R × Nat)
  | 0, _, k, weight => some (weight, k)
  | n + 1, i, k, weight => do
    let weight1 ← store weight i (weight_of_rand env.RAND_MAX (env.rand k))
    init_weights env n (i + 1) (k + 1) weight1

/-- What a call of `ann_init` leaves behind: the returned code, the struct, the heap
blocks allocated by the call and still live, and the number of `rand()` calls. -/
structure InitResult (R : Type) where
  ret : Int
  net : ann R
  live : List Blk
  draws : Nat

/-- The function `ann_init`.  The result is `none` when the call writes outside a block. -/
def ann_init {R : Type} [IntCast R] [Div R] (env : Env R)
    (inputs outputs hiddens hidden_layers : Int) : Option (InitResult R) :=
  let a0 : ann R :=
    { inputs := inputs, hiddens := hiddens, hidden_layers := hidden_layers,
      outputs := outputs, total_nodes := inputs + outputs + hidden_layers * hiddens,
      nodes_in_layer := none, weights := 0, weight := none, output := none }
  match malloc (env.malloc_ok 0) (hidden_layers + 2) env.junkInt with
  | none => some { ret := -1, net := a0, live := [], draws := 0 }
  | some nodes0 => do
    let live1 := [Blk.nodes_in_layer]
    let nodes1 ← store nodes0 0 inputs
    let (nodes2, weights1, l) ← init_layers hiddens (hidden_layers + 1 - 1).toNat 1 nodes1 0
    let nodes3 ← store nodes2 l outputs
    let weights := weights1 + hiddens * outputs
    let a1 : ann R := { a0 with nodes_in_layer := some nodes3, weights := weights }
    match malloc (env.malloc_ok 1) weights env.junk with
    | none =>
      let live2 := free live1 Blk.weight a1.weight
      some { ret := -1, net := a1, live := live2, draws := 0 }
    | some weight0 => do
      let live2 := live1 ++ [Blk.weight]
      let (weight1, k) ← init_weights env (weights - 0).toNat 0 0 weight0
      let a2 : ann R := { a1 with weight := some weight1 }
      match malloc (env.malloc_ok 2) a2.total_nodes env.junk with
      | none =>
        let live3 := free live2 Blk.weight a2.weight
        let a3 : ann R := { a2 with weight := none }
        let live4 := free live3 Blk.output a3.output
        let a4 : ann R := { a3 with output := none }
        some { ret := -1, net := a4, live := live4, draws := k }
      | some output0 =>
        some { ret := 0, net := { a2 with output := some output0 },
               live := live2 ++ [Blk.output], draws := k }

/-! ## `dotp` -/

/-- The loop of the scalar `dotp`, with `n` iterations left: `sum += *a++ * *b++`. -/
def dotp_loop {R : Type} [Add R] [Mul R] : Nat → List R → List R → R → Option R
  | 0, _, _, sum => some sum
  | n + 1, x :: a, y :: b, sum => dotp_loop n a b (sum + x * y)
  | _ + 1, _, _, _ => none

/-- The scalar `dotp` (neither `USE_INTRINSICS` nor `USE_DP_INTRINSICS`). -/
def dotp {R : Type} [Zero R] [Add R] [Mul R] (a b : List R) (size : Int) : Option R :=
  dotp_loop (size - 0).toNat a b 0

/-- The type `__m128`: four packed single-precision lanes. -/
structure M128 (R : Type) where
  e0 : R
  e1 : R
  e2 : R
  e3 : R

/-- The read `ma[0]` through a `__m128 *`, and the pointer `ma + 1`. -/
def load_ps {R : Type} : List R → Option (M128 R × List R)
  | x0 :: x1 :: x2 :: x3 :: rest => some (⟨x0, x1, x2, x3⟩, rest)
  | _ => none

/-- The intrinsic `_mm_mul_ps`: lane-wise product. -/
def _mm_mul_ps {R : Type} [Mul R] (x y : M128 R) : M128 R :=
  ⟨x.e0 * y.e0, x.e1 * y.e1, x.e2 * y.e2, x.e3 * y.e3⟩

/-- The intrinsic `_mm_add_ps`: lane-wise sum. -/
def _mm_add_ps {R : Type} [Add R] (x y : M128 R) : M128 R :=
  ⟨x.e0 + y.e0, x.e1 + y.e1, x.e2 + y.e2, x.e3 + y.e3⟩

/-- The intrinsic `_mm_hadd_ps`: sums of adjacent lanes, of `x` then of `y`. -/
def _mm_hadd_ps {R : Type} [Add R] (x y : M128 R) : M128 R :=
  ⟨x.e1 + x.e0, x.e3 + x.e2, y.e1 + y.e0, y.e3 + y.e2⟩

/-- The intrinsic `_mm_dp_ps(x, y, imm8)`: bits 4..7 of `imm8` select the lanes that are
multiplied, the products are summed as `(t3 + t2) + (t1 + t0)`, and bits 0..3 select the
lanes of the result that receive the sum (the others are zero). -/
def _mm_dp_ps {R : Type} [Zero R] [Add R] [Mul R] (x y : M128 R) (imm8 : Nat) : M128 R :=
  let t0 := if imm8.testBit 4 then x.e0 * y.e0 else 0
  let t1 := if imm8.testBit 5 then x.e1 * y.e1 else 0
  let t2 := if imm8.testBit 6 then x.e2 * y.e2 else 0
  let t3 := if imm8.testBit 7 then x.e3 * y.e3 else 0
  let s := (t3 + t2) + (t1 + t0)
  ⟨if imm8.testBit 0 then s else 0, if imm8.testBit 1 then s else 0,
   if imm8.testBit 2 then s else 0, if imm8.testBit 3 then s else 0⟩

/-- The loop of `dotp` under `USE_INTRINSICS`, with `n` iterations left. -/
def dotp_intrinsics_loop {R : Type} [Add R] [Mul R] :
    Nat → List R → List R → M128 R → Option (M128 R)
  | 0, _, _, sum => some sum
  | n + 1, ma, mb, sum => do
    let (va, ma1) ← load_ps ma
    let (vb, mb1) ← load_ps mb
    let prod := _mm_mul_ps va vb
    dotp_intrinsics_loop n ma1 mb1 (_mm_add_ps sum prod)

/-- The function `dotp` compiled with `USE_INTRINSICS`. -/
def dotp_intrinsics {R : Type} [Zero R] [Add R] [Mul R] (a b : List R) (size : Int) :
    Option R := do
  let sum ← dotp_intrinsics_loop (size.tdiv 4 - 0).toNat a b ⟨0, 0, 0, 0⟩
  let sum1 := _mm_hadd_ps sum sum
  let sum2 := _mm_hadd_ps sum1 sum1
  some sum2.e0

/-- The loop of `dotp` under `USE_DP_INTRINSICS`, with `n` iterations left. -/
def dotp_dp_intrinsics_loop {R : Type} [Zero R] [Add R] [Mul R] :
    Nat → List R → List R → R → Option R
  | 0, _, _, sum => some sum
  | n + 1, ma, mb, sum => do
    let (va, ma1) ← load_ps ma
    let (vb, mb1) ← load_ps mb
    let dp := _mm_dp_ps va vb 0xf1
    dotp_dp_intrinsics_loop n ma1 mb1 (sum + dp.e0)

/-- The function `dotp` compiled with `USE_DP_INTRINSICS`. -/
def dotp_dp_intrinsics {R : Type} [Zero R] [Add R] [Mul R] (a b : List R) (size : Int) :
    Option R :=
  dotp_dp_intrinsics_loop (size.tdiv 4 - 0).toNat a b 0

/-! ## `ann_inference` -/

/-- The cursors `w`, `i`, `o` of `ann_inference`, as offsets into `weight` (for `w`) and
into `output` (for `i` and `o`), and the content of the block `output`. -/
structure InferState (R : Type) where
  w : Int
  i : Int
  o : Int
  out : List R

/-- The loop `for (int h = 0; h < ann->nodes_in_layer[l]; h++)` of `ann_inference`, with
`n` iterations left. -/
def infer_neurons {R : Type} [Zero R] [Add R] [Mul R] (a : ann R) (l : Int) :
    Nat → InferState R → Option (InferState R)
  | 0, st => some st
  | n + 1, st => do
    let nodes ← a.nodes_in_layer
    let nodes_in_prev_layer ← load nodes (l - 1)
    let weight ← a.weight
    let pi ← ptr st.out st.i
    let pw ← ptr weight st.w
    let sum ← dotp pi pw nodes_in_prev_layer
    let out1 ← store st.out st.o sum
    infer_neurons a l n { st with w := st.w + nodes_in_prev_layer, o := st.o + 1, out := out1 }

/-- The loop `for (int l = 1; l < ann->hidden_layers + 2; l++)` of `ann_inference`, with
`n` iterations left. -/
def infer_layers {R : Type} [Zero R] [Add R] [Mul R] (a : ann R) :
    Nat → Int → InferState R → Option (InferState R)
  | 0, _, st => some st
  | n + 1, l, st => do
    let nodes ← a.nodes_in_layer
    let cnt ← load nodes l
    let st1 ← infer_neurons a l (cnt - 0).toNat st
    let prev ← load nodes (l - 1)
    infer_layers a n (l + 1) { st1 with i := st1.i + prev }

/-- The body of `ann_inference` up to the `return`: the state of the cursors and of the
block `output` when the loops are left. -/
def ann_inference_run {R : Type} [Zero R] [Add R] [Mul R] (a : ann R) (inputs : List R) :
    Option (InferState R) := do
  let out0 ← a.output
  let out1 ← memcpy out0 inputs a.inputs
  infer_layers a (a.hidden_layers + 2 - 1).toNat 1
    { w := 0, i := 0, o := a.inputs, out := out1 }

/-- What `ann_inference` returns: the struct after the call, the offset in `output` of
the returned pointer, and the elements from that pointer to the end of the block. -/
structure InferResult (R : Type) where
  net : ann R
  off : Int
  view : List R

/-- The function `ann_inference`. -/
def ann_inference {R : Type} [Zero R] [Add R] [Mul R] (a : ann R) (inputs : List R) :
    Option (InferResult R) := do
  let st ← ann_inference_run a inputs
  let view ← ptr st.out (a.total_nodes - a.outputs)
  some { net := { a with output := some st.out }, off := a.total_nodes - a.outputs,
         view := view }

/-! ## Notions of the specification -/

/-- The `len` elements of `xs` from index `off` on. -/
def segment {α : Type} (xs : List α) (off len : Nat) : List α := (xs.drop off).take len

/-- The offset `n_0 + ... + n_(l-1)` of layer `l` in the activation buffer. -/
def layer_offset (n : List Nat) (l : Nat) : Nat := (n.take l).sum

/-- The offset of the weights of layer `l` in the weight buffer: the sum over
`j = 1 .. l-1` of `n_(j-1) * n_j`. -/
def weight_offset (n : List Nat) (l : Nat) : Nat :=
  ∑ j ∈ Finset.range (l - 1), n.getD j 0 * n.getD (j + 1) 0

/-- The sum over the consecutive pairs of `nodes` of the product of the pair: the number
of weights of a fully connected network with these layer widths. -/
def layer_pair_sum : List Int → Int
  | a :: b :: rest => a * b + layer_pair_sum (b :: rest)
  | _ => 0

/-! ## Closed forms of what `ann_init` computes

The theorem `ann_init_eq` below proves that `ann_init` computes them. -/

/-- The struct after the `memset` and the five assignments that open `ann_init`. -/
def init_fields (R : Type) (inputs outputs hiddens hidden_layers : Int) : ann R :=
  { inputs := inputs, hiddens := hiddens, hidden_layers := hidden_layers,
    outputs := outputs, total_nodes := inputs + outputs + hidden_layers * hiddens,
    nodes_in_layer := none, weights := 0, weight := none, output := none }

/-- The content `ann_init` gives to `nodes_in_layer`: `inputs`, then `hidden_layers` times
`hiddens`, then `outputs`. -/
def init_nodes (inputs outputs hiddens hidden_layers : Int) : List Int :=
  inputs :: (List.replicate hidden_layers.toNat hiddens ++ [outputs])

/-- The value `ann_init` gives to `weights`: what the loop over the hidden layers adds
up, plus `hiddens * outputs`. -/
def init_weight_count (inputs outputs hiddens hidden_layers : Int) : Int :=
  (if hidden_layers.toNat = 0 then 0
    else inputs * hiddens + (hidden_layers - 1) * (hiddens * hiddens)) + hiddens * outputs

/-- The layer widths of the network `ann_init` builds, as natural numbers: `inputs`, then
`hidden_layers` times `hiddens`, then `outputs`. -/
def init_widths (inputs outputs hiddens hidden_layers : Int) : List Nat :=
  inputs.toNat :: (List.replicate hidden_layers.toNat hiddens.toNat ++ [outputs.toNat])

/-! ## Concrete inputs -/

/-- A network state over the integers with layer widths 2, 2, 1. -/
def net221 : ann Int :=
  { inputs := 2, hiddens := 2, hidden_layers := 1, outputs := 1, total_nodes := 5,
    nodes_in_layer := some [2, 2, 1], weights := 6, weight := some [1, 2, 3, 4, 5, 6],
    output := some [9, 9, 9, 9, 9] }

/-- A C library over the rationals with `RAND_MAX = 2147483647`, a fixed stream of
`rand()` results, fresh blocks filled with zeros, and `malloc` outcomes given by `ok`. -/
def env_of (ok : Nat → Bool) : Env ℚ :=
  { RAND_MAX := 2147483647,
    rand := fun k => (1103515245 * (k : Int) + 12345) % 2147483648,
    malloc_ok := ok,
    junkInt := fun _ => 0,
    junk := fun _ => 0 }

/-- The state `net221` after `ann_free`: the three pointers are null. -/
def net221_freed : ann Int :=
  { net221 with nodes_in_layer := none, weight := none, output := none }

/-! ## Valid states and sequences of calls -/

/-- The struct `a` is a network with layer widths `ns` and weights `wt`: the fields agree
with the widths, the weight block holds the weights of all layers and the activation
block holds one entry per node.  Nothing is said of what the activation block holds. -/
def valid_state {R : Type} (ns : List Nat) (wt : List R) (a : ann R) : Prop :=
  a.nodes_in_layer = some (ns.map (Nat.cast : Nat → Int)) ∧ a.weight = some wt ∧
  0 ≤ a.hidden_layers ∧ a.hidden_layers + 2 = ns.length ∧
  a.inputs = ns.getD 0 0 ∧ a.outputs = ns.getD (ns.length - 1) 0 ∧
  a.total_nodes = ns.sum ∧ weight_offset ns ns.length ≤ wt.length ∧
  ∃ out, a.output = some out ∧ out.length = ns.sum

/-- A sequence of calls of `ann_inference`, one per input of the list, each on the struct
the previous call left; the result is the struct after the last call. -/
def ann_inference_seq {R : Type} [Zero R] [Add R] [Mul R] (a : ann R) :
    List (List R) → Option (ann R)
  | [] => some a
  | y :: ys => do
    let res ← ann_inference a y
    ann_inference_seq res.net ys

/-! ## `ann_inference` with the kernel as a parameter and a log of its calls -/

/-- One call `dotp(i, w, nodes_in_prev_layer)` made by `ann_inference`, followed by the
store `*o++ = sum`: the layer `l` being computed, the offset of `i` in `output`, the
`size` argument, and the offset of `o` in `output`. -/
structure KernelCall where
  layer : Int
  read_at : Int
  size : Int
  write_at : Int

/-- The loop of `infer_neurons` with the kernel `k` in place of the scalar `dotp` (the
build selects one of the three bodies of `dotp`), recording every call. -/
def infer_neurons_with {R : Type} (k : List R → List R → Int → Option R) (a : ann R)
    (l : Int) : Nat → InferState R × List KernelCall →
      Option (InferState R × List KernelCall)
  | 0, s => some s
  | n + 1, (st, log) => do
    let nodes ← a.nodes_in_layer
    let nodes_in_prev_layer ← load nodes (l - 1)
    let weight ← a.weight
    let pi ← ptr st.out st.i
    let pw ← ptr weight st.w
    let sum ← k pi pw nodes_in_prev_layer
    let out1 ← store st.out st.o sum
    infer_neurons_with k a l n
      ({ st with w := st.w + nodes_in_prev_layer, o := st.o + 1, out := out1 },
        log ++ [⟨l, st.i, nodes_in_prev_layer, st.o⟩])

/-- The loop of `infer_layers` with the kernel `k`, recording every call of the kernel. -/
def infer_layers_with {R : Type} (k : List R → List R → Int → Option R) (a : ann R) :
    Nat → Int → InferState R × List KernelCall → Option (InferState R × List KernelCall)
  | 0, _, s => some s
  | n + 1, l, s => do
    let nodes ← a.nodes_in_layer
    let cnt ← load nodes l
    let (st1, log1) ← infer_neurons_with k a l (cnt - 0).toNat s
    let prev ← load nodes (l - 1)
    infer_layers_with k a n (l + 1) ({ st1 with i := st1.i + prev }, log1)

/-- The body of `ann_inference` up to the `return`, with the kernel `k`, and the log of
the calls of the kernel. -/
def ann_inference_run_with {R : Type} (k : List R → List R → Int → Option R) (a : ann R)
    (inputs : List R) : Option (InferState R × List KernelCall) := do
  let out0 ← a.output
  let out1 ← memcpy out0 inputs a.inputs
  infer_layers_with k a (a.hidden_layers + 2 - 1).toNat 1
    ({ w := 0, i := 0, o := a.inputs, out := out1 }, [])

/-- The function `ann_inference` with the kernel `k`, and the log of the calls of the
kernel. -/
def ann_inference_with {R : Type} (k : List R → List R → Int → Option R) (a : ann R)
    (inputs : List R) : Option (InferResult R × List KernelCall) := do
  let (st, log) ← ann_inference_run_with k a inputs
  let view ← ptr st.out (a.total_nodes - a.outputs)
  some ({ net := { a with output := some st.out }, off := a.total_nodes - a.outputs,
          view := view }, log)

/-- The call `c` of the kernel is made for a layer `1 ≤ l ≤ L` of a network with widths
`ns`: it reads the whole segment of layer `l - 1`, from `n_0 + ... + n_(l-2)` on, and
its result is stored inside the segment of layer `l`. -/
def call_in_layer (ns : List Nat) (c : KernelCall) : Prop :=
  ∃ l : Nat, c.layer = l ∧ 1 ≤ l ∧ l < ns.length ∧
    c.read_at = layer_offset ns (l - 1) ∧ c.size = ns.getD (l - 1) 0 ∧
    c.read_at + c.size = layer_offset ns l ∧
    (layer_offset ns l : Int) ≤ c.write_at ∧ c.write_at < layer_offset ns (l + 1)

/-! ## The driver `main` -/

/-- The macro `INPUTS`. -/
def INPUTS : Int := 18 * 18

/-- The macro `HIDDEN`. -/
def HIDDEN : Int := 30 * 20

/-- The macro `RERUNS`. -/
def RERUNS : Nat := 1000

/-- What `main` does that can be seen from outside, in order: the header line and the
result line on the standard output, the message on the standard error, and the calls of
the three functions of the engine.  Of the result line only the field `output[0]` is kept:
the two timing fields are computed from `clock()` and the label is the macro `CFLAGS`. -/
inductive Event (R : Type) where
  | header_line
  | init_failed_message
  | result_line (output0 : R)
  | call_ann_init
  | call_ann_inference
  | call_ann_free

/-- What a run of `main` leaves: the exit code, the events in order, and the heap blocks
still allocated. -/
structure MainResult (R : Type) where
  exit : Int
  trace : List (Event R)
  live : List Blk

/-- The loop `for (int i = 0; i < RERUNS; i++)` of `main` around `ann_inference`, with `n`
iterations left: the struct, the pointer `output` last returned, and the events. -/
def main_loop {R : Type} [Zero R] [Add R] [Mul R] (input : List R) :
    Nat → ann R → Option (InferResult R) → List (Event R) →
      Option (ann R × Option (InferResult R) × List (Event R))
  | 0, a, output, trace => some (a, output, trace)
  | n + 1, a, _, trace => do
    let res ← ann_inference a input
    main_loop input n res.net (some res) (trace ++ [Event.call_ann_inference])

/-- The function `main`, for the arguments `argv` (`argc` is their number).  The stream
`env.rand` is the one `srand(1)` selects. -/
def main {R : Type} [IntCast R] [Div R] [Zero R] [Add R] [Mul R] (env : Env R)
    (argv : List String) : Option (MainResult R) :=
  if 1 < argv.length ∧ argv[1]? = some "--print-header-only" then
    some { exit := 0, trace := [Event.header_line], live := [] }
  else do
    let r ← ann_init env INPUTS 2 HIDDEN 1
    if r.ret ≠ 0 then
      some { exit := 1, trace := [Event.call_ann_init, Event.init_failed_message],
             live := r.live }
    else
      let input : List R := (List.range (INPUTS - 0).toNat).map
        (fun i => ((env.rand (r.draws + i) : Int) : R) / ((env.RAND_MAX : Int) : R))
      let (a, output, trace) ← main_loop input (RERUNS - 0) r.net none [Event.call_ann_init]
      let res ← output
      let output0 ← load res.view 0
      let (_, live) := ann_free (some a) r.live
      some { exit := 0,
             trace := trace ++ [Event.result_line output0, Event.call_ann_free],
             live := live }

/-! ## Binary32 arithmetic

The type `Float32` reads `float` as IEEE 754 binary32 with the default rounding (to
nearest, ties to even), each operation rounded on its own.  It carries the two
operations of the expression that makes the random weights: the conversion of an
`int` and the division. -/

/-- Rounding of a rational to the nearest integer, a tie going to the even neighbour. -/
def round_nearest_even (t : ℚ) : Int :=
  if t - ⌊t⌋ < 1 / 2 then ⌊t⌋
  else if 1 / 2 < t - ⌊t⌋ then ⌊t⌋ + 1
  else if ⌊t⌋ % 2 = 0 then ⌊t⌋ else ⌊t⌋ + 1

/-- The exponent `e` of the binade of `q` in binary32: `2 ^ e ≤ |q| < 2 ^ (e + 1)`, and
`-126` on the subnormal range below `2 ^ (-126)`. -/
def binade (q : ℚ) : Int := max (Int.log 2 |q|) (-126)

/-- Rounding of a rational to binary32: the nearest multiple of `2 ^ (e - 23)` (a 24-bit
significand), ties to even, and `none` (an infinity) when that is `2 ^ 128` or more in
magnitude. -/
def round_binary32 (q : ℚ) : Option ℚ :=
  let v : ℚ := round_nearest_even (q / 2 ^ (binade q - 23)) * 2 ^ (binade q - 23)
  if |v| < 2 ^ (128 : Int) then some v else none

/-- A `float` as a binary32 value: `some q` is the finite value `q`, and `none` stands for
an infinity or a NaN, whose further use is not modelled. -/
structure Float32 where
  val : Option ℚ

/-- The conversion `(float)z` of an `int`. -/
def Float32.ofInt (z : Int) : Float32 := ⟨round_binary32 z⟩

/-- The quotient `a / b` of two `float`s; a zero divisor gives an infinity or a NaN. -/
def Float32.div (a b : Float32) : Float32 :=
  match a.val, b.val with
  | some x, some y => if y = 0 then ⟨none⟩ else ⟨round_binary32 (x / y)⟩
  | _, _ => ⟨none⟩

instance : IntCast Float32 := ⟨Float32.ofInt⟩

instance : Div Float32 := ⟨Float32.div⟩

/-- The C library of `env_of` with `float` read as binary32. -/
def env_binary32 (ok : Nat → Bool) : Env Float32 :=
  { RAND_MAX := 2147483647,
    rand := fun k => (1103515245 * (k : Int) + 12345) % 2147483648,
    malloc_ok := ok,
    junkInt := fun _ => 0,
    junk := fun _ => ⟨some 0⟩ }

/-! ## The scalar kernel -/

/-- In a semiring the scalar loop adds to `s` the sum of the first `n` products. -/
theorem dotp_loop_sum {R : Type} [Semiring R] :
    ∀ (n : Nat) (a b : List R) (s : R), n ≤ a.length → n ≤ b.length →
      dotp_loop n a b s = some (s + ∑ k ∈ Finset.range n, a.getD k 0 * b.getD k 0)
  | 0, _, _, s, _, _ => by simp [dotp_loop]
  | n + 1, [], _, _, ha, _ => by simp at ha
  | n + 1, _ :: _, [], _, _, hb => by simp at hb
  | n + 1, x :: a, y :: b, s, ha, hb => by
    have ha1 : n ≤ a.length := by simpa using ha
    have hb1 : n ≤ b.length := by simpa using hb
    rw [dotp_loop, dotp_loop_sum n a b (s + x * y) ha1 hb1, Finset.sum_range_succ']
    simp [add_assoc, add_comm]

/-- With no law assumed on `+` and `*`, the scalar loop is the left fold of `+` over the
first `n` products, started at `s`. -/
theorem dotp_loop_fold {R : Type} [Add R] [Mul R] :
    ∀ (n : Nat) (a b : List R) (s : R), n ≤ a.length → n ≤ b.length →
      dotp_loop n a b s = some (((List.zipWith (· * ·) a b).take n).foldl (· + ·) s)
  | 0, _, _, s, _, _ => by simp [dotp_loop]
  | n + 1, [], _, _, ha, _ => by simp at ha
  | n + 1, _ :: _, [], _, _, hb => by simp at hb
  | n + 1, x :: a, y :: b, s, ha, hb => by
    have ha1 : n ≤ a.length := by simpa using ha
    have hb1 : n ≤ b.length := by simpa using hb
    rw [dotp_loop, dotp_loop_fold n a b (s + x * y) ha1 hb1]
    simp

/-- The loop reads only the first `n` elements of each operand. -/
theorem dotp_loop_take {R : Type} [Add R] [Mul R] :
    ∀ (n : Nat) (a b : List R) (s : R),
      dotp_loop n (a.take n) (b.take n) s = dotp_loop n a b s
  | 0, _, _, s => by simp [dotp_loop]
  | n + 1, [], b, s => by simp [dotp_loop]
  | n + 1, x :: a, [], s => by simp [dotp_loop]
  | n + 1, x :: a, y :: b, s => by
    simp only [List.take_succ_cons, dotp_loop]
    exact dotp_loop_take n a b _

/-! ## Memory accesses at natural-number offsets -/

theorem load_natCast {α : Type} (xs : List α) (i : Nat) : load xs (i : Int) = xs[i]? := by
  simp [load]

theorem store_natCast {α : Type} (xs : List α) (i : Nat) (v : α) (h : i < xs.length) :
    store xs (i : Int) v = some (xs.set i v) := by
  simp [store, h]

theorem ptr_natCast {α : Type} (xs : List α) (i : Nat) (h : i ≤ xs.length) :
    ptr xs (i : Int) = some (xs.drop i) := by
  simp [ptr, h]

theorem dotp_natCast {R : Type} [Zero R] [Add R] [Mul R] (a b : List R) (n : Nat) :
    dotp a b (n : Int) = dotp_loop n a b 0 := by
  simp [dotp]


/-! ## The loops of `ann_inference` -/

theorem segment_set_of_le {α : Type} (xs : List α) (off len o : Nat) (v : α)
    (h : off + len ≤ o) : segment (xs.set o v) off len = segment xs off len := by
  unfold segment
  apply List.ext_getElem?
  intro k
  simp only [List.getElem?_take, List.getElem?_drop]
  split
  · rw [List.getElem?_set_ne (by omega)]
  · rfl

theorem take_set_of_le {α : Type} (xs : List α) (m o : Nat) (v : α) (h : m ≤ o) :
    (xs.set o v).take m = xs.take m := by
  apply List.ext_getElem?
  intro k
  simp only [List.getElem?_take]
  split
  · rw [List.getElem?_set_ne (by omega)]
  · rfl

/-- The loop over the neurons of a layer: started with the read cursor `i`, the write cursor
`o` past the `p` elements read, and enough room in both blocks, it returns, advances `w` by
`n * p` and `o` by `n`, changes nothing outside the `n` entries from `o` on, and stores at
`o + h` the `dotp` of the segment at `i` with the weight block at `w + h * p`. -/
theorem infer_neurons_spec {R : Type} [Zero R] [Add R] [Mul R] (a : ann R)
    (nodes : List Int) (weight : List R) (l : Int) (p : Nat)
    (hn : a.nodes_in_layer = some nodes) (hw : a.weight = some weight)
    (hp : load nodes (l - 1) = some (p : Int)) :
    ∀ (n w i o : Nat) (out : List R), i + p ≤ o → w + n * p ≤ weight.length →
      o + n ≤ out.length →
      ∃ out1, infer_neurons a l n ⟨w, i, o, out⟩
          = some ⟨((w + n * p : Nat) : Int), i, ((o + n : Nat) : Int), out1⟩ ∧
        out1.length = out.length ∧ out1.take o = out.take o ∧
        (∀ j, o + n ≤ j → out1[j]? = out[j]?) ∧
        ∀ h, h < n → out1[o + h]? = dotp (segment out i p) (segment weight (w + h * p) p) p := by
  intro n
  induction n with
  | zero =>
    intro w i o out _ _ _
    exact ⟨out, by simp [infer_neurons], rfl, rfl, fun _ _ => rfl, fun h hh => absurd hh (by omega)⟩
  | succ n ih =>
    intro w i o out hio hwl hol
    have hmul : w + (n + 1) * p = (w + p) + n * p := by ring
    have hiL : i ≤ out.length := by omega
    have hwL : w ≤ weight.length := by
      have : 0 ≤ n * p := Nat.zero_le _
      rw [hmul] at hwl; omega
    have hwp : w + p ≤ weight.length := by
      have : 0 ≤ n * p := Nat.zero_le _
      rw [hmul] at hwl; omega
    have hdl : p ≤ (out.drop i).length := by simp; omega
    have hdw : p ≤ (weight.drop w).length := by simp; omega
    obtain ⟨v, hv⟩ : ∃ v, dotp (out.drop i) (weight.drop w) (p : Int) = some v :=
      ⟨_, by rw [dotp_natCast]; exact dotp_loop_fold p _ _ 0 hdl hdw⟩
    have hseg : dotp (segment out i p) (segment weight w p) (p : Int) = some v := by
      rw [← hv, dotp_natCast, dotp_natCast]
      exact dotp_loop_take p _ _ 0
    obtain ⟨out1, h1, h2, h3, h4, h5⟩ :=
      ih (w + p) i (o + 1) (out.set o v) (by omega) (by rw [← hmul]; simpa using hwl)
        (by simp; omega)
    refine ⟨out1, ?_, ?_, ?_, ?_, ?_⟩
    · rw [infer_neurons]
      simp only [hn, hw, hp, Option.bind_eq_bind, Option.some_bind, ptr_natCast _ _ hiL,
        ptr_natCast _ _ hwL, hv, store_natCast _ _ _ (show o < out.length by omega)]
      have e : (⟨(w : Int) + p, i, (o : Int) + 1, out.set o v⟩ : InferState R)
          = ⟨((w + p : Nat) : Int), i, ((o + 1 : Nat) : Int), out.set o v⟩ := by
        push_cast; rfl
      rw [e, h1]
      have e1 : w + p + n * p = w + (n + 1) * p := by ring
      have e2 : o + 1 + n = o + (n + 1) := by ring
      rw [e1, e2]
    · simpa using h2
    · have := congrArg (List.take o) h3
      simpa [List.take_take, take_set_of_le] using this
    · intro j hj
      rw [h4 j (by omega), List.getElem?_set_ne (by omega)]
    · intro h hh
      cases h with
      | zero =>
        have : out1[o]? = (out.set o v)[o]? := by
          have := congrArg (fun t => t[o]?) h3
          simpa [List.getElem?_take] using this
        simp only [Nat.add_zero, Nat.zero_mul]
        rw [this, hseg]
        simp [List.getElem?_set_self, show o < out.length by omega]
      | succ h =>
        have := h5 h (by omega)
        rw [segment_set_of_le _ _ _ _ _ hio] at this
        have e3 : o + 1 + h = o + (h + 1) := by ring
        have e4 : w + p + h * p = w + (h + 1) * p := by ring
        rw [e3, e4] at this
        exact this

theorem take_eq_of_take_eq {α : Type} {xs ys : List α} {m : Nat} (k : Nat)
    (h : xs.take m = ys.take m) (hk : k ≤ m) : xs.take k = ys.take k := by
  have := congrArg (List.take k) h
  simpa [List.take_take, Nat.min_eq_left hk] using this

theorem getElem?_eq_of_take_eq {α : Type} {xs ys : List α} {m : Nat} (j : Nat)
    (h : xs.take m = ys.take m) (hj : j < m) : xs[j]? = ys[j]? := by
  have := congrArg (fun t => t[j]?) h
  simpa [List.getElem?_take, hj] using this

theorem segment_eq_of_take_eq {α : Type} {xs ys : List α} {m : Nat} (off len : Nat)
    (h : xs.take m = ys.take m) (hm : off + len ≤ m) :
    segment xs off len = segment ys off len := by
  unfold segment
  apply List.ext_getElem?
  intro k
  simp only [List.getElem?_take, List.getElem?_drop]
  split
  · exact getElem?_eq_of_take_eq _ h (by omega)
  · rfl

theorem layer_offset_succ (ns : List Nat) (l : Nat) :
    layer_offset ns (l + 1) = layer_offset ns l + ns.getD l 0 := by
  unfold layer_offset
  by_cases h : l < ns.length
  · rw [List.sum_take_succ ns l h]
    simp [List.getD_eq_getElem?_getD, List.getElem?_eq_getElem h]
  · have h1 : ns.length ≤ l := by omega
    rw [List.take_of_length_le h1, List.take_of_length_le (by omega)]
    simp [List.getD_eq_getElem?_getD, List.getElem?_eq_none h1]

theorem layer_offset_mono (ns : List Nat) (l k : Nat) :
    layer_offset ns l ≤ layer_offset ns (l + k) := by
  induction k with
  | zero => exact Nat.le_refl _
  | succ k ih =>
    have := layer_offset_succ ns (l + k)
    rw [← Nat.add_assoc]; omega

theorem weight_offset_succ (ns : List Nat) (l : Nat) (hl : 1 ≤ l) :
    weight_offset ns (l + 1) = weight_offset ns l + ns.getD (l - 1) 0 * ns.getD l 0 := by
  unfold weight_offset
  obtain ⟨m, rfl⟩ : ∃ m, l = m + 1 := ⟨l - 1, by omega⟩
  simp [Finset.sum_range_succ]

theorem weight_offset_mono (ns : List Nat) (l k : Nat) (hl : 1 ≤ l) :
    weight_offset ns l ≤ weight_offset ns (l + k) := by
  induction k with
  | zero => exact Nat.le_refl _
  | succ k ih =>
    have := weight_offset_succ ns (l + k) (by omega)
    rw [← Nat.add_assoc]; omega

theorem load_nodes (ns : List Nat) (l : Nat) (h : l < ns.length) :
    load (ns.map (Nat.cast : Nat → Int)) (l : Int) = some ((ns.getD l 0 : Nat) : Int) := by
  rw [load_natCast]
  simp [List.getD_eq_getElem?_getD, List.getElem?_eq_getElem h]

/-- The loop over the layers, started at layer `l` with the cursors at the offsets of that
layer: it returns with the cursors at the offsets of layer `l + n`, changes nothing before
the segment of layer `l` nor after that of layer `l + n - 1`, and every entry of the
layers it processes is the `dotp` of the previous segment with its weight block. -/
theorem infer_layers_spec {R : Type} [Zero R] [Add R] [Mul R] (a : ann R)
    (ns : List Nat) (weight : List R)
    (hn : a.nodes_in_layer = some (ns.map (Nat.cast : Nat → Int))) (hw : a.weight = some weight) :
    ∀ (n l : Nat) (out : List R), 1 ≤ l → l + n ≤ ns.length →
      weight_offset ns (l + n) ≤ weight.length → layer_offset ns (l + n) ≤ out.length →
      ∃ out1, infer_layers a n (l : Int)
            ⟨(weight_offset ns l : Nat), (layer_offset ns (l - 1) : Nat),
              (layer_offset ns l : Nat), out⟩
          = some ⟨(weight_offset ns (l + n) : Nat), (layer_offset ns (l + n - 1) : Nat),
              (layer_offset ns (l + n) : Nat), out1⟩ ∧
        out1.length = out.length ∧
        out1.take (layer_offset ns l) = out.take (layer_offset ns l) ∧
        (∀ j, layer_offset ns (l + n) ≤ j → out1[j]? = out[j]?) ∧
        ∀ l1 h, l ≤ l1 → l1 < l + n → h < ns.getD l1 0 →
          out1[layer_offset ns l1 + h]?
            = dotp (segment out1 (layer_offset ns (l1 - 1)) (ns.getD (l1 - 1) 0))
                (segment weight (weight_offset ns l1 + h * ns.getD (l1 - 1) 0)
                  (ns.getD (l1 - 1) 0))
                ((ns.getD (l1 - 1) 0 : Nat) : Int) := by
  intro n
  induction n with
  | zero =>
    intro l out _ _ _ _
    exact ⟨out, by simp [infer_layers], rfl, rfl, fun _ _ => rfl,
      fun l1 h h1 h2 => absurd h2 (by omega)⟩
  | succ n ih =>
    intro l out hl hlen hwl hol
    have hl1 : ((l : Int) - 1) = ((l - 1 : Nat) : Int) := by omega
    have hcnt := load_nodes ns l (by omega)
    have hprev : load (ns.map (Nat.cast : Nat → Int)) ((l : Int) - 1)
        = some ((ns.getD (l - 1) 0 : Nat) : Int) := by
      rw [hl1]; exact load_nodes ns (l - 1) (by omega)
    have hlo : layer_offset ns l = layer_offset ns (l - 1) + ns.getD (l - 1) 0 := by
      have := layer_offset_succ ns (l - 1)
      rwa [Nat.sub_add_cancel hl] at this
    have hlo1 := layer_offset_succ ns l
    have hwo1 := weight_offset_succ ns l hl
    have hmw := weight_offset_mono ns (l + 1) n (by omega)
    have hml := layer_offset_mono ns (l + 1) n
    have hidx : l + 1 + n = l + (n + 1) := by ring
    rw [hidx] at hmw hml
    obtain ⟨out1, h1, h2, h3, h4, h5⟩ :=
      infer_neurons_spec a _ weight (l : Int) (ns.getD (l - 1) 0) hn hw hprev
        (ns.getD l 0) (weight_offset ns l) (layer_offset ns (l - 1)) (layer_offset ns l) out
        (by omega) (by rw [Nat.mul_comm]; omega) (by omega)
    obtain ⟨out2, k1, k2, k3, k4, k5⟩ :=
      ih (l + 1) out1 (by omega) (by omega) (by rw [hidx]; exact hwl)
        (by rw [hidx, h2]; exact hol)
    refine ⟨out2, ?_, ?_, ?_, ?_, ?_⟩
    · rw [infer_layers]
      simp only [hn, hcnt, hprev, Option.bind_eq_bind, Option.some_bind, Int.sub_zero,
        Int.toNat_ofNat, h1]
      have e : (⟨((weight_offset ns l + ns.getD l 0 * ns.getD (l - 1) 0 : Nat) : Int),
            ((layer_offset ns (l - 1) : Nat) : Int) + ((ns.getD (l - 1) 0 : Nat) : Int),
            ((layer_offset ns l + ns.getD l 0 : Nat) : Int), out1⟩ : InferState R)
          = ⟨(weight_offset ns (l + 1) : Nat), (layer_offset ns (l + 1 - 1) : Nat),
              (layer_offset ns (l + 1) : Nat), out1⟩ := by
        rw [hwo1, hlo1, Nat.add_sub_cancel, hlo, Nat.mul_comm (ns.getD l 0)]
        push_cast; rfl
      have e' : ((l : Int) + 1) = ((l + 1 : Nat) : Int) := by push_cast; rfl
      rw [e, e', k1, hidx]
    · rw [k2, h2]
    · rw [take_eq_of_take_eq _ k3 (by omega), h3]
    · intro j hj
      rw [k4 j (by rw [hidx]; exact hj), h4 j (by omega)]
    · intro l1 h hl1a hl1b hh
      by_cases hc : l1 = l
      · subst hc
        have t1 : out2[layer_offset ns l1 + h]? = out1[layer_offset ns l1 + h]? :=
          getElem?_eq_of_take_eq _ k3 (by omega)
        have t2 : out2.take (layer_offset ns l1) = out.take (layer_offset ns l1) := by
          rw [take_eq_of_take_eq _ k3 (by omega), h3]
        rw [t1, h5 h hh, segment_eq_of_take_eq _ _ t2 (by omega)]
      · exact k5 l1 h (by omega) (by omega) hh

theorem layer_offset_zero (ns : List Nat) : layer_offset ns 0 = 0 := by
  simp [layer_offset]

theorem layer_offset_one (ns : List Nat) : layer_offset ns 1 = ns.getD 0 0 := by
  have := layer_offset_succ ns 0
  simpa [layer_offset_zero] using this

theorem layer_offset_length (ns : List Nat) : layer_offset ns ns.length = ns.sum := by
  simp [layer_offset]

theorem weight_offset_one (ns : List Nat) : weight_offset ns 1 = 0 := by
  simp [weight_offset]

theorem memcpy_natCast {α : Type} (dst src : List α) (n : Nat) (hs : n ≤ src.length)
    (hd : n ≤ dst.length) : memcpy dst src (n : Int) = some (src.take n ++ dst.drop n) := by
  simp [memcpy, hs, hd]

/-- The body of `ann_inference` on a state with layer widths `ns`: it returns, the weight
cursor ends at the total number of weights, the write cursor at the sum of the widths,
segment 0 is the input and every later entry is the `dotp` of the previous segment with
its weight block; entries past the last segment are untouched. -/
theorem ann_inference_run_spec {R : Type} [Zero R] [Add R] [Mul R] (a : ann R)
    (ns : List Nat) (weight out0 x : List R)
    (hn : a.nodes_in_layer = some (ns.map (Nat.cast : Nat → Int)))
    (hw : a.weight = some weight) (ho : a.output = some out0)
    (h0 : 0 ≤ a.hidden_layers) (hL : a.hidden_layers + 2 = ns.length)
    (hin : a.inputs = ns.getD 0 0) (hx : x.length = ns.getD 0 0)
    (hwl : weight_offset ns ns.length ≤ weight.length) (hol : ns.sum ≤ out0.length) :
    ∃ out, ann_inference_run a x
          = some ⟨(weight_offset ns ns.length : Nat), (layer_offset ns (ns.length - 1) : Nat),
              (ns.sum : Nat), out⟩ ∧
      out.length = out0.length ∧ out.take (ns.getD 0 0) = x ∧
      (∀ j, ns.sum ≤ j → out[j]? = out0[j]?) ∧
      ∀ l h, 1 ≤ l → l < ns.length → h < ns.getD l 0 →
        out[layer_offset ns l + h]?
          = dotp (segment out (layer_offset ns (l - 1)) (ns.getD (l - 1) 0))
              (segment weight (weight_offset ns l + h * ns.getD (l - 1) 0)
                (ns.getD (l - 1) 0))
              ((ns.getD (l - 1) 0 : Nat) : Int) := by
  have hlen : 2 ≤ ns.length := by omega
  have hcount : (a.hidden_layers + 2 - 1).toNat = ns.length - 1 := by omega
  have hidx : 1 + (ns.length - 1) = ns.length := by omega
  have hn0 : ns.getD 0 0 ≤ ns.sum := by
    have := layer_offset_mono ns 1 (ns.length - 1)
    rwa [hidx, layer_offset_length, layer_offset_one] at this
  have hcpy := memcpy_natCast out0 x (ns.getD 0 0) (by omega) (by omega)
  rw [List.take_of_length_le (by omega)] at hcpy
  obtain ⟨out, k1, k2, k3, k4, k5⟩ :=
    infer_layers_spec a ns weight hn hw (ns.length - 1) 1 (x ++ out0.drop (ns.getD 0 0))
      (by omega) (by omega) (by rw [hidx]; exact hwl)
      (by rw [hidx, layer_offset_length, List.length_append, List.length_drop]; omega)
  rw [hidx, layer_offset_length] at k1 k4
  refine ⟨out, ?_, ?_, ?_, ?_, ?_⟩
  · rw [ann_inference_run]
    simp only [ho, hin, hcpy, hcount, Option.bind_eq_bind, Option.some_bind]
    rw [← k1]
    simp [weight_offset_one, layer_offset_one, layer_offset_zero]
  · rw [k2, List.length_append, List.length_drop]; omega
  · rw [layer_offset_one] at k3
    rw [k3, ← hx]; simp
  · intro j hj
    rw [k4 j hj, List.getElem?_append_right (by omega), List.getElem?_drop]
    congr 1; omega
  · intro l h hl1 hl2 hh
    exact k5 l h hl1 (by omega) hh

/-! ## The scalar kernel and the activations (C2, C1) -/

theorem segment_length {α : Type} (xs : List α) (off len : Nat) (h : off + len ≤ xs.length) :
    (segment xs off len).length = len := by
  simp only [segment, List.length_take, List.length_drop]; omega

theorem segment_getD {α : Type} (xs : List α) (off len k : Nat) (d : α) (h : k < len) :
    (segment xs off len).getD k d = xs.getD (off + k) d := by
  simp [segment, List.getD_eq_getElem?_getD, List.getElem?_take, h]

theorem dotp_segment_sum {R : Type} [Semiring R] (xs ys : List R) (i j p : Nat)
    (hx : i + p ≤ xs.length) (hy : j + p ≤ ys.length) :
    dotp (segment xs i p) (segment ys j p) (p : Int)
      = some (∑ k ∈ Finset.range p, xs.getD (i + k) 0 * ys.getD (j + k) 0) := by
  rw [dotp_natCast, dotp_loop_sum p _ _ 0 (by rw [segment_length _ _ _ hx])
    (by rw [segment_length _ _ _ hy]), zero_add]
  congr 1
  apply Finset.sum_congr rfl
  intro k hk
  have hk1 : k < p := Finset.mem_range.mp hk
  rw [segment_getD _ _ _ _ _ hk1, segment_getD _ _ _ _ _ hk1]

/-- C2: for `0 ≤ size` not exceeding the lengths of `a` and `b`, the scalar `dotp` returns
the sum over `k < size` of `a[k] * b[k]`, obtained by adding the products to `0` in index
order; it returns `0` for `size = 0`.  The kernel is a function of its operands to a
value: it has no output through which an operand could change. -/
theorem dotp_scalar_sum {R : Type} [Semiring R] (a b : List R) (size : Int)
    (h0 : 0 ≤ size) (ha : size ≤ a.length) (hb : size ≤ b.length) :
    dotp a b size = some (∑ k ∈ Finset.range size.toNat, a.getD k 0 * b.getD k 0) ∧
    dotp a b size
      = some (((List.zipWith (· * ·) a b).take size.toNat).foldl (· + ·) 0) ∧
    dotp a b 0 = some 0 := by
  have ha1 : size.toNat ≤ a.length := by omega
  have hb1 : size.toNat ≤ b.length := by omega
  refine ⟨?_, ?_, ?_⟩
  · rw [dotp, Int.sub_zero, dotp_loop_sum _ _ _ 0 ha1 hb1, zero_add]
  · rw [dotp, Int.sub_zero, dotp_loop_fold _ _ _ 0 ha1 hb1]
  · simp [dotp, dotp_loop]

theorem dotp_scalar_sum_witness :
    dotp ([1, 2, 3] : List Int) [4, 5, 6, 7] 3
        = some (∑ k ∈ Finset.range (3 : Int).toNat,
            ([1, 2, 3] : List Int).getD k 0 * ([4, 5, 6, 7] : List Int).getD k 0) ∧
      dotp ([1, 2, 3] : List Int) [4, 5, 6, 7] 3
        = some (((List.zipWith (· * ·) ([1, 2, 3] : List Int) [4, 5, 6, 7]).take
            (3 : Int).toNat).foldl (· + ·) 0) ∧
      dotp ([1, 2, 3] : List Int) [4, 5, 6, 7] 0 = some 0 :=
  dotp_scalar_sum ([1, 2, 3] : List Int) [4, 5, 6, 7] 3 (by decide) (by decide) (by decide)

/-- C1: in a network state with layer widths `n_0 .. n_L` (`L = hidden_layers + 1`), a
weight block holding at least the sum of `n_(l-1) * n_l` values, an activation block
holding the sum of the widths, and an input `x` of length `n_0`, `ann_inference` returns
and leaves an activation block whose segment 0 is `x` and in which, for every layer
`1 ≤ l ≤ L` and neuron `h < n_l`, the entry at `(n_0 + ... + n_(l-1)) + h` is the result of
the scalar `dotp` on the whole segment of layer `l - 1` and the weight block of length
`n_(l-1)` at `weight_offset l + h * n_(l-1)`, that is the sum of the products: the raw sum
is stored, nothing is applied to it. -/
theorem ann_inference_activations {R : Type} [Semiring R] (a : ann R)
    (ns : List Nat) (weight out0 x : List R)
    (hn : a.nodes_in_layer = some (ns.map (Nat.cast : Nat → Int)))
    (hw : a.weight = some weight) (ho : a.output = some out0)
    (h0 : 0 ≤ a.hidden_layers) (hL : a.hidden_layers + 2 = ns.length)
    (hin : a.inputs = ns.getD 0 0) (hx : x.length = ns.getD 0 0)
    (hwl : weight_offset ns ns.length ≤ weight.length) (hol : ns.sum ≤ out0.length)
    (hret : 0 ≤ a.total_nodes - a.outputs ∧ a.total_nodes - a.outputs ≤ out0.length) :
    ∃ r out, ann_inference a x = some r ∧ r.net.output = some out ∧
      out.length = out0.length ∧ segment out 0 (ns.getD 0 0) = x ∧
      ∀ l h, 1 ≤ l → l < ns.length → h < ns.getD l 0 →
        out[layer_offset ns l + h]?
            = dotp (segment out (layer_offset ns (l - 1)) (ns.getD (l - 1) 0))
                (segment weight (weight_offset ns l + h * ns.getD (l - 1) 0)
                  (ns.getD (l - 1) 0))
                ((ns.getD (l - 1) 0 : Nat) : Int) ∧
          out[layer_offset ns l + h]?
            = some (∑ k ∈ Finset.range (ns.getD (l - 1) 0),
                out.getD (layer_offset ns (l - 1) + k) 0
                  * weight.getD (weight_offset ns l + h * ns.getD (l - 1) 0 + k) 0) := by
  obtain ⟨out, k1, k2, k3, _, k5⟩ :=
    ann_inference_run_spec a ns weight out0 x hn hw ho h0 hL hin hx hwl hol
  have hp : ptr out (a.total_nodes - a.outputs)
      = some (out.drop (a.total_nodes - a.outputs).toNat) := by
    simp [ptr, hret.1, k2, hret.2]
  refine ⟨⟨{ a with output := some out }, a.total_nodes - a.outputs,
    out.drop (a.total_nodes - a.outputs).toNat⟩, out, ?_, rfl, k2, ?_, ?_⟩
  · rw [ann_inference]
    simp only [k1, hp, Option.bind_eq_bind, Option.some_bind]
  · simpa [segment] using k3
  · intro l h hl1 hl2 hh
    have e := k5 l h hl1 hl2 hh
    refine ⟨e, ?_⟩
    rw [e]
    have hlo : layer_offset ns l = layer_offset ns (l - 1) + ns.getD (l - 1) 0 := by
      have := layer_offset_succ ns (l - 1)
      rwa [Nat.sub_add_cancel hl1] at this
    have hm1 := layer_offset_mono ns l (ns.length - l)
    rw [Nat.add_sub_cancel' (Nat.le_of_lt hl2), layer_offset_length] at hm1
    have hm2 := weight_offset_mono ns (l + 1) (ns.length - (l + 1)) (by omega)
    rw [Nat.add_sub_cancel' (by omega), weight_offset_succ ns l hl1] at hm2
    have hmul : (h + 1) * ns.getD (l - 1) 0 ≤ ns.getD l 0 * ns.getD (l - 1) 0 :=
      Nat.mul_le_mul_right _ (by omega)
    rw [Nat.mul_comm (ns.getD l 0)] at hmul
    rw [Nat.add_mul, Nat.one_mul] at hmul
    exact dotp_segment_sum out weight _ _ _ (by omega) (by omega)

theorem ann_inference_activations_witness :
    ∃ r out, ann_inference net221 [10, 20] = some r ∧ r.net.output = some out ∧
      out.length = 5 ∧ segment out 0 2 = [10, 20] ∧
      out[layer_offset [2, 2, 1] 2 + 0]?
        = some (∑ k ∈ Finset.range 2, out.getD (layer_offset [2, 2, 1] 1 + k) 0
            * ([1, 2, 3, 4, 5, 6] : List Int).getD (weight_offset [2, 2, 1] 2 + 0 * 2 + k) 0) :=
  let ⟨r, out, h1, h2, h3, h4, h5⟩ :=
    ann_inference_activations net221 [2, 2, 1] [1, 2, 3, 4, 5, 6] [9, 9, 9, 9, 9] [10, 20]
      rfl rfl rfl (by decide) (by decide) (by decide) (by decide)
      (by simp [weight_offset, Finset.sum_range_succ]) (by decide) (by decide)
  ⟨r, out, h1, h2, h3, h4, (h5 2 0 (by decide) (by decide) (by decide)).2⟩

/-! ## The loops of `ann_init` -/

theorem store_append {α : Type} (q : List α) (x : α) (rest : List α) (v : α) :
    store (q ++ x :: rest) (q.length : Int) v = some (q ++ v :: rest) := by
  rw [store_natCast _ _ _ (by simp)]
  simp

theorem load_append {α : Type} (q : List α) (x : α) (rest : List α) :
    load (q ++ x :: rest) (q.length : Int) = some x := by
  rw [load_natCast, List.getElem?_append_right (Nat.le_refl _)]
  simp

/-- The loop over the hidden layers of `ann_init`, started at index `q.length + 1` on the
block `q ++ h0 :: rest`: it overwrites the next `n` entries with `hiddens` and adds
`h0 * hiddens` for the first of them and `hiddens * hiddens` for each other one. -/
theorem init_layers_spec (h : Int) :
    ∀ (n : Nat) (q : List Int) (h0 : Int) (rest : List Int) (w : Int), n ≤ rest.length →
      init_layers h n ((q.length + 1 : Nat) : Int) (q ++ h0 :: rest) w
        = some (q ++ h0 :: (List.replicate n h ++ rest.drop n),
            w + (if n = 0 then 0 else h0 * h + ((n : Int) - 1) * (h * h)),
            ((q.length + 1 + n : Nat) : Int)) := by
  intro n
  induction n with
  | zero => intro q h0 rest w _; simp [init_layers]
  | succ n ih =>
    intro q h0 rest w hr
    cases rest with
    | nil => simp at hr
    | cons x rest =>
      have hr1 : n ≤ rest.length := by simpa using hr
      have e1 : store (q ++ h0 :: x :: rest) ((q.length + 1 : Nat) : Int) h
          = some (q ++ h0 :: h :: rest) := by
        have := store_append (q ++ [h0]) x rest h
        simpa using this
      have e2 : load (q ++ h0 :: h :: rest) (((q.length + 1 : Nat) : Int) - 1) = some h0 := by
        have := load_append q h0 (h :: rest)
        simpa using this
      have e3 := ih (q ++ [h0]) h rest (w + h0 * h) hr1
      simp only [List.length_append, List.length_singleton, List.append_assoc,
        List.singleton_append] at e3
      rw [init_layers]
      simp only [e1, e2, Option.bind_eq_bind, Option.some_bind]
      have e4 : (((q.length + 1 : Nat) : Int) + 1) = ((q.length + 1 + 1 : Nat) : Int) := by
        push_cast; rfl
      rw [e4, e3]
      have e5 : q.length + 1 + 1 + n = q.length + 1 + (n + 1) := by ring
      simp only [List.replicate_succ, List.cons_append, List.drop_succ_cons, e5]
      congr 3
      by_cases hn : n = 0
      · subst hn; simp
      · simp only [hn, if_false, Nat.succ_ne_zero]
        push_cast; ring

/-- The loop of `ann_init` that fills the weights: entry `q.length + j` receives the weight
made from the `(k + j)`-th result of `rand()`. -/
theorem init_weights_spec {R : Type} [IntCast R] [Div R] (env : Env R) :
    ∀ (n : Nat) (q rest : List R) (k : Nat), n ≤ rest.length →
      init_weights env n (q.length : Int) k (q ++ rest)
        = some (q ++ (List.range' k n).map
              (fun j => weight_of_rand env.RAND_MAX (env.rand j)) ++ rest.drop n, k + n) := by
  intro n
  induction n with
  | zero => intro q rest k _; simp [init_weights]
  | succ n ih =>
    intro q rest k hr
    cases rest with
    | nil => simp at hr
    | cons x rest =>
      have hr1 : n ≤ rest.length := by simpa using hr
      have e3 := ih (q ++ [weight_of_rand env.RAND_MAX (env.rand k)]) rest (k + 1) hr1
      simp only [List.length_append, List.length_singleton, List.append_assoc,
        List.singleton_append] at e3
      rw [init_weights]
      simp only [store_append, Option.bind_eq_bind, Option.some_bind]
      have e4 : ((q.length : Int) + 1) = ((q.length + 1 : Nat) : Int) := by push_cast; rfl
      rw [e4, e3]
      simp [List.range'_succ, Nat.add_assoc, Nat.add_comm 1 n]

theorem ann_init_prefix (i o h : Int) (m : Nat) (nodes0 : List Int)
    (hlen : nodes0.length = m + 2) :
    ∃ nodes1 nodes2, store nodes0 0 i = some nodes1 ∧
      init_layers h m 1 nodes1 0
        = some (nodes2, (if m = 0 then 0 else i * h + ((m : Int) - 1) * (h * h)),
            ((1 + m : Nat) : Int)) ∧
      store nodes2 ((1 + m : Nat) : Int) o = some (i :: (List.replicate m h ++ [o])) := by
  cases nodes0 with
  | nil => simp at hlen
  | cons x0 rest =>
    have hr : rest.length = m + 1 := by simpa using hlen
    have hd : ∃ y, rest.drop m = [y] := by
      have h1 : (rest.drop m).length = 1 := by simp [hr]
      match hrd : rest.drop m, h1 with
      | [y], _ => exact ⟨y, rfl⟩
    obtain ⟨y, hy⟩ := hd
    refine ⟨i :: rest, i :: (List.replicate m h ++ [y]), ?_, ?_, ?_⟩
    · have := store_append ([] : List Int) x0 rest i
      simpa using this
    · have := init_layers_spec h m [] i rest 0 (by omega)
      simpa [hy] using this
    · have := store_append (i :: List.replicate m h) y [] o
      simp only [List.length_cons, List.length_replicate] at this
      rw [Nat.add_comm 1 m]
      simpa using this

/-- What `ann_init` returns for `hidden_layers ≥ 0`, by the outcome of its three `malloc`
calls. -/
theorem ann_init_eq {R : Type} [IntCast R] [Div R] (env : Env R) (i o h hl : Int)
    (h0 : 0 ≤ hl) :
    ann_init env i o h hl =
      if env.malloc_ok 0 = true then
        if env.malloc_ok 1 = true ∧ 0 ≤ init_weight_count i o h hl then
          if env.malloc_ok 2 = true ∧ 0 ≤ i + o + hl * h then
            some { ret := 0,
                   net := { init_fields R i o h hl with
                            nodes_in_layer := some (init_nodes i o h hl),
                            weights := init_weight_count i o h hl,
                            weight := some ((List.range (init_weight_count i o h hl).toNat).map
                              (fun j => weight_of_rand env.RAND_MAX (env.rand j))),
                            output := some ((List.range (i + o + hl * h).toNat).map env.junk) },
                   live := [Blk.nodes_in_layer, Blk.weight, Blk.output],
                   draws := (init_weight_count i o h hl).toNat }
          else
            some { ret := -1,
                   net := { init_fields R i o h hl with
                            nodes_in_layer := some (init_nodes i o h hl),
                            weights := init_weight_count i o h hl },
                   live := [Blk.nodes_in_layer],
                   draws := (init_weight_count i o h hl).toNat }
        else
          some { ret := -1,
                 net := { init_fields R i o h hl with
                          nodes_in_layer := some (init_nodes i o h hl),
                          weights := init_weight_count i o h hl },
                 live := [Blk.nodes_in_layer], draws := 0 }
      else some { ret := -1, net := init_fields R i o h hl, live := [], draws := 0 } := by
  by_cases hk0 : env.malloc_ok 0 = true
  · obtain ⟨nodes1, nodes2, p1, p2, p3⟩ :=
      ann_init_prefix i o h hl.toNat ((List.range (hl + 2).toNat).map env.junkInt)
        (by simp; omega)
    have hm : (hl + 1 - 1).toNat = hl.toNat := by simp
    have hcast : ((hl.toNat : Nat) : Int) = hl := by omega
    have hW : (if hl.toNat = 0 then (0 : Int)
          else i * h + (((hl.toNat : Nat) : Int) - 1) * (h * h)) + h * o
        = init_weight_count i o h hl := by
      rw [hcast]; rfl
    have hmal0 : malloc (env.malloc_ok 0) (hl + 2) env.junkInt
        = some ((List.range (hl + 2).toNat).map env.junkInt) := by
      simp [malloc, hk0]; omega
    rw [if_pos hk0, ann_init]
    simp only [hmal0, p1, hm, p2, p3, hW, Option.bind_eq_bind, Option.some_bind]
    by_cases hk1 : env.malloc_ok 1 = true ∧ 0 ≤ init_weight_count i o h hl
    · have hmal1 : malloc (env.malloc_ok 1) (init_weight_count i o h hl) env.junk
          = some ((List.range (init_weight_count i o h hl).toNat).map env.junk) := by
        simp [malloc, hk1.1, hk1.2]
      have hfill := init_weights_spec env (init_weight_count i o h hl).toNat []
        ((List.range (init_weight_count i o h hl).toNat).map env.junk) 0 (by simp)
      simp only [List.length_nil, Nat.cast_zero, List.nil_append, Nat.zero_add] at hfill
      rw [List.drop_of_length_le (by simp), List.append_nil, ← List.range_eq_range'] at hfill
      rw [if_pos hk1]
      simp only [hmal1, Int.sub_zero, hfill, Option.bind_eq_bind, Option.some_bind]
      by_cases hk2 : env.malloc_ok 2 = true ∧ 0 ≤ i + o + hl * h
      · have hmal2 : malloc (env.malloc_ok 2) (i + o + hl * h) env.junk
            = some ((List.range (i + o + hl * h).toNat).map env.junk) := by
          simp [malloc, hk2.1, hk2.2]
        rw [if_pos hk2]
        simp only [hmal2]
        rfl
      · have hmal2 : malloc (env.malloc_ok 2) (i + o + hl * h) env.junk = none := by
          simp only [malloc, if_neg hk2]
        rw [if_neg hk2]
        simp only [hmal2]
        rfl
    · have hmal1 : malloc (env.malloc_ok 1) (init_weight_count i o h hl) env.junk = none := by
        simp only [malloc, if_neg hk1]
      rw [if_neg hk1]
      simp only [hmal1]
      rfl
  · have hmal0 : malloc (env.malloc_ok 0) (hl + 2) env.junkInt = none := by
      simp [malloc, hk0]
    rw [if_neg hk0, ann_init]
    simp only [hmal0]
    rfl

/-! ## Networks built by `ann_init` -/

theorem init_nodes_eq_widths (i o h hl : Int) (hi : 0 ≤ i) (ho : 0 ≤ o) (hh : 0 ≤ h) :
    init_nodes i o h hl = (init_widths i o h hl).map (Nat.cast : Nat → Int) := by
  simp [init_nodes, init_widths, Int.toNat_of_nonneg, hi, ho, hh]

theorem init_widths_length (i o h hl : Int) :
    (init_widths i o h hl).length = hl.toNat + 2 := by
  simp [init_widths]

theorem init_widths_sum (i o h hl : Int) (hi : 0 ≤ i) (ho : 0 ≤ o) (hh : 0 ≤ h)
    (h0 : 0 ≤ hl) : (((init_widths i o h hl).sum : Nat) : Int) = i + o + hl * h := by
  simp only [init_widths, List.sum_cons, List.sum_append, List.sum_replicate, List.sum_nil,
    smul_eq_mul, Nat.add_zero]
  push_cast
  rw [Int.toNat_of_nonneg hi, Int.toNat_of_nonneg ho, Int.toNat_of_nonneg hh,
    Int.toNat_of_nonneg h0]
  ring

theorem init_widths_getD_zero (i o h hl : Int) :
    (init_widths i o h hl).getD 0 0 = i.toNat := by
  simp [init_widths]

theorem init_widths_getD_hidden (i o h hl : Int) (j : Nat) (h1 : 1 ≤ j)
    (h2 : j ≤ hl.toNat) : (init_widths i o h hl).getD j 0 = h.toNat := by
  obtain ⟨k, rfl⟩ : ∃ k, j = k + 1 := ⟨j - 1, by omega⟩
  rw [init_widths, List.getD_cons_succ, List.getD_eq_getElem?_getD,
    List.getElem?_append_left (by simp; omega), List.getElem?_replicate,
    if_pos (by omega)]
  rfl

theorem init_widths_getD_last (i o h hl : Int) :
    (init_widths i o h hl).getD (hl.toNat + 1) 0 = o.toNat := by
  rw [init_widths, List.getD_cons_succ, List.getD_eq_getElem?_getD,
    List.getElem?_append_right (by simp)]
  simp

theorem init_widths_weight_offset (i o h hl : Int) (hl1 : 1 ≤ hl) :
    weight_offset (init_widths i o h hl) (init_widths i o h hl).length
      = i.toNat * h.toNat + (hl.toNat - 1) * (h.toNat * h.toNat) + h.toNat * o.toNat := by
  obtain ⟨k, hk⟩ : ∃ k, hl.toNat = k + 1 := ⟨hl.toNat - 1, by omega⟩
  rw [init_widths_length, weight_offset, hk]
  have e : k + 1 + 2 - 1 = (k + 1) + 1 := by omega
  rw [e, Finset.sum_range_succ, Finset.sum_range_succ']
  have hmid : ∀ j ∈ Finset.range k,
      (init_widths i o h hl).getD (j + 1) 0 * (init_widths i o h hl).getD (j + 1 + 1) 0
        = h.toNat * h.toNat := by
    intro j hj
    have hj1 := Finset.mem_range.mp hj
    rw [init_widths_getD_hidden i o h hl (j + 1) (by omega) (by omega),
      init_widths_getD_hidden i o h hl (j + 1 + 1) (by omega) (by omega)]
  rw [Finset.sum_congr rfl hmid, Finset.sum_const, Finset.card_range, smul_eq_mul,
    init_widths_getD_zero, init_widths_getD_hidden i o h hl (0 + 1) (by omega) (by omega),
    init_widths_getD_hidden i o h hl (k + 1) (by omega) (by omega)]
  have := init_widths_getD_last i o h hl
  rw [hk] at this
  rw [this]
  simp only [Nat.add_sub_cancel]
  ring

theorem init_weight_count_eq (i o h hl : Int) (hi : 0 ≤ i) (ho : 0 ≤ o) (hh : 0 ≤ h)
    (hl1 : 1 ≤ hl) :
    init_weight_count i o h hl
      = ((weight_offset (init_widths i o h hl) (init_widths i o h hl).length : Nat) : Int) := by
  have hne : hl.toNat ≠ 0 := by omega
  have hc : ((hl.toNat - 1 : Nat) : Int) = hl - 1 := by omega
  rw [init_widths_weight_offset i o h hl hl1, init_weight_count, if_neg hne]
  push_cast
  rw [hc, Int.toNat_of_nonneg hi, Int.toNat_of_nonneg ho, Int.toNat_of_nonneg hh]

/-- A call of `ann_init` that returns 0 had its three allocations granted and leaves the
struct of the success case. -/
theorem ann_init_success {R : Type} [IntCast R] [Div R] (env : Env R) (i o h hl : Int)
    (h0 : 0 ≤ hl) (r : InitResult R) (hr : ann_init env i o h hl = some r)
    (hret : r.ret = 0) :
    0 ≤ init_weight_count i o h hl ∧ 0 ≤ i + o + hl * h ∧
    r = { ret := 0,
          net := { init_fields R i o h hl with
                   nodes_in_layer := some (init_nodes i o h hl),
                   weights := init_weight_count i o h hl,
                   weight := some ((List.range (init_weight_count i o h hl).toNat).map
                     (fun j => weight_of_rand env.RAND_MAX (env.rand j))),
                   output := some ((List.range (i + o + hl * h).toNat).map env.junk) },
          live := [Blk.nodes_in_layer, Blk.weight, Blk.output],
          draws := (init_weight_count i o h hl).toNat } := by
  rw [ann_init_eq env i o h hl h0] at hr
  split at hr
  · split at hr
    · rename_i hk1
      split at hr
      · rename_i hk2
        simp only [Option.some.injEq] at hr
        exact ⟨hk1.2, hk2.2, hr.symm⟩
      · simp only [Option.some.injEq] at hr
        subst hr
        simp at hret
    · simp only [Option.some.injEq] at hr
      subst hr
      simp at hret
  · simp only [Option.some.injEq] at hr
    subst hr
    simp at hret

/-- A network built by `ann_init` with non-negative sizes and at least one hidden layer
is in the state `ann_inference_run_spec` asks for, with the widths `init_widths`. -/
theorem ann_init_well_formed {R : Type} [IntCast R] [Div R] (env : Env R) (i o h hl : Int)
    (hi : 0 ≤ i) (ho : 0 ≤ o) (hh : 0 ≤ h) (hl1 : 1 ≤ hl) (r : InitResult R)
    (hr : ann_init env i o h hl = some r) (hret : r.ret = 0) :
    ∃ wt out0, r.net.nodes_in_layer
        = some ((init_widths i o h hl).map (Nat.cast : Nat → Int)) ∧
      r.net.weight = some wt ∧ r.net.output = some out0 ∧
      r.net.hidden_layers = hl ∧ r.net.inputs = i ∧ r.net.outputs = o ∧
      r.net.hiddens = h ∧
      r.net.total_nodes = i + o + hl * h ∧
      r.net.weights = ((weight_offset (init_widths i o h hl) (init_widths i o h hl).length
        : Nat) : Int) ∧
      wt.length = weight_offset (init_widths i o h hl) (init_widths i o h hl).length ∧
      out0.length = (init_widths i o h hl).sum := by
  obtain ⟨hW, hT, rfl⟩ := ann_init_success env i o h hl (by omega) r hr hret
  have hwc := init_weight_count_eq i o h hl hi ho hh hl1
  have hs := init_widths_sum i o h hl hi ho hh (by omega)
  refine ⟨_, _, ?_, rfl, rfl, rfl, rfl, rfl, rfl, rfl, hwc, ?_, ?_⟩
  · simp only [init_nodes_eq_widths i o h hl hi ho hh]
  · simp only [List.length_map, List.length_range]
    omega
  · simp only [List.length_map, List.length_range]
    omega

/-- For a network built by `ann_init` with non-negative sizes and at least one hidden
layer, and an input of length `inputs`, `ann_inference` returns: all its accesses are
inside the blocks, the weight cursor ends at `weights`, the output cursor at
`total_nodes`, and the returned view starts at `inputs + hidden_layers * hiddens` and holds
`outputs` values. -/
theorem ann_init_inference {R : Type} [IntCast R] [Div R] [Zero R] [Add R] [Mul R]
    (env : Env R) (i o h hl : Int) (hi : 0 ≤ i) (ho : 0 ≤ o) (hh : 0 ≤ h) (hl1 : 1 ≤ hl)
    (r : InitResult R) (hr : ann_init env i o h hl = some r) (hret : r.ret = 0)
    (x : List R) (hx : (x.length : Int) = i) :
    ∃ st res, ann_inference_run r.net x = some st ∧ st.w = r.net.weights ∧
      st.o = r.net.total_nodes ∧ ann_inference r.net x = some res ∧
      res.net = { r.net with output := some st.out } ∧
      res.off = i + hl * h ∧ res.off = r.net.total_nodes - r.net.outputs ∧
      res.view = st.out.drop res.off.toNat ∧ (res.view.length : Int) = o := by
  obtain ⟨wt, out0, e1, e2, e3, e4, e5, e6, _, e8, e9, e10, e11⟩ :=
    ann_init_well_formed env i o h hl hi ho hh hl1 r hr hret
  have hs := init_widths_sum i o h hl hi ho hh (by omega)
  obtain ⟨out, k1, k2, _, _, _⟩ :=
    ann_inference_run_spec r.net (init_widths i o h hl) wt out0 x e1 e2 e3
      (by omega) (by rw [e4, init_widths_length]; omega)
      (by rw [e5, init_widths_getD_zero]; omega)
      (by rw [init_widths_getD_zero]; omega) (by omega) (by omega)
  have hoff : r.net.total_nodes - r.net.outputs = i + hl * h := by rw [e8, e6]; ring
  have hnn : 0 ≤ hl * h := Int.mul_nonneg (by omega) hh
  have hp : ptr out (r.net.total_nodes - r.net.outputs)
      = some (out.drop (r.net.total_nodes - r.net.outputs).toNat) := by
    have hlen : ((out.length : Nat) : Int) = i + o + hl * h := by rw [k2, e11]; exact hs
    simp only [ptr, hoff]
    rw [if_pos ⟨by omega, by omega⟩]
  refine ⟨_, ⟨{ r.net with output := some out }, r.net.total_nodes - r.net.outputs,
    out.drop (r.net.total_nodes - r.net.outputs).toNat⟩, k1, e9.symm, ?_, ?_, rfl, hoff,
    rfl, rfl, ?_⟩
  · show (((init_widths i o h hl).sum : Nat) : Int) = r.net.total_nodes
    rw [hs, e8]
  · rw [ann_inference]
    simp only [k1, hp, Option.bind_eq_bind, Option.some_bind]
  · have hlen : ((out.length : Nat) : Int) = i + o + hl * h := by rw [k2, e11]; exact hs
    simp only [List.length_drop, hoff]
    omega

/-! ## The vectorized kernels -/

theorem tdiv_four_toNat (size : Int) (h0 : 0 ≤ size) :
    (size.tdiv 4 - 0).toNat = size.toNat / 4 := by
  rw [Int.sub_zero, Int.tdiv_eq_ediv h0 (by decide)]
  omega

theorem sum_range_four_mul_succ {R : Type} [Semiring R] (x0 x1 x2 x3 y0 y1 y2 y3 : R)
    (a b : List R) (n : Nat) :
    ∑ k ∈ Finset.range (4 * (n + 1)),
        (x0 :: x1 :: x2 :: x3 :: a).getD k 0 * (y0 :: y1 :: y2 :: y3 :: b).getD k 0
      = ((x0 * y0 + x1 * y1) + (x2 * y2 + x3 * y3))
        + ∑ k ∈ Finset.range (4 * n), a.getD k 0 * b.getD k 0 := by
  have e : 4 * (n + 1) = 4 * n + 1 + 1 + 1 + 1 := by ring
  rw [e]
  simp only [Finset.sum_range_succ', List.getD_cons_succ, List.getD_cons_zero]
  abel

theorem dotp_intrinsics_loop_sum {R : Type} [Semiring R] :
    ∀ (n : Nat) (a b : List R) (acc : M128 R), 4 * n ≤ a.length → 4 * n ≤ b.length →
      ∃ v, dotp_intrinsics_loop n a b acc = some v ∧
        (v.e0 + v.e1) + (v.e2 + v.e3)
          = ((acc.e0 + acc.e1) + (acc.e2 + acc.e3))
            + ∑ k ∈ Finset.range (4 * n), a.getD k 0 * b.getD k 0
  | 0, _, _, acc, _, _ => ⟨acc, by simp [dotp_intrinsics_loop], by simp⟩
  | n + 1, x0 :: x1 :: x2 :: x3 :: a, y0 :: y1 :: y2 :: y3 :: b, acc, ha, hb => by
    have ha1 : 4 * n ≤ a.length := by simp at ha; omega
    have hb1 : 4 * n ≤ b.length := by simp at hb; omega
    obtain ⟨v, hv, hs⟩ := dotp_intrinsics_loop_sum n a b
      (_mm_add_ps acc (_mm_mul_ps ⟨x0, x1, x2, x3⟩ ⟨y0, y1, y2, y3⟩)) ha1 hb1
    refine ⟨v, ?_, ?_⟩
    · rw [dotp_intrinsics_loop]
      simpa [load_ps] using hv
    · rw [hs, sum_range_four_mul_succ]
      simp only [_mm_add_ps, _mm_mul_ps]
      abel
  | n + 1, [], _, _, ha, _ => by simp at ha
  | n + 1, [_], _, _, ha, _ => by simp at ha; omega
  | n + 1, [_, _], _, _, ha, _ => by simp at ha; omega
  | n + 1, [_, _, _], _, _, ha, _ => by simp at ha; omega
  | n + 1, _ :: _ :: _ :: _ :: _, [], _, _, hb => by simp at hb
  | n + 1, _ :: _ :: _ :: _ :: _, [_], _, _, hb => by simp at hb; omega
  | n + 1, _ :: _ :: _ :: _ :: _, [_, _], _, _, hb => by simp at hb; omega
  | n + 1, _ :: _ :: _ :: _ :: _, [_, _, _], _, _, hb => by simp at hb; omega

theorem _mm_dp_ps_f1 {R : Type} [Zero R] [Add R] [Mul R] (x y : M128 R) :
    (_mm_dp_ps x y 0xf1).e0 = (x.e3 * y.e3 + x.e2 * y.e2) + (x.e1 * y.e1 + x.e0 * y.e0) := by
  have b0 : Nat.testBit 0xf1 0 = true := by decide
  have b4 : Nat.testBit 0xf1 4 = true := by decide
  have b5 : Nat.testBit 0xf1 5 = true := by decide
  have b6 : Nat.testBit 0xf1 6 = true := by decide
  have b7 : Nat.testBit 0xf1 7 = true := by decide
  simp only [_mm_dp_ps, b0, b4, b5, b6, b7, if_true]

theorem dotp_dp_intrinsics_loop_sum {R : Type} [Semiring R] :
    ∀ (n : Nat) (a b : List R) (s : R), 4 * n ≤ a.length → 4 * n ≤ b.length →
      dotp_dp_intrinsics_loop n a b s
        = some (s + ∑ k ∈ Finset.range (4 * n), a.getD k 0 * b.getD k 0)
  | 0, _, _, s, _, _ => by simp [dotp_dp_intrinsics_loop]
  | n + 1, x0 :: x1 :: x2 :: x3 :: a, y0 :: y1 :: y2 :: y3 :: b, s, ha, hb => by
    have ha1 : 4 * n ≤ a.length := by simp at ha; omega
    have hb1 : 4 * n ≤ b.length := by simp at hb; omega
    rw [dotp_dp_intrinsics_loop]
    simp only [load_ps, Option.bind_eq_bind, Option.some_bind, _mm_dp_ps_f1]
    rw [dotp_dp_intrinsics_loop_sum n a b _ ha1 hb1, sum_range_four_mul_succ]
    congr 1
    abel
  | n + 1, [], _, _, ha, _ => by simp at ha
  | n + 1, [_], _, _, ha, _ => by simp at ha; omega
  | n + 1, [_, _], _, _, ha, _ => by simp at ha; omega
  | n + 1, [_, _, _], _, _, ha, _ => by simp at ha; omega
  | n + 1, _ :: _ :: _ :: _ :: _, [], _, _, hb => by simp at hb
  | n + 1, _ :: _ :: _ :: _ :: _, [_], _, _, hb => by simp at hb; omega
  | n + 1, _ :: _ :: _ :: _ :: _, [_, _], _, _, hb => by simp at hb; omega
  | n + 1, _ :: _ :: _ :: _ :: _, [_, _, _], _, _, hb => by simp at hb; omega

theorem dotp_intrinsics_sum {R : Type} [Semiring R] (a b : List R) (size : Int)
    (h0 : 0 ≤ size) (ha : 4 * (size.toNat / 4) ≤ a.length)
    (hb : 4 * (size.toNat / 4) ≤ b.length) :
    dotp_intrinsics a b size
      = some (∑ k ∈ Finset.range (4 * (size.toNat / 4)), a.getD k 0 * b.getD k 0) := by
  obtain ⟨v, hv, hs⟩ := dotp_intrinsics_loop_sum (size.toNat / 4) a b ⟨0, 0, 0, 0⟩ ha hb
  rw [dotp_intrinsics, tdiv_four_toNat size h0]
  simp only [hv, Option.bind_eq_bind, Option.some_bind, _mm_hadd_ps]
  have e : v.e3 + v.e2 + (v.e1 + v.e0) = (v.e0 + v.e1) + (v.e2 + v.e3) := by abel
  rw [e, hs]
  simp

theorem dotp_dp_intrinsics_sum {R : Type} [Semiring R] (a b : List R) (size : Int)
    (h0 : 0 ≤ size) (ha : 4 * (size.toNat / 4) ≤ a.length)
    (hb : 4 * (size.toNat / 4) ≤ b.length) :
    dotp_dp_intrinsics a b size
      = some (∑ k ∈ Finset.range (4 * (size.toNat / 4)), a.getD k 0 * b.getD k 0) := by
  rw [dotp_dp_intrinsics, tdiv_four_toNat size h0,
    dotp_dp_intrinsics_loop_sum _ a b 0 ha hb, zero_add]

theorem getD_eq_of_take_eq {α : Type} {xs ys : List α} {m : Nat} (k : Nat) (d : α)
    (h : xs.take m = ys.take m) (hk : k < m) : xs.getD k d = ys.getD k d := by
  rw [List.getD_eq_getElem?_getD, List.getD_eq_getElem?_getD, getElem?_eq_of_take_eq k h hk]

theorem length_ge_of_take_eq {α : Type} {xs ys : List α} {m : Nat}
    (h : xs.take m = ys.take m) (hm : m ≤ ys.length) : m ≤ xs.length := by
  have := congrArg List.length h
  simp only [List.length_take] at this
  omega

/-- C9: for `a`, `b` and a `size` that is a multiple of 4 (and within both operands), the
scalar `dotp`, the `USE_INTRINSICS` variant and the `USE_DP_INTRINSICS` variant all return
the sum over `k < size` of `a[k] * b[k]`, arithmetic being exact. -/
theorem dotp_variants_agree {R : Type} [Semiring R] (a b : List R) (size : Int)
    (h0 : 0 ≤ size) (h4 : size % 4 = 0) (ha : size ≤ a.length) (hb : size ≤ b.length) :
    dotp a b size = some (∑ k ∈ Finset.range size.toNat, a.getD k 0 * b.getD k 0) ∧
    dotp_intrinsics a b size
      = some (∑ k ∈ Finset.range size.toNat, a.getD k 0 * b.getD k 0) ∧
    dotp_dp_intrinsics a b size
      = some (∑ k ∈ Finset.range size.toNat, a.getD k 0 * b.getD k 0) := by
  have e : 4 * (size.toNat / 4) = size.toNat := by omega
  refine ⟨?_, ?_, ?_⟩
  · rw [dotp, Int.sub_zero, dotp_loop_sum _ _ _ 0 (by omega) (by omega), zero_add]
  · rw [dotp_intrinsics_sum a b size h0 (by omega) (by omega), e]
  · rw [dotp_dp_intrinsics_sum a b size h0 (by omega) (by omega), e]

theorem dotp_variants_agree_witness :
    dotp ([1, 2, 3, 4, 5, 6, 7, 8] : List Int) [8, 7, 6, 5, 4, 3, 2, 1] 8
        = some (∑ k ∈ Finset.range (8 : Int).toNat,
            ([1, 2, 3, 4, 5, 6, 7, 8] : List Int).getD k 0
              * ([8, 7, 6, 5, 4, 3, 2, 1] : List Int).getD k 0) ∧
      dotp_intrinsics ([1, 2, 3, 4, 5, 6, 7, 8] : List Int) [8, 7, 6, 5, 4, 3, 2, 1] 8
        = some (∑ k ∈ Finset.range (8 : Int).toNat,
            ([1, 2, 3, 4, 5, 6, 7, 8] : List Int).getD k 0
              * ([8, 7, 6, 5, 4, 3, 2, 1] : List Int).getD k 0) ∧
      dotp_dp_intrinsics ([1, 2, 3, 4, 5, 6, 7, 8] : List Int) [8, 7, 6, 5, 4, 3, 2, 1] 8
        = some (∑ k ∈ Finset.range (8 : Int).toNat,
            ([1, 2, 3, 4, 5, 6, 7, 8] : List Int).getD k 0
              * ([8, 7, 6, 5, 4, 3, 2, 1] : List Int).getD k 0) :=
  dotp_variants_agree ([1, 2, 3, 4, 5, 6, 7, 8] : List Int) [8, 7, 6, 5, 4, 3, 2, 1] 8
    (by decide) (by decide) (by decide) (by decide)

/-- C10: for `0 ≤ size` (within both operands) the `USE_INTRINSICS` and the
`USE_DP_INTRINSICS` variants of `dotp` return the sum of `a[k] * b[k]` over the first
`4 * (size / 4)` indices only: operands that agree with `a` and `b` on those indices give
the same result, and the result is `0` when `size < 4`. -/
theorem dotp_vectorized_drops_remainder {R : Type} [Semiring R] (a b : List R) (size : Int)
    (h0 : 0 ≤ size) (ha : size ≤ a.length) (hb : size ≤ b.length) :
    dotp_intrinsics a b size
      = some (∑ k ∈ Finset.range (4 * (size.toNat / 4)), a.getD k 0 * b.getD k 0) ∧
    dotp_dp_intrinsics a b size
      = some (∑ k ∈ Finset.range (4 * (size.toNat / 4)), a.getD k 0 * b.getD k 0) ∧
    (∀ a1 b1 : List R, a1.take (4 * (size.toNat / 4)) = a.take (4 * (size.toNat / 4)) →
      b1.take (4 * (size.toNat / 4)) = b.take (4 * (size.toNat / 4)) →
      dotp_intrinsics a1 b1 size = dotp_intrinsics a b size ∧
      dotp_dp_intrinsics a1 b1 size = dotp_dp_intrinsics a b size) ∧
    (size < 4 → dotp_intrinsics a b size = some 0 ∧ dotp_dp_intrinsics a b size = some 0) := by
  have hm : 4 * (size.toNat / 4) ≤ size.toNat := by omega
  have ha1 : 4 * (size.toNat / 4) ≤ a.length := by omega
  have hb1 : 4 * (size.toNat / 4) ≤ b.length := by omega
  have e1 := dotp_intrinsics_sum a b size h0 ha1 hb1
  have e2 := dotp_dp_intrinsics_sum a b size h0 ha1 hb1
  refine ⟨e1, e2, ?_, ?_⟩
  · intro a1 b1 hta htb
    have hs : ∑ k ∈ Finset.range (4 * (size.toNat / 4)), a1.getD k 0 * b1.getD k 0
        = ∑ k ∈ Finset.range (4 * (size.toNat / 4)), a.getD k 0 * b.getD k 0 := by
      apply Finset.sum_congr rfl
      intro k hk
      have hk1 := Finset.mem_range.mp hk
      rw [getD_eq_of_take_eq k 0 hta hk1, getD_eq_of_take_eq k 0 htb hk1]
    rw [e1, e2, dotp_intrinsics_sum a1 b1 size h0 (length_ge_of_take_eq hta ha1)
      (length_ge_of_take_eq htb hb1), dotp_dp_intrinsics_sum a1 b1 size h0
      (length_ge_of_take_eq hta ha1) (length_ge_of_take_eq htb hb1), hs]
    exact ⟨rfl, rfl⟩
  · intro hlt
    have hz : size.toNat / 4 = 0 := by omega
    rw [e1, e2, hz]
    simp

theorem dotp_vectorized_drops_remainder_witness :
    dotp_intrinsics ([1, 2, 3, 4, 5, 6] : List Int) [6, 5, 4, 3, 2, 1] 6
        = some (∑ k ∈ Finset.range (4 * ((6 : Int).toNat / 4)),
            ([1, 2, 3, 4, 5, 6] : List Int).getD k 0 * ([6, 5, 4, 3, 2, 1] : List Int).getD k 0) ∧
      dotp_dp_intrinsics ([1, 2, 3, 4, 5, 6] : List Int) [6, 5, 4, 3, 2, 1] 6
        = some (∑ k ∈ Finset.range (4 * ((6 : Int).toNat / 4)),
            ([1, 2, 3, 4, 5, 6] : List Int).getD k 0 * ([6, 5, 4, 3, 2, 1] : List Int).getD k 0) :=
  ⟨(dotp_vectorized_drops_remainder ([1, 2, 3, 4, 5, 6] : List Int) [6, 5, 4, 3, 2, 1] 6
      (by decide) (by decide) (by decide)).1,
   (dotp_vectorized_drops_remainder ([1, 2, 3, 4, 5, 6] : List Int) [6, 5, 4, 3, 2, 1] 6
      (by decide) (by decide) (by decide)).2.1⟩

/-! ## The layer widths `ann_init` stores (C7) -/

theorem load_init_nodes_zero (i o h hl : Int) : load (init_nodes i o h hl) 0 = some i := by
  simp [load, init_nodes]

theorem load_init_nodes_hidden (i o h hl l : Int) (h1 : 1 ≤ l) (h2 : l ≤ hl) :
    load (init_nodes i o h hl) l = some h := by
  obtain ⟨k, rfl⟩ : ∃ k : Nat, l = ((k + 1 : Nat) : Int) := ⟨(l - 1).toNat, by omega⟩
  rw [load_natCast, init_nodes, List.getElem?_cons_succ,
    List.getElem?_append_left (by simp; omega)]
  simp [List.getElem?_replicate]
  omega

theorem load_init_nodes_last (i o h hl : Int) (h0 : 0 ≤ hl) :
    load (init_nodes i o h hl) (hl + 1) = some o := by
  have e : hl + 1 = ((hl.toNat + 1 : Nat) : Int) := by omega
  rw [e, load_natCast, init_nodes, List.getElem?_cons_succ,
    List.getElem?_append_right (by simp)]
  simp

theorem init_nodes_length (i o h hl : Int) (h0 : 0 ≤ hl) :
    ((init_nodes i o h hl).length : Int) = hl + 2 := by
  simp [init_nodes]; omega

/-- C7: for `hidden_layers ≥ 0`, `ann_init` returns, and when it returns 0 the block
`nodes_in_layer` has `hidden_layers + 2` entries, entry 0 is `inputs`, entry
`hidden_layers + 1` is `outputs`, every entry `1 ≤ l ≤ hidden_layers` is `hiddens`, and for
`hidden_layers = 0` the block is exactly `[inputs, outputs]`. -/
theorem ann_init_nodes_in_layer {R : Type} [IntCast R] [Div R] (env : Env R)
    (inputs outputs hiddens hidden_layers : Int) (h0 : 0 ≤ hidden_layers) :
    ∃ r, ann_init env inputs outputs hiddens hidden_layers = some r ∧
      (r.ret = 0 → ∃ nodes, r.net.nodes_in_layer = some nodes ∧
        (nodes.length : Int) = hidden_layers + 2 ∧
        load nodes 0 = some inputs ∧
        load nodes (hidden_layers + 1) = some outputs ∧
        (∀ l : Int, 1 ≤ l → l ≤ hidden_layers → load nodes l = some hiddens) ∧
        (hidden_layers = 0 → nodes = [inputs, outputs])) := by
  have key : ∀ r : InitResult R,
      r.net.nodes_in_layer = some (init_nodes inputs outputs hiddens hidden_layers) →
      r.ret = 0 → ∃ nodes, r.net.nodes_in_layer = some nodes ∧
        (nodes.length : Int) = hidden_layers + 2 ∧
        load nodes 0 = some inputs ∧
        load nodes (hidden_layers + 1) = some outputs ∧
        (∀ l : Int, 1 ≤ l → l ≤ hidden_layers → load nodes l = some hiddens) ∧
        (hidden_layers = 0 → nodes = [inputs, outputs]) := by
    intro r hr _
    refine ⟨_, hr, init_nodes_length _ _ _ _ h0, load_init_nodes_zero _ _ _ _,
      load_init_nodes_last _ _ _ _ h0, fun l h1 h2 => load_init_nodes_hidden _ _ _ _ l h1 h2, ?_⟩
    intro hz
    subst hz
    simp [init_nodes]
  rw [ann_init_eq env inputs outputs hiddens hidden_layers h0]
  split
  · split
    · split
      · exact ⟨_, rfl, key _ rfl⟩
      · exact ⟨_, rfl, key _ rfl⟩
    · exact ⟨_, rfl, key _ rfl⟩
  · exact ⟨_, rfl, fun h => by simp at h⟩

theorem ann_init_nodes_in_layer_witness :
    ∃ r, ann_init (env_of fun _ => true) 4 1 3 1 = some r ∧ r.ret = 0 ∧
      ∃ nodes, r.net.nodes_in_layer = some nodes ∧ (nodes.length : Int) = 1 + 2 ∧
        load nodes 0 = some 4 ∧ load nodes (1 + 1) = some 1 ∧ load nodes 1 = some 3 := by
  obtain ⟨r, hr, h⟩ := ann_init_nodes_in_layer (env_of fun _ => true) 4 1 3 1 (by decide)
  have hret : r.ret = 0 := by
    rw [ann_init_eq _ _ _ _ _ (by decide)] at hr
    simp [env_of, init_weight_count] at hr
    rw [← hr]
  obtain ⟨nodes, h1, h2, h3, h4, h5, _⟩ := h hret
  exact ⟨r, hr, hret, nodes, h1, h2, h3, h4, h5 1 (by decide) (by decide)⟩

/-! ## The range of the random weights (C6) -/

/-- An integer above `t` is above the rounding of `t`. -/
theorem round_nearest_even_le (t : ℚ) (N : Int) (h : t ≤ N) : round_nearest_even t ≤ N := by
  have hf : ⌊t⌋ ≤ N := Int.floor_le_iff.mpr (by linarith [Int.lt_succ_self N, h, show ((N:ℚ)) < N + 1 by linarith])
  unfold round_nearest_even
  have key : 0 < t - ⌊t⌋ → ⌊t⌋ + 1 ≤ N := by
    intro hpos
    have : (⌊t⌋ : ℚ) < N := by linarith
    have : ⌊t⌋ < N := by exact_mod_cast this
    omega
  split
  · exact hf
  · split
    · exact key (by linarith)
    · split
      · exact hf
      · exact key (by linarith)

/-- An integer below `t` is below the rounding of `t`. -/
theorem le_round_nearest_even (t : ℚ) (N : Int) (h : (N : ℚ) ≤ t) : N ≤ round_nearest_even t := by
  have hf : N ≤ ⌊t⌋ := Int.le_floor.mpr h
  unfold round_nearest_even
  split
  · exact hf
  · split
    · omega
    · split
      · exact hf
      · omega


theorem log_two_zpow (n : Int) : Int.log 2 ((2 : ℚ) ^ n) = n := by
  have h := Int.log_zpow (R := ℚ) (b := 2) (by norm_num) n
  simpa using h

/-- Rounding to binary32 does not cross a power of two: a rational of magnitude at most
`2 ^ n` is rounded to a finite value of magnitude at most `2 ^ n`. -/
theorem round_binary32_bound (q : ℚ) (n : Int) (h1 : -149 ≤ n) (h2 : n < 128)
    (hq : |q| ≤ 2 ^ n) : ∃ v, round_binary32 q = some v ∧ |v| ≤ 2 ^ n := by
  have hfin : ∀ v : ℚ, |v| ≤ 2 ^ n → |v| < 2 ^ (128 : Int) := fun v hv =>
    lt_of_le_of_lt hv (zpow_lt_zpow_right₀ (by norm_num) h2)
  by_cases hq0 : q = 0
  · subst hq0
    have hv : ((round_nearest_even (0 / 2 ^ (binade 0 - 23)) : Int) : ℚ) * 2 ^ (binade 0 - 23) = 0 := by
      simp [round_nearest_even]
    have h0 : |(0 : ℚ)| ≤ 2 ^ n := by simpa using hq
    refine ⟨0, ?_, h0⟩
    unfold round_binary32
    simp only [hv]
    rw [if_pos (hfin 0 h0)]
  · have hu : (0 : ℚ) < 2 ^ (binade q - 23) := zpow_pos (by norm_num) _
    have he : binade q ≤ n + 23 := by
      unfold binade
      have hpos : 0 < |q| := abs_pos.mpr hq0
      have := Int.log_mono_right (b := 2) hpos hq
      rw [log_two_zpow] at this
      exact max_le (by omega) (by omega)
    obtain ⟨k, hk⟩ : ∃ k : Nat, (k : Int) = n + 23 - binade q := ⟨(n + 23 - binade q).toNat, Int.toNat_of_nonneg (by omega)⟩
    have hN : (((2 ^ k : Nat) : Int) : ℚ) * 2 ^ (binade q - 23) = 2 ^ n := by
      have : (((2 ^ k : Nat) : Int) : ℚ) = 2 ^ (n + 23 - binade q) := by
        rw [← hk]; push_cast; rw [zpow_natCast]
      rw [this, ← zpow_add₀ (by norm_num : (2 : ℚ) ≠ 0)]
      congr 1; ring
    have hab := abs_le.mp hq
    have ht1 : q / 2 ^ (binade q - 23) ≤ (((2 ^ k : Nat) : Int) : ℚ) := by
      rw [div_le_iff₀ hu, hN]; exact hab.2
    have ht2 : ((-((2 ^ k : Nat) : Int) : Int) : ℚ) ≤ q / 2 ^ (binade q - 23) := by
      rw [le_div_iff₀ hu]; push_cast; push_cast at hN; rw [neg_mul, hN]; exact hab.1
    have r1 := round_nearest_even_le _ _ ht1
    have r2 := le_round_nearest_even _ _ ht2
    have hv : |((round_nearest_even (q / 2 ^ (binade q - 23)) : Int) : ℚ) * 2 ^ (binade q - 23)| ≤ 2 ^ n := by
      rw [abs_le, ← hN]
      have c1 : ((round_nearest_even (q / 2 ^ (binade q - 23)) : Int) : ℚ) ≤ (((2 ^ k : Nat) : Int) : ℚ) := by
        exact_mod_cast r1
      have c2 : -(((2 ^ k : Nat) : Int) : ℚ) ≤ ((round_nearest_even (q / 2 ^ (binade q - 23)) : Int) : ℚ) := by
        exact_mod_cast r2
      constructor
      · rw [← neg_mul]; exact mul_le_mul_of_nonneg_right c2 hu.le
      · exact mul_le_mul_of_nonneg_right c1 hu.le
    refine ⟨_, ?_, hv⟩
    unfold round_binary32
    simp only []
    rw [if_pos (hfin _ hv)]


/-- The binade of a rational between `2 ^ e` and `2 ^ (e + 1)`. -/
theorem binade_eq (q : ℚ) (e : Int) (he : -126 ≤ e) (h1 : 2 ^ e ≤ |q|) (h2 : |q| < 2 ^ (e + 1)) :
    binade q = e := by
  have hpos : 0 < |q| := lt_of_lt_of_le (zpow_pos (by norm_num) e) h1
  have a1 : e ≤ Int.log 2 |q| := by
    have := Int.log_mono_right (b := 2) (zpow_pos (by norm_num) e) h1
    rwa [log_two_zpow] at this
  have a2 : Int.log 2 |q| < e + 1 := by
    by_contra hc
    have hc1 : e + 1 ≤ Int.log 2 |q| := not_lt.mp hc
    have := Int.zpow_log_le_self (b := 2) (by norm_num) hpos
    have h3 : (2 : ℚ) ^ (e + 1) ≤ 2 ^ Int.log 2 |q| := zpow_le_zpow_right₀ (by norm_num) hc1
    have h4 : (2 : ℚ) ^ Int.log 2 |q| ≤ |q| := by simpa using this
    linarith
  unfold binade
  rw [max_eq_left (by omega)]
  omega

/-- The rounding of a rational of binade `e` whose significand rounds to `m`. -/
theorem round_binary32_eq (q : ℚ) (e m : Int) (he : -126 ≤ e) (h1 : 2 ^ e ≤ |q|)
    (h2 : |q| < 2 ^ (e + 1)) (hm : round_nearest_even (q / 2 ^ (e - 23)) = m)
    (hfin : |(m : ℚ) * 2 ^ (e - 23)| < 2 ^ (128 : Int)) :
    round_binary32 q = some ((m : ℚ) * 2 ^ (e - 23)) := by
  unfold round_binary32
  simp only [binade_eq q e he h1 h2, hm]
  rw [if_pos hfin]

theorem round_nearest_even_intCast (m : Int) : round_nearest_even (m : ℚ) = m := by
  simp [round_nearest_even]

/-- The conversion `(float)RAND_MAX` for `RAND_MAX = 2147483647` gives `2 ^ 31`. -/
theorem round_binary32_2147483647 : round_binary32 ((2147483647 : Int) : ℚ) = some 2147483648 := by
  have hm : round_nearest_even (((2147483647 : Int) : ℚ) / 2 ^ ((30 : Int) - 23)) = 16777216 := by
    have hf : ⌊(((2147483647 : Int) : ℚ) / 2 ^ ((30 : Int) - 23))⌋ = 16777215 := by
      rw [Int.floor_eq_iff]; norm_num
    unfold round_nearest_even
    rw [hf]
    norm_num
  have h := round_binary32_eq ((2147483647 : Int) : ℚ) 30 16777216 (by decide) (by norm_num)
    (by norm_num) hm (by norm_num)
  rw [h]; norm_num

theorem round_binary32_1073741824 : round_binary32 ((1073741824 : Int) : ℚ) = some 1073741824 := by
  have hm : round_nearest_even (((1073741824 : Int) : ℚ) / 2 ^ ((30 : Int) - 23)) = 8388608 := by
    have e : ((1073741824 : Int) : ℚ) / 2 ^ ((30 : Int) - 23) = ((8388608 : Int) : ℚ) := by norm_num
    rw [e, round_nearest_even_intCast]
  have h := round_binary32_eq ((1073741824 : Int) : ℚ) 30 8388608 (by decide) (by norm_num)
    (by norm_num) hm (by norm_num)
  rw [h]; norm_num

theorem round_binary32_half : round_binary32 (1 / 2) = some (1 / 2) := by
  have hm : round_nearest_even ((1 / 2 : ℚ) / 2 ^ ((-1 : Int) - 23)) = 8388608 := by
    have e : (1 / 2 : ℚ) / 2 ^ ((-1 : Int) - 23) = ((8388608 : Int) : ℚ) := by norm_num
    rw [e, round_nearest_even_intCast]
  have ha : |(1 / 2 : ℚ)| = 1 / 2 := abs_of_pos (by norm_num)
  have h := round_binary32_eq (1 / 2) (-1) 8388608 (by decide) (by rw [ha]; norm_num)
    (by rw [ha]; norm_num) hm (by norm_num [abs_of_pos])
  rw [h]; norm_num


/-- The weight expression over `Float32`: two conversions and one division. -/
theorem weight_of_rand_binary32 (RAND_MAX r : Int) :
    (weight_of_rand RAND_MAX r : Float32)
      = Float32.div (Float32.ofInt (r - RAND_MAX.tdiv 2)) (Float32.ofInt RAND_MAX) := rfl

theorem Float32.div_some (x y : ℚ) (hy : y ≠ 0) :
    Float32.div ⟨some x⟩ ⟨some y⟩ = ⟨round_binary32 (x / y)⟩ := by
  simp [Float32.div, hy]

/-- With `RAND_MAX = 2147483647` every weight is a finite value between `-1/2` and `1/2`:
`rand() - RAND_MAX / 2` lies between `-(2 ^ 30 - 1)` and `2 ^ 30`, its conversion between
`-2 ^ 30` and `2 ^ 30`, and the divisor is `2 ^ 31`. -/
theorem weight_of_rand_binary32_bounds (r : Int) (h0 : 0 ≤ r) (h1 : r ≤ 2147483647) :
    ∃ w : ℚ, (weight_of_rand 2147483647 r : Float32).val = some w ∧
      -(1 / 2) ≤ w ∧ w ≤ 1 / 2 := by
  have e : Int.tdiv 2147483647 2 = 1073741823 := by decide
  have hk : |((r - 1073741823 : Int) : ℚ)| ≤ 2 ^ (30 : Int) := by
    rw [abs_le]
    constructor
    · have : ((-1073741824 : Int) : ℚ) ≤ ((r - 1073741823 : Int) : ℚ) := by
        exact_mod_cast (show (-1073741824 : Int) ≤ r - 1073741823 by omega)
      norm_num at this ⊢; linarith
    · have : ((r - 1073741823 : Int) : ℚ) ≤ ((1073741824 : Int) : ℚ) := by
        exact_mod_cast (show r - 1073741823 ≤ (1073741824 : Int) by omega)
      norm_num at this ⊢; linarith
  obtain ⟨v, hv, hvb⟩ := round_binary32_bound _ 30 (by decide) (by decide) hk
  have hq : |v / 2147483648| ≤ 2 ^ (-1 : Int) := by
    rw [abs_div, abs_of_pos (show (0 : ℚ) < 2147483648 by norm_num), div_le_iff₀ (by norm_num)]
    norm_num at hvb ⊢
    exact hvb
  obtain ⟨w, hw, hwb⟩ := round_binary32_bound _ (-1) (by decide) (by decide) hq
  refine ⟨w, ?_, ?_⟩
  · rw [weight_of_rand_binary32, e]
    rw [Float32.ofInt, Float32.ofInt, hv, round_binary32_2147483647,
      Float32.div_some _ _ (by norm_num)]
    exact hw
  · have := abs_le.mp hwb
    norm_num at this
    constructor <;> linarith [this.1, this.2]

/-- With `RAND_MAX = 2147483647` the weight made from `rand() = RAND_MAX` is `1/2`. -/
theorem weight_of_rand_binary32_at_max :
    (weight_of_rand 2147483647 2147483647 : Float32).val = some (1 / 2) := by
  have e : Int.tdiv 2147483647 2 = 1073741823 := by decide
  rw [weight_of_rand_binary32, e]
  rw [show (2147483647 - 1073741823 : Int) = 1073741824 from rfl, Float32.ofInt, Float32.ofInt,
    round_binary32_1073741824, round_binary32_2147483647, Float32.div_some _ _ (by norm_num),
    show (1073741824 : ℚ) / 2147483648 = 1 / 2 by norm_num]
  exact round_binary32_half

/-- The values `rand() = 2147483615` and `rand() = 2147483614` with `RAND_MAX = 2147483647`:
the first is converted to `2 ^ 30` (a tie, which goes to the even significand) and gives
the weight `1/2`, the second is converted to `2 ^ 30 - 64` and gives a weight below. -/
theorem weight_of_rand_binary32_tie :
    (weight_of_rand 2147483647 2147483615 : Float32).val = some (1 / 2) ∧
      (weight_of_rand 2147483647 2147483614 : Float32).val = some (16777215 / 33554432) := by
  have e : Int.tdiv 2147483647 2 = 1073741823 := by decide
  have c1 : round_binary32 ((1073741792 : Int) : ℚ) = some 1073741824 := by
    have hm : round_nearest_even (((1073741792 : Int) : ℚ) / 2 ^ ((29 : Int) - 23)) = 16777216 := by
      have hf : ⌊(((1073741792 : Int) : ℚ) / 2 ^ ((29 : Int) - 23))⌋ = 16777215 := by
        rw [Int.floor_eq_iff]; norm_num
      unfold round_nearest_even
      rw [hf]
      norm_num
    have h := round_binary32_eq ((1073741792 : Int) : ℚ) 29 16777216 (by decide) (by norm_num)
      (by norm_num) hm (by norm_num)
    rw [h]; norm_num
  have c2 : round_binary32 ((1073741791 : Int) : ℚ) = some 1073741760 := by
    have hm : round_nearest_even (((1073741791 : Int) : ℚ) / 2 ^ ((29 : Int) - 23)) = 16777215 := by
      have hf : ⌊(((1073741791 : Int) : ℚ) / 2 ^ ((29 : Int) - 23))⌋ = 16777215 := by
        rw [Int.floor_eq_iff]; norm_num
      unfold round_nearest_even
      rw [hf]
      norm_num
    have h := round_binary32_eq ((1073741791 : Int) : ℚ) 29 16777215 (by decide) (by norm_num)
      (by norm_num) hm (by norm_num)
    rw [h]; norm_num
  have c3 : round_binary32 (16777215 / 33554432) = some (16777215 / 33554432) := by
    have hm : round_nearest_even ((16777215 / 33554432 : ℚ) / 2 ^ ((-2 : Int) - 23)) = 16777215 := by
      have e : (16777215 / 33554432 : ℚ) / 2 ^ ((-2 : Int) - 23) = ((16777215 : Int) : ℚ) := by
        norm_num
      rw [e, round_nearest_even_intCast]
    have ha : |(16777215 / 33554432 : ℚ)| = 16777215 / 33554432 := abs_of_pos (by norm_num)
    have h := round_binary32_eq (16777215 / 33554432) (-2) 16777215 (by decide)
      (by rw [ha]; norm_num) (by rw [ha]; norm_num) hm (by norm_num [abs_of_pos])
    rw [h]; norm_num
  constructor
  · rw [weight_of_rand_binary32, e,
      show (2147483615 - 1073741823 : Int) = 1073741792 from rfl, Float32.ofInt, Float32.ofInt,
      c1, round_binary32_2147483647, Float32.div_some _ _ (by norm_num),
      show (1073741824 : ℚ) / 2147483648 = 1 / 2 by norm_num]
    exact round_binary32_half
  · rw [weight_of_rand_binary32, e,
      show (2147483614 - 1073741823 : Int) = 1073741791 from rfl, Float32.ofInt, Float32.ofInt,
      c2, round_binary32_2147483647, Float32.div_some _ _ (by norm_num),
      show (1073741760 : ℚ) / 2147483648 = 16777215 / 33554432 by norm_num]
    exact c3

/-- The closed interval depends on `RAND_MAX`: with `RAND_MAX = 32767`, which binary32
holds exactly, the weight made from `rand() = RAND_MAX` is `32769 / 65536`, above `1/2`. -/
theorem weight_of_rand_binary32_small_RAND_MAX :
    (weight_of_rand 32767 32767 : Float32).val = some (32769 / 65536) := by
  have e : Int.tdiv 32767 2 = 16383 := by decide
  have c1 : round_binary32 ((16384 : Int) : ℚ) = some 16384 := by
    have hm : round_nearest_even (((16384 : Int) : ℚ) / 2 ^ ((14 : Int) - 23)) = 8388608 := by
      have e : ((16384 : Int) : ℚ) / 2 ^ ((14 : Int) - 23) = ((8388608 : Int) : ℚ) := by norm_num
      rw [e, round_nearest_even_intCast]
    have h := round_binary32_eq ((16384 : Int) : ℚ) 14 8388608 (by decide) (by norm_num)
      (by norm_num) hm (by norm_num)
    rw [h]; norm_num
  have c2 : round_binary32 ((32767 : Int) : ℚ) = some 32767 := by
    have hm : round_nearest_even (((32767 : Int) : ℚ) / 2 ^ ((14 : Int) - 23)) = 16776704 := by
      have e : ((32767 : Int) : ℚ) / 2 ^ ((14 : Int) - 23) = ((16776704 : Int) : ℚ) := by norm_num
      rw [e, round_nearest_even_intCast]
    have h := round_binary32_eq ((32767 : Int) : ℚ) 14 16776704 (by decide) (by norm_num)
      (by norm_num) hm (by norm_num)
    rw [h]; norm_num
  have c3 : round_binary32 (16384 / 32767) = some (32769 / 65536) := by
    have hm : round_nearest_even ((16384 / 32767 : ℚ) / 2 ^ ((-1 : Int) - 23)) = 8388864 := by
      have hf : ⌊((16384 / 32767 : ℚ) / 2 ^ ((-1 : Int) - 23))⌋ = 8388864 := by
        rw [Int.floor_eq_iff]; norm_num
      unfold round_nearest_even
      rw [hf]
      norm_num
    have ha : |(16384 / 32767 : ℚ)| = 16384 / 32767 := abs_of_pos (by norm_num)
    have h := round_binary32_eq (16384 / 32767) (-1) 8388864 (by decide)
      (by rw [ha]; norm_num) (by rw [ha]; norm_num) hm (by norm_num [abs_of_pos])
    rw [h]; norm_num
  rw [weight_of_rand_binary32, e, show (32767 - 16383 : Int) = 16384 from rfl, Float32.ofInt,
    Float32.ofInt, c1, c2, Float32.div_some _ _ (by norm_num)]
  exact c3

/-- C6 (counterexample): in binary32 with `RAND_MAX = 2147483647`, the weight made from
`rand() = RAND_MAX` is exactly `1/2` (`rand() - RAND_MAX / 2` is `2 ^ 30`, and
`(float)RAND_MAX` is `2 ^ 31`), so it is not in the half-open interval from `-1/2` to
`1/2`. -/
theorem weight_of_rand_reaches_half :
    (weight_of_rand 2147483647 2147483647 : Float32).val = some (1 / 2) ∧
      ¬ ∃ w : ℚ, (weight_of_rand 2147483647 2147483647 : Float32).val = some w ∧
          -(1 / 2) ≤ w ∧ w < 1 / 2 := by
  refine ⟨weight_of_rand_binary32_at_max, ?_⟩
  rintro ⟨w, hw, _, hlt⟩
  rw [weight_of_rand_binary32_at_max] at hw
  simp only [Option.some.injEq] at hw
  rw [← hw] at hlt
  exact lt_irrefl _ hlt

/-- C6 (amended): in binary32 with `RAND_MAX = 2147483647`, for every value `r` of `rand()`
(`0 ≤ r ≤ RAND_MAX`) the weight `(r - RAND_MAX / 2) / (float)RAND_MAX` is a finite value
of the closed interval from `-1/2` to `1/2`; `ann_init` returns for `hidden_layers ≥ 0`,
and every entry of the weight block it leaves is a finite value `w` with
`-1/2 ≤ w ≤ 1/2`. -/
theorem ann_init_weight_range (env : Env Float32) (inputs outputs hiddens hidden_layers : Int)
    (hM : env.RAND_MAX = 2147483647)
    (hrand : ∀ k, 0 ≤ env.rand k ∧ env.rand k ≤ env.RAND_MAX)
    (h0 : 0 ≤ hidden_layers) :
    (∀ r : Int, 0 ≤ r → r ≤ env.RAND_MAX →
      ∃ w : ℚ, (weight_of_rand env.RAND_MAX r : Float32).val = some w ∧
        -(1 / 2) ≤ w ∧ w ≤ 1 / 2) ∧
    (∃ res, ann_init env inputs outputs hiddens hidden_layers = some res) ∧
    ∀ res wt, ann_init env inputs outputs hiddens hidden_layers = some res →
      res.net.weight = some wt → ∀ x ∈ wt,
        ∃ w : ℚ, x.val = some w ∧ -(1 / 2) ≤ w ∧ w ≤ 1 / 2 := by
  have hb : ∀ r : Int, 0 ≤ r → r ≤ env.RAND_MAX →
      ∃ w : ℚ, (weight_of_rand env.RAND_MAX r : Float32).val = some w ∧
        -(1 / 2) ≤ w ∧ w ≤ 1 / 2 := by
    intro r hr0 hr1
    rw [hM] at hr1 ⊢
    exact weight_of_rand_binary32_bounds r hr0 hr1
  refine ⟨hb, ?_, ?_⟩
  · rw [ann_init_eq env inputs outputs hiddens hidden_layers h0]
    split
    · split
      · split
        · exact ⟨_, rfl⟩
        · exact ⟨_, rfl⟩
      · exact ⟨_, rfl⟩
    · exact ⟨_, rfl⟩
  · intro res wt hres hwt x hx
    rw [ann_init_eq env inputs outputs hiddens hidden_layers h0] at hres
    have hmem : ∃ j, x = weight_of_rand env.RAND_MAX (env.rand j) := by
      split at hres
      · split at hres
        · split at hres
          · simp only [Option.some.injEq] at hres
            subst hres
            simp only [Option.some.injEq] at hwt
            subst hwt
            obtain ⟨j, _, hj⟩ := List.mem_map.mp hx
            exact ⟨j, hj.symm⟩
          · simp only [Option.some.injEq] at hres
            subst hres
            simp [init_fields] at hwt
        · simp only [Option.some.injEq] at hres
          subst hres
          simp [init_fields] at hwt
      · simp only [Option.some.injEq] at hres
        subst hres
        simp [init_fields] at hwt
    obtain ⟨j, rfl⟩ := hmem
    exact hb (env.rand j) (hrand j).1 (hrand j).2

theorem ann_init_weight_range_witness :
    (∃ w : ℚ, (weight_of_rand 2147483647 2147483615 : Float32).val = some w ∧
        -(1 / 2) ≤ w ∧ w ≤ 1 / 2) ∧
      ∃ res, ann_init (env_binary32 fun _ => true) 4 1 3 1 = some res :=
  have h := ann_init_weight_range (env_binary32 fun _ => true) 4 1 3 1 rfl
    (fun k => by simp only [env_binary32]; omega) (by decide)
  ⟨h.1 2147483615 (by decide) (by decide), h.2.1⟩

/-! ## Executions in which `ann_init` and `ann_inference` miss the specification (C3, C5, C4, C8) -/

/-- C3 (failing input): `ann_init` with `inputs = 2`, `outputs = 1`, `hiddens = 1` and
`hidden_layers = 0` returns 0 with `nodes_in_layer = [2, 1]` and `weights = 1`, whereas
the sum over the consecutive layer pairs is `2 * 1 = 2`. -/
theorem ann_init_weights_no_hidden_layer :
    ∃ r nodes, ann_init (env_of fun _ => true) 2 1 1 0 = some r ∧ r.ret = 0 ∧
      r.net.nodes_in_layer = some nodes ∧ nodes = [2, 1] ∧
      r.net.weights = 1 ∧ layer_pair_sum nodes = 2 := by
  rw [ann_init_eq _ _ _ _ _ (by decide)]
  simp [env_of, init_weight_count, init_nodes, init_fields, layer_pair_sum]

/-- C5 (failing input): when the first `malloc` of `ann_init` fails, `ann_init` returns
-1 with the three pointers null and no block allocated; but when the first succeeds and
the second fails, and likewise when the first two succeed and the third fails, `ann_init`
returns -1 with `weight` and `output` null and `nodes_in_layer` still pointing to its
block, which is still allocated. -/
theorem ann_init_failure_keeps_nodes_in_layer :
    (∃ r, ann_init (env_of fun _ => false) 4 1 3 1 = some r ∧ r.ret = -1 ∧
      r.net.nodes_in_layer = none ∧ r.net.weight = none ∧ r.net.output = none ∧
      r.live = []) ∧
    (∃ r, ann_init (env_of fun k => decide (k < 1)) 4 1 3 1 = some r ∧ r.ret = -1 ∧
      r.net.nodes_in_layer = some [4, 3, 1] ∧ r.net.weight = none ∧ r.net.output = none ∧
      r.live = [Blk.nodes_in_layer]) ∧
    (∃ r, ann_init (env_of fun k => decide (k < 2)) 4 1 3 1 = some r ∧ r.ret = -1 ∧
      r.net.nodes_in_layer = some [4, 3, 1] ∧ r.net.weight = none ∧ r.net.output = none ∧
      r.live = [Blk.nodes_in_layer]) := by
  refine ⟨?_, ?_, ?_⟩
  · rw [ann_init_eq _ _ _ _ _ (by decide)]
    simp [env_of, init_fields]
  · rw [ann_init_eq _ _ _ _ _ (by decide)]
    simp [env_of, init_weight_count, init_nodes, init_fields]
  · rw [ann_init_eq _ _ _ _ _ (by decide)]
    simp [env_of, init_weight_count, init_nodes, init_fields]

/-- C4 (failing input): the network that `ann_init` builds for `inputs = 2`, `outputs = 1`,
`hiddens = 1`, `hidden_layers = 0` has a weight block of `weights = 1` element; on an
input of length 2 the first `dotp` of `ann_inference` reads 2 weights, the second of them
outside the block, and the call fails. -/
theorem ann_inference_overreads_weights :
    ∃ r wt, ann_init (env_of fun _ => true) 2 1 1 0 = some r ∧ r.ret = 0 ∧
      r.net.weights = 1 ∧ r.net.weight = some wt ∧ wt.length = 1 ∧
      load wt 1 = none ∧ dotp [1, 1] wt 2 = none ∧ ann_inference r.net [1, 1] = none := by
  rw [ann_init_eq _ _ _ _ _ (by decide)]
  simp [env_of, init_weight_count, init_nodes, init_fields, load, dotp, dotp_loop,
    ann_inference, ann_inference_run, memcpy, infer_layers, infer_neurons, ptr]

/-- C8 (failing input): for the network that `ann_init` builds for `inputs = 2`,
`outputs = 1`, `hiddens = 1`, `hidden_layers = 0`, the offset `total_nodes - outputs` is
`inputs + hidden_layers * hiddens = 2`, but the loop of `ann_inference` fails at the first
neuron of the output layer, before anything is stored there, so no view is returned. -/
theorem ann_inference_no_view_no_hidden_layer :
    ∃ r, ann_init (env_of fun _ => true) 2 1 1 0 = some r ∧ r.ret = 0 ∧
      r.net.total_nodes - r.net.outputs = 2 ∧
      r.net.inputs + r.net.hidden_layers * r.net.hiddens = 2 ∧
      infer_neurons r.net 1 1 ⟨0, 0, 2, [1, 1, 0]⟩ = none ∧
      ann_inference_run r.net [1, 1] = none ∧
      (ann_inference r.net [1, 1]).map (fun res => res.view) = none := by
  rw [ann_init_eq _ _ _ _ _ (by decide)]
  simp [env_of, init_weight_count, init_nodes, init_fields, load, dotp, dotp_loop,
    ann_inference, ann_inference_run, memcpy, infer_layers, infer_neurons, ptr]

/-! ## `ann_free` (C14) -/

/-- C14: `ann_free` returns for every argument.  On an entity `s` it leaves
`nodes_in_layer`, `weight` and `output` null and the integer fields as they were; a second
call changes neither the entity nor the set of live blocks; on an entity whose three
pointers are already null it changes nothing; and on the null pointer it does nothing. -/
theorem ann_free_idempotent {R : Type} (s : ann R) (live : List Blk) :
    (∃ s1 live1, ann_free (some s) live = (some s1, live1) ∧
      s1.nodes_in_layer = none ∧ s1.weight = none ∧ s1.output = none ∧
      s1.inputs = s.inputs ∧ s1.outputs = s.outputs ∧ s1.hiddens = s.hiddens ∧
      s1.hidden_layers = s.hidden_layers ∧ s1.total_nodes = s.total_nodes ∧
      s1.weights = s.weights ∧
      ann_free (some s1) live1 = (some s1, live1)) ∧
    ann_free (ann_free (some s) live).1 (ann_free (some s) live).2 = ann_free (some s) live ∧
    (s.nodes_in_layer = none → s.weight = none → s.output = none →
      ann_free (some s) live = (some s, live)) ∧
    ann_free (none : Option (ann R)) live = (none, live) := by
  refine ⟨⟨_, _, rfl, rfl, rfl, rfl, rfl, rfl, rfl, rfl, rfl, rfl, rfl⟩, rfl, ?_, rfl⟩
  intro h1 h2 h3
  cases s
  simp only at h1 h2 h3
  subst h1 h2 h3
  rfl

theorem ann_free_idempotent_witness :
    ann_free (some net221) [Blk.nodes_in_layer, Blk.weight, Blk.output]
        = (some net221_freed, []) ∧
      ann_free (some net221_freed) [] = (some net221_freed, []) :=
  ⟨rfl, (ann_free_idempotent net221_freed []).2.2.1 rfl rfl rfl⟩

/-! ## The return code of `ann_init` (C20) -/

/-- C20: for `hidden_layers ≥ 0`, `ann_init` returns; its code is 0 exactly when its three
`malloc` calls (for `hidden_layers + 2` ints, for `weights` floats and for `total_nodes`
floats) all succeed, and -1 otherwise; when it is 0 the three pointers are non-null, the
blocks hold `hidden_layers + 2`, `weights` and `total_nodes` elements,
`total_nodes = inputs + outputs + hidden_layers * hiddens`, and `inputs`, `outputs`,
`hiddens`, `hidden_layers` hold the arguments. -/
theorem ann_init_return_code {R : Type} [IntCast R] [Div R] (env : Env R)
    (inputs outputs hiddens hidden_layers : Int) (h0 : 0 ≤ hidden_layers) :
    ∃ r, ann_init env inputs outputs hiddens hidden_layers = some r ∧
      (r.ret = 0 ↔
        (malloc (env.malloc_ok 0) (hidden_layers + 2) env.junkInt).isSome = true ∧
        (malloc (env.malloc_ok 1) r.net.weights env.junk).isSome = true ∧
        (malloc (env.malloc_ok 2) r.net.total_nodes env.junk).isSome = true) ∧
      (r.ret ≠ 0 → r.ret = -1) ∧
      (r.ret = 0 → ∃ nodes weight output, r.net.nodes_in_layer = some nodes ∧
        r.net.weight = some weight ∧ r.net.output = some output ∧
        (nodes.length : Int) = hidden_layers + 2 ∧
        (weight.length : Int) = r.net.weights ∧
        (output.length : Int) = r.net.total_nodes ∧
        r.net.total_nodes = inputs + outputs + hidden_layers * hiddens ∧
        r.net.inputs = inputs ∧ r.net.outputs = outputs ∧ r.net.hiddens = hiddens ∧
        r.net.hidden_layers = hidden_layers) := by
  rw [ann_init_eq env inputs outputs hiddens hidden_layers h0]
  by_cases hk0 : env.malloc_ok 0 = true
  · rw [if_pos hk0]
    by_cases hk1 : env.malloc_ok 1 = true ∧ 0 ≤ init_weight_count inputs outputs hiddens
        hidden_layers
    · rw [if_pos hk1]
      by_cases hk2 : env.malloc_ok 2 = true ∧ 0 ≤ inputs + outputs + hidden_layers * hiddens
      · rw [if_pos hk2]
        refine ⟨_, rfl, ?_, ?_, ?_⟩
        · simp only [malloc, init_fields, hk0, hk1.1, hk1.2, hk2.1, hk2.2, true_and,
            if_true, Option.isSome_some, and_self, iff_true]
          rw [if_pos (by omega)]
          simp
        · intro h; exact absurd rfl h
        · intro _
          refine ⟨_, _, _, rfl, rfl, rfl, init_nodes_length _ _ _ _ h0, ?_, ?_, rfl, rfl,
            rfl, rfl, rfl⟩
          · simp only [List.length_map, List.length_range]
            have := hk1.2
            omega
          · simp only [List.length_map, List.length_range, init_fields]
            have := hk2.2
            omega
      · rw [if_neg hk2]
        refine ⟨_, rfl, ?_, fun _ => rfl, fun h => by simp at h⟩
        have hm : malloc (env.malloc_ok 2) (inputs + outputs + hidden_layers * hiddens)
            env.junk = none := by simp only [malloc, if_neg hk2]
        simp [init_fields, hm]
    · rw [if_neg hk1]
      refine ⟨_, rfl, ?_, fun _ => rfl, fun h => by simp at h⟩
      have hm : malloc (env.malloc_ok 1) (init_weight_count inputs outputs hiddens
          hidden_layers) env.junk = none := by simp only [malloc, if_neg hk1]
      simp [hm]
  · rw [if_neg hk0]
    refine ⟨_, rfl, ?_, fun _ => rfl, fun h => by simp at h⟩
    simp [malloc, hk0]

theorem ann_init_return_code_witness :
    ∃ r, ann_init (env_of fun _ => true) 4 1 3 1 = some r ∧ r.ret = 0 ∧
      ∃ nodes weight output, r.net.nodes_in_layer = some nodes ∧
        r.net.weight = some weight ∧ r.net.output = some output ∧
        (nodes.length : Int) = 1 + 2 ∧ (weight.length : Int) = r.net.weights ∧
        (output.length : Int) = r.net.total_nodes := by
  obtain ⟨r, hr, h1, _, h3⟩ := ann_init_return_code (env_of fun _ => true) 4 1 3 1 (by decide)
  have hret : r.ret = 0 := by
    rw [ann_init_eq _ _ _ _ _ (by decide)] at hr
    simp [env_of, init_weight_count] at hr
    rw [← hr]
  obtain ⟨nodes, weight, output, e1, e2, e3, e4, e5, e6, _⟩ := h3 hret
  exact ⟨r, hr, hret, nodes, weight, output, e1, e2, e3, e4, e5, e6⟩

/-! ## What `ann_inference` leaves unchanged (C11) -/

theorem store_length {α : Type} (xs ys : List α) (i : Int) (v : α)
    (h : store xs i v = some ys) : ys.length = xs.length := by
  unfold store at h
  split at h
  · simp only [Option.some.injEq] at h
    rw [← h, List.length_set]
  · simp at h

theorem memcpy_length {α : Type} (dst src ys : List α) (n : Int)
    (h : memcpy dst src n = some ys) : ys.length = dst.length := by
  unfold memcpy at h
  split at h
  · rename_i hc
    simp only [Option.some.injEq] at h
    rw [← h, List.length_append, List.length_take, List.length_drop]
    omega
  · simp at h

/-- One iteration of the loop over the neurons, read backwards from its result. -/
theorem infer_neurons_succ_inv {R : Type} [Zero R] [Add R] [Mul R] (a : ann R) (l : Int)
    (n : Nat) (st st1 : InferState R) (h : infer_neurons a l (n + 1) st = some st1) :
    ∃ nodes p weight pi pw sum out1, a.nodes_in_layer = some nodes ∧
      load nodes (l - 1) = some p ∧ a.weight = some weight ∧
      ptr st.out st.i = some pi ∧ ptr weight st.w = some pw ∧ dotp pi pw p = some sum ∧
      store st.out st.o sum = some out1 ∧
      infer_neurons a l n { st with w := st.w + p, o := st.o + 1, out := out1 } = some st1 := by
  rw [infer_neurons] at h
  simp only [Option.bind_eq_bind, Option.bind_eq_some] at h
  obtain ⟨nodes, h1, p, h2, weight, h3, pi, h4, pw, h5, sum, h6, out1, h7, h8⟩ := h
  exact ⟨nodes, p, weight, pi, pw, sum, out1, h1, h2, h3, h4, h5, h6, h7, h8⟩

/-- One iteration of the loop over the layers, read backwards from its result. -/
theorem infer_layers_succ_inv {R : Type} [Zero R] [Add R] [Mul R] (a : ann R) (l : Int)
    (n : Nat) (st st2 : InferState R) (h : infer_layers a (n + 1) l st = some st2) :
    ∃ nodes cnt st1 prev, a.nodes_in_layer = some nodes ∧ load nodes l = some cnt ∧
      infer_neurons a l (cnt - 0).toNat st = some st1 ∧ load nodes (l - 1) = some prev ∧
      infer_layers a n (l + 1) { st1 with i := st1.i + prev } = some st2 := by
  rw [infer_layers] at h
  simp only [Option.bind_eq_bind, Option.bind_eq_some] at h
  obtain ⟨nodes, h1, cnt, h2, st1, h3, prev, h4, h5⟩ := h
  exact ⟨nodes, cnt, st1, prev, h1, h2, h3, h4, h5⟩

theorem infer_neurons_length {R : Type} [Zero R] [Add R] [Mul R] (a : ann R) (l : Int) :
    ∀ (n : Nat) (st st1 : InferState R), infer_neurons a l n st = some st1 →
      st1.out.length = st.out.length := by
  intro n
  induction n with
  | zero =>
    intro st st1 h
    simp only [infer_neurons, Option.some.injEq] at h
    rw [h]
  | succ n ih =>
    intro st st1 h
    obtain ⟨_, _, _, _, _, sum, out1, _, _, _, _, _, _, h7, h8⟩ :=
      infer_neurons_succ_inv a l n st st1 h
    rw [ih _ _ h8]
    exact store_length _ _ _ _ h7

theorem infer_layers_length {R : Type} [Zero R] [Add R] [Mul R] (a : ann R) :
    ∀ (n : Nat) (l : Int) (st st2 : InferState R), infer_layers a n l st = some st2 →
      st2.out.length = st.out.length := by
  intro n
  induction n with
  | zero =>
    intro l st st2 h
    simp only [infer_layers, Option.some.injEq] at h
    rw [h]
  | succ n ih =>
    intro l st st2 h
    obtain ⟨_, _, st1, _, _, _, h3, _, h5⟩ := infer_layers_succ_inv a l n st st2 h
    rw [ih _ _ _ h5]
    exact infer_neurons_length a l _ st st1 h3

/-- The parts of a returning call of `ann_inference`. -/
theorem ann_inference_inv {R : Type} [Zero R] [Add R] [Mul R] (a : ann R) (x : List R)
    (res : InferResult R) (h : ann_inference a x = some res) :
    ∃ out0 st, a.output = some out0 ∧ ann_inference_run a x = some st ∧
      st.out.length = out0.length ∧
      ptr st.out (a.total_nodes - a.outputs) = some res.view ∧
      res.net = { a with output := some st.out } ∧ res.off = a.total_nodes - a.outputs := by
  rw [ann_inference] at h
  simp only [Option.bind_eq_bind, Option.bind_eq_some, Option.some.injEq] at h
  obtain ⟨st, h1, view, h2, h3⟩ := h
  have h1' := h1
  rw [ann_inference_run] at h1'
  simp only [Option.bind_eq_bind, Option.bind_eq_some] at h1'
  obtain ⟨out0, k1, out1, k2, k3⟩ := h1'
  refine ⟨out0, st, k1, h1, ?_, ?_, ?_, ?_⟩
  · rw [infer_layers_length a _ _ _ _ k3]
    exact memcpy_length _ _ _ _ k2
  · rw [h2, ← h3]
  · rw [← h3]
  · rw [← h3]

/-- C11: a call of `ann_inference` that returns changes nothing but the content of the
block `output`: the fields `inputs`, `outputs`, `hiddens`, `hidden_layers`, `total_nodes`,
`weights` and the blocks `nodes_in_layer` and `weight` are after the call what they were
before it, `output` still points to a block, and that block has the length it had. -/
theorem ann_inference_frame {R : Type} [Zero R] [Add R] [Mul R] (a : ann R) (x : List R)
    (res : InferResult R) (h : ann_inference a x = some res) :
    res.net.inputs = a.inputs ∧ res.net.outputs = a.outputs ∧
    res.net.hiddens = a.hiddens ∧ res.net.hidden_layers = a.hidden_layers ∧
    res.net.total_nodes = a.total_nodes ∧ res.net.weights = a.weights ∧
    res.net.nodes_in_layer = a.nodes_in_layer ∧ res.net.weight = a.weight ∧
    ∃ out0 out, a.output = some out0 ∧ res.net.output = some out ∧
      out.length = out0.length := by
  obtain ⟨out0, st, h1, _, h3, _, h5, _⟩ := ann_inference_inv a x res h
  rw [h5]
  exact ⟨rfl, rfl, rfl, rfl, rfl, rfl, rfl, rfl, out0, st.out, h1, rfl, h3⟩

theorem ann_inference_frame_witness :
    ∃ res, ann_inference net221 [10, 20] = some res ∧
      res.net.nodes_in_layer = net221.nodes_in_layer ∧ res.net.weight = net221.weight ∧
      res.net.weights = net221.weights :=
  have h : ann_inference net221 [10, 20]
      = some ⟨{ net221 with output := some [10, 20, 50, 110, 910] }, 4, [910]⟩ := rfl
  ⟨_, h, (ann_inference_frame net221 [10, 20] _ h).2.2.2.2.2.2.1,
    (ann_inference_frame net221 [10, 20] _ h).2.2.2.2.2.2.2.1,
    (ann_inference_frame net221 [10, 20] _ h).2.2.2.2.2.1⟩

/-! ## The number of weights with at least one hidden layer (C15) -/

theorem layer_pair_sum_hidden (h o : Int) :
    ∀ k : Nat, layer_pair_sum (h :: (List.replicate k h ++ [o])) = k * (h * h) + h * o
  | 0 => by simp [layer_pair_sum]
  | k + 1 => by
    rw [List.replicate_succ, List.cons_append, layer_pair_sum, layer_pair_sum_hidden h o k]
    push_cast
    ring

theorem layer_pair_sum_init_nodes (i o h hl : Int) (hl1 : 1 ≤ hl) :
    layer_pair_sum (init_nodes i o h hl) = i * h + (hl - 1) * (h * h) + h * o := by
  obtain ⟨k, hk⟩ : ∃ k, hl.toNat = k + 1 := ⟨hl.toNat - 1, by omega⟩
  have hc : (k : Int) = hl - 1 := by omega
  rw [init_nodes, hk, List.replicate_succ, List.cons_append, layer_pair_sum,
    layer_pair_sum_hidden h o k, hc]
  ring

/-- C15: for `hidden_layers ≥ 1`, after an `ann_init` that returns 0, `weights` is
`inputs * hiddens + (hidden_layers - 1) * hiddens * hiddens + hiddens * outputs`, which is
the sum over the consecutive pairs of `nodes_in_layer`; for `inputs = 4`, `outputs = 1`,
`hiddens = 3`, `hidden_layers = 1` it is `4 * 3 + 3 * 1 = 15`, and `ann_inference` on that
network, for an input of length 4, returns a view of exactly 1 value. -/
theorem ann_init_weight_count {R : Type} [IntCast R] [Div R] [Zero R] [Add R] [Mul R]
    (env : Env R) (inputs outputs hiddens hidden_layers : Int) (hl1 : 1 ≤ hidden_layers)
    (r : InitResult R) (hr : ann_init env inputs outputs hiddens hidden_layers = some r)
    (hret : r.ret = 0) :
    r.net.weights = inputs * hiddens + (hidden_layers - 1) * hiddens * hiddens
        + hiddens * outputs ∧
    (∃ nodes, r.net.nodes_in_layer = some nodes ∧ r.net.weights = layer_pair_sum nodes) ∧
    ∀ (env1 : Env R) (r1 : InitResult R), ann_init env1 4 1 3 1 = some r1 → r1.ret = 0 →
      r1.net.weights = 15 ∧ (4 : Int) * 3 + 3 * 1 = 15 ∧
      ∀ x : List R, x.length = 4 →
        ∃ res, ann_inference r1.net x = some res ∧ res.view.length = 1 := by
  obtain ⟨_, _, rfl⟩ := ann_init_success env inputs outputs hiddens hidden_layers
    (by omega) r hr hret
  have hne : hidden_layers.toNat ≠ 0 := by omega
  refine ⟨?_, ⟨_, rfl, ?_⟩, ?_⟩
  · show init_weight_count inputs outputs hiddens hidden_layers = _
    rw [init_weight_count, if_neg hne]
    ring
  · show init_weight_count inputs outputs hiddens hidden_layers = _
    rw [layer_pair_sum_init_nodes _ _ _ _ hl1, init_weight_count, if_neg hne]
  · intro env1 r1 hr1 hret1
    have hw : r1.net.weights = 15 := by
      obtain ⟨_, _, rfl⟩ := ann_init_success env1 4 1 3 1 (by decide) r1 hr1 hret1
      show init_weight_count 4 1 3 1 = 15
      decide
    refine ⟨hw, by decide, ?_⟩
    intro x hx
    obtain ⟨st, res, _, _, _, h4, _, _, _, _, h9⟩ :=
      ann_init_inference env1 4 1 3 1 (by decide) (by decide) (by decide) (by decide)
        r1 hr1 hret1 x (by rw [hx]; rfl)
    exact ⟨res, h4, by exact_mod_cast h9⟩

theorem ann_init_weight_count_witness :
    ∃ r, ann_init (env_of fun _ => true) 4 1 3 1 = some r ∧ r.ret = 0 ∧
      r.net.weights = 4 * 3 + (1 - 1) * 3 * 3 + 3 * 1 ∧
      ∃ res, ann_inference r.net [1, 1, 1, 1] = some res ∧ res.view.length = 1 := by
  have hr : ∃ r, ann_init (env_of fun _ => true) 4 1 3 1 = some r ∧ r.ret = 0 := by
    rw [ann_init_eq _ _ _ _ _ (by decide)]
    simp [env_of, init_weight_count]
  obtain ⟨r, hr, hret⟩ := hr
  have h := ann_init_weight_count (env_of fun _ => true) 4 1 3 1 (by decide) r hr hret
  obtain ⟨res, h1, h2⟩ := (h.2.2 _ r hr hret).2.2 [1, 1, 1, 1] rfl
  exact ⟨r, hr, hret, h.1, res, h1, h2⟩

/-! ## Networks in a valid state -/

theorem layer_offset_last (ns : List Nat) (h : 1 ≤ ns.length) :
    layer_offset ns (ns.length - 1) + ns.getD (ns.length - 1) 0 = ns.sum := by
  have := layer_offset_succ ns (ns.length - 1)
  rw [Nat.sub_add_cancel h, layer_offset_length] at this
  omega

/-- In a valid state `ann_inference` returns for every input of `n_0` values: the block it
leaves starts with the input, every later entry is the `dotp` of the previous segment with
its weight block, and the returned view is the segment of the last layer. -/
theorem valid_state_inference {R : Type} [Zero R] [Add R] [Mul R] (ns : List Nat)
    (wt : List R) (a : ann R) (hv : valid_state ns wt a) (x : List R)
    (hx : x.length = ns.getD 0 0) :
    ∃ out, ann_inference a x
        = some ⟨{ a with output := some out }, a.total_nodes - a.outputs,
            out.drop (layer_offset ns (ns.length - 1))⟩ ∧
      out.length = ns.sum ∧ out.take (ns.getD 0 0) = x ∧
      (out.drop (layer_offset ns (ns.length - 1))).length = ns.getD (ns.length - 1) 0 ∧
      a.total_nodes - a.outputs = ((layer_offset ns (ns.length - 1) : Nat) : Int) ∧
      ∀ l h, 1 ≤ l → l < ns.length → h < ns.getD l 0 →
        out[layer_offset ns l + h]?
          = dotp (segment out (layer_offset ns (l - 1)) (ns.getD (l - 1) 0))
              (segment wt (weight_offset ns l + h * ns.getD (l - 1) 0)
                (ns.getD (l - 1) 0))
              ((ns.getD (l - 1) 0 : Nat) : Int) := by
  obtain ⟨hn, hw, h0, hL, hin, hout, htot, hwl, out0, ho, hlen⟩ := hv
  obtain ⟨out, k1, k2, k3, _, k5⟩ :=
    ann_inference_run_spec a ns wt out0 x hn hw ho h0 hL hin hx hwl (by omega)
  have hlast := layer_offset_last ns (by omega)
  have hoff : a.total_nodes - a.outputs = ((layer_offset ns (ns.length - 1) : Nat) : Int) := by
    rw [htot, hout]; omega
  have hp : ptr out (a.total_nodes - a.outputs)
      = some (out.drop (layer_offset ns (ns.length - 1))) := by
    rw [hoff, ptr_natCast _ _ (by omega)]
  refine ⟨out, ?_, by omega, k3, ?_, hoff, k5⟩
  · rw [ann_inference]
    simp only [k1, hp, Option.bind_eq_bind, Option.some_bind]
  · rw [List.length_drop]; omega

/-- A valid state stays valid when the activation block is replaced by another block of
the same length. -/
theorem valid_state_output {R : Type} (ns : List Nat) (wt : List R) (a : ann R)
    (hv : valid_state ns wt a) (out : List R) (hlen : out.length = ns.sum) :
    valid_state ns wt { a with output := some out } := by
  obtain ⟨hn, hw, h0, hL, hin, hout, htot, hwl, _⟩ := hv
  exact ⟨hn, hw, h0, hL, hin, hout, htot, hwl, out, rfl, hlen⟩

/-- Blocks that start with the same input and whose later entries are, in each of them,
the `dotp` of the previous segment with the weight block, agree on every layer. -/
theorem activations_unique {R : Type} [Zero R] [Add R] [Mul R] (ns : List Nat)
    (wt out1 out2 : List R)
    (hx : out1.take (ns.getD 0 0) = out2.take (ns.getD 0 0))
    (h1 : ∀ l h, 1 ≤ l → l < ns.length → h < ns.getD l 0 →
      out1[layer_offset ns l + h]?
        = dotp (segment out1 (layer_offset ns (l - 1)) (ns.getD (l - 1) 0))
            (segment wt (weight_offset ns l + h * ns.getD (l - 1) 0) (ns.getD (l - 1) 0))
            ((ns.getD (l - 1) 0 : Nat) : Int))
    (h2 : ∀ l h, 1 ≤ l → l < ns.length → h < ns.getD l 0 →
      out2[layer_offset ns l + h]?
        = dotp (segment out2 (layer_offset ns (l - 1)) (ns.getD (l - 1) 0))
            (segment wt (weight_offset ns l + h * ns.getD (l - 1) 0) (ns.getD (l - 1) 0))
            ((ns.getD (l - 1) 0 : Nat) : Int)) :
    ∀ l, l < ns.length →
      out1.take (layer_offset ns (l + 1)) = out2.take (layer_offset ns (l + 1)) := by
  intro l
  induction l with
  | zero =>
    intro _
    rw [Nat.zero_add, layer_offset_one]
    exact hx
  | succ l ih =>
    intro hl
    have ih1 := ih (by omega)
    have hs := layer_offset_succ ns (l + 1)
    have hs0 := layer_offset_succ ns l
    apply List.ext_getElem?
    intro j
    simp only [List.getElem?_take]
    split
    · rename_i hj
      by_cases hlt : j < layer_offset ns (l + 1)
      · exact getElem?_eq_of_take_eq j ih1 hlt
      · obtain ⟨h, rfl⟩ : ∃ h, j = layer_offset ns (l + 1) + h :=
          ⟨j - layer_offset ns (l + 1), by omega⟩
        have e1 := h1 (l + 1) h (by omega) hl (by omega)
        have e2 := h2 (l + 1) h (by omega) hl (by omega)
        rw [Nat.add_sub_cancel] at e1 e2
        rw [e1, e2, segment_eq_of_take_eq _ _ ih1 (by omega)]
    · rfl

/-- Two valid states of the same network, which may differ in what their activation
blocks hold, are left by `ann_inference` with the same activation block for the same
input, and the two calls return the same view. -/
theorem valid_state_deterministic {R : Type} [Zero R] [Add R] [Mul R] (ns : List Nat)
    (wt : List R) (a1 a2 : ann R) (hv1 : valid_state ns wt a1) (hv2 : valid_state ns wt a2)
    (x : List R) (hx : x.length = ns.getD 0 0) :
    ∃ out, ann_inference a1 x
          = some ⟨{ a1 with output := some out }, a1.total_nodes - a1.outputs,
              out.drop (layer_offset ns (ns.length - 1))⟩ ∧
      ann_inference a2 x
          = some ⟨{ a2 with output := some out }, a2.total_nodes - a2.outputs,
              out.drop (layer_offset ns (ns.length - 1))⟩ ∧
      out.length = ns.sum ∧
      (out.drop (layer_offset ns (ns.length - 1))).length = ns.getD (ns.length - 1) 0 := by
  obtain ⟨out1, e1, l1, x1, v1, _, r1⟩ := valid_state_inference ns wt a1 hv1 x hx
  obtain ⟨out2, e2, l2, x2, _, _, r2⟩ := valid_state_inference ns wt a2 hv2 x hx
  have hlen : 2 ≤ ns.length := by
    obtain ⟨_, _, h0, hL, _⟩ := hv1
    omega
  have hu := activations_unique ns wt out1 out2 (by rw [x1, x2]) r1 r2 (ns.length - 1)
    (by omega)
  rw [Nat.sub_add_cancel (by omega), layer_offset_length, List.take_of_length_le (by omega),
    List.take_of_length_le (by omega)] at hu
  subst hu
  exact ⟨out1, e1, e2, l1, v1⟩

theorem dotp_loop_some_length {R : Type} [Add R] [Mul R] :
    ∀ (n : Nat) (a b : List R) (s v : R), dotp_loop n a b s = some v →
      n ≤ a.length ∧ n ≤ b.length
  | 0, _, _, _, _, _ => ⟨Nat.zero_le _, Nat.zero_le _⟩
  | n + 1, [], _, _, _, h => by simp [dotp_loop] at h
  | n + 1, _ :: _, [], _, _, h => by simp [dotp_loop] at h
  | n + 1, x :: a, y :: b, s, v, h => by
    rw [dotp_loop] at h
    have := dotp_loop_some_length n a b _ v h
    simp only [List.length_cons]
    omega

theorem ptr_some {α : Type} (xs ys : List α) (off : Int) (h : ptr xs off = some ys) :
    0 ≤ off ∧ off ≤ xs.length ∧ ys = xs.drop off.toNat := by
  unfold ptr at h
  split at h
  · rename_i hc
    simp only [Option.some.injEq] at h
    exact ⟨hc.1, hc.2, h.symm⟩
  · simp at h

/-- A run of the loop over the neurons that returns has found its `n` weight blocks of `p`
elements inside the weight block. -/
theorem infer_neurons_weight_bound {R : Type} [Zero R] [Add R] [Mul R] (a : ann R)
    (nodes : List Int) (weight : List R) (l : Int) (p : Nat)
    (hn : a.nodes_in_layer = some nodes) (hw : a.weight = some weight)
    (hp : load nodes (l - 1) = some (p : Int)) :
    ∀ (n : Nat) (st st1 : InferState R), infer_neurons a l n st = some st1 → 0 ≤ st.w →
      n = 0 ∨ st.w + n * p ≤ weight.length := by
  intro n
  induction n with
  | zero => intro _ _ _ _; exact Or.inl rfl
  | succ n ih =>
    intro st st1 h hw0
    obtain ⟨nodes1, p1, weight1, pi, pw, sum, out1, e1, e2, e3, e4, e5, e6, e7, e8⟩ :=
      infer_neurons_succ_inv a l n st st1 h
    rw [hn] at e1
    cases e1
    rw [hw] at e3
    cases e3
    rw [hp] at e2
    cases e2
    obtain ⟨_, hle, hpw⟩ := ptr_some _ _ _ e5
    rw [dotp_natCast] at e6
    have hb := (dotp_loop_some_length p pi pw 0 sum e6).2
    rw [hpw, List.length_drop] at hb
    right
    have hmul : (((n + 1 : Nat) : Int)) * (p : Int) = (n : Int) * p + p := by
      push_cast; ring
    rcases ih _ st1 e8 (by simp only; omega) with h0 | h1
    · subst h0
      simp only [Nat.zero_add, Nat.cast_one, Int.one_mul]
      omega
    · simp only at h1
      rw [hmul]
      omega

/-- A network built by `ann_init` with non-negative sizes is in a valid state as soon as
its weight block holds the weights of its layers. -/
theorem ann_init_valid_state {R : Type} [IntCast R] [Div R] (env : Env R) (i o h hl : Int)
    (hi : 0 ≤ i) (ho : 0 ≤ o) (hh : 0 ≤ h) (h0 : 0 ≤ hl) (r : InitResult R)
    (hr : ann_init env i o h hl = some r) (hret : r.ret = 0)
    (hs : weight_offset (init_widths i o h hl) (init_widths i o h hl).length
      ≤ (init_weight_count i o h hl).toNat) :
    valid_state (init_widths i o h hl)
      ((List.range (init_weight_count i o h hl).toNat).map
        (fun j => weight_of_rand env.RAND_MAX (env.rand j))) r.net ∧
    r.net.inputs = i ∧ r.net.outputs = o ∧ r.net.hiddens = h ∧ r.net.hidden_layers = hl ∧
    r.net.total_nodes = i + o + hl * h := by
  obtain ⟨hW, hT, rfl⟩ := ann_init_success env i o h hl h0 r hr hret
  have hsum := init_widths_sum i o h hl hi ho hh h0
  have hlen := init_widths_length i o h hl
  refine ⟨⟨?_, rfl, h0, ?_, ?_, ?_, ?_, ?_, _, rfl, ?_⟩, rfl, rfl, rfl, rfl, rfl⟩
  · simp only [init_nodes_eq_widths i o h hl hi ho hh]
  · show hl + 2 = _
    rw [hlen]; push_cast; omega
  · show i = _
    rw [init_widths_getD_zero]; omega
  · show o = _
    rw [hlen, show hl.toNat + 2 - 1 = hl.toNat + 1 by omega, init_widths_getD_last]; omega
  · show i + o + hl * h = _
    rw [hsum]
  · simp only [List.length_map, List.length_range]
    exact hs
  · simp only [List.length_map, List.length_range]
    omega

/-- With at least one hidden layer the weight block `ann_init` allocates holds the weights
of all layers. -/
theorem init_weights_suffice (i o h hl : Int) (hi : 0 ≤ i) (ho : 0 ≤ o) (hh : 0 ≤ h)
    (hl1 : 1 ≤ hl) :
    weight_offset (init_widths i o h hl) (init_widths i o h hl).length
      ≤ (init_weight_count i o h hl).toNat := by
  have := init_weight_count_eq i o h hl hi ho hh hl1
  omega

/-- When `ann_inference` returns on a network built by `ann_init`, the weight block of
that network holds the weights of all layers. -/
theorem init_weights_suffice_of_defined {R : Type} [IntCast R] [Div R] [Zero R] [Add R]
    [Mul R] (env : Env R) (i o h hl : Int) (hi : 0 ≤ i) (ho : 0 ≤ o) (hh : 0 ≤ h)
    (h0 : 0 ≤ hl) (r : InitResult R) (hr : ann_init env i o h hl = some r)
    (hret : r.ret = 0) (x : List R) (res : InferResult R)
    (hres : ann_inference r.net x = some res) :
    weight_offset (init_widths i o h hl) (init_widths i o h hl).length
      ≤ (init_weight_count i o h hl).toNat := by
  by_cases hl1 : 1 ≤ hl
  · exact init_weights_suffice i o h hl hi ho hh hl1
  · have hz : hl = 0 := by omega
    subst hz
    obtain ⟨hW, hT, rfl⟩ := ann_init_success env i o h 0 h0 r hr hret
    obtain ⟨out0, st, _, hrun, _⟩ := ann_inference_inv _ x res hres
    rw [ann_inference_run] at hrun
    simp only [Option.bind_eq_bind, Option.bind_eq_some] at hrun
    obtain ⟨_, _, out1, _, hlay⟩ := hrun
    have hcount : ((0 : Int) + 2 - 1).toNat = 0 + 1 := by decide
    simp only [init_fields, hcount] at hlay
    obtain ⟨nodes, cnt, st1, prev, e1, e2, e3, e4, _⟩ := infer_layers_succ_inv _ _ _ _ _ hlay
    simp only [Option.some.injEq] at e1
    subst e1
    have hcnt : cnt = o := by
      simp [load, init_nodes] at e2
      exact e2.symm
    subst hcnt
    have hprev : load (init_nodes i cnt h 0) (1 - 1) = some ((i.toNat : Nat) : Int) := by
      simp [load, init_nodes, Int.toNat_of_nonneg hi]
    have hb := infer_neurons_weight_bound _ _ _ 1 i.toNat rfl rfl hprev _ _ st1 e3
      (by simp)
    have hwo : weight_offset (init_widths i cnt h 0) (init_widths i cnt h 0).length
        = i.toNat * cnt.toNat := by
      simp [weight_offset, init_widths]
    rw [hwo]
    simp only [List.length_map, List.length_range, Int.sub_zero] at hb
    rcases hb with hb | hb
    · rw [hb]; simp
    · have : ((i.toNat * cnt.toNat : Nat) : Int) ≤ ((init_weight_count i cnt h 0).toNat : Int) := by
        push_cast
        have e : (cnt.toNat : Int) * (i.toNat : Int) = (i.toNat : Int) * (cnt.toNat : Int) := by
          ring
        rw [← e]
        simpa using hb
      exact_mod_cast this

/-- A network built by `ann_init` with non-negative sizes, on which one call of
`ann_inference` returns, is in a valid state. -/
theorem ann_init_valid_of_defined {R : Type} [IntCast R] [Div R] [Zero R] [Add R] [Mul R]
    (env : Env R) (i o h hl : Int) (hi : 0 ≤ i) (ho : 0 ≤ o) (hh : 0 ≤ h) (h0 : 0 ≤ hl)
    (r : InitResult R) (hr : ann_init env i o h hl = some r) (hret : r.ret = 0)
    (x : List R) (res : InferResult R) (hres : ann_inference r.net x = some res) :
    valid_state (init_widths i o h hl)
      ((List.range (init_weight_count i o h hl).toNat).map
        (fun j => weight_of_rand env.RAND_MAX (env.rand j))) r.net :=
  (ann_init_valid_state env i o h hl hi ho hh h0 r hr hret
    (init_weights_suffice_of_defined env i o h hl hi ho hh h0 r hr hret x res hres)).1

/-! ## A concrete network -/

/-- The call `ann_init(&ann, 4, 1, 3, 1)` in the library `env_of` with every allocation
granted returns 0, and `ann_inference` returns on the network it builds for the input
`[1, 1, 1, 1]`. -/
theorem demo_network :
    ∃ r res, ann_init (env_of fun _ => true) 4 1 3 1 = some r ∧ r.ret = 0 ∧
      ann_inference r.net [1, 1, 1, 1] = some res := by
  have hr : ∃ r, ann_init (env_of fun _ => true) 4 1 3 1 = some r ∧ r.ret = 0 := by
    rw [ann_init_eq _ _ _ _ _ (by decide)]
    simp [env_of, init_weight_count]
  obtain ⟨r, hr, hret⟩ := hr
  obtain ⟨_, res, _, _, _, h4, _⟩ :=
    ann_init_inference (env_of fun _ => true) 4 1 3 1 (by decide) (by decide) (by decide)
      (by decide) r hr hret [1, 1, 1, 1] rfl
  exact ⟨r, res, hr, hret, h4⟩

/-! ## The output does not depend on earlier calls (C12) -/

/-- A sequence of returning calls of `ann_inference` keeps a valid state valid. -/
theorem valid_state_seq {R : Type} [Zero R] [Add R] [Mul R] (ns : List Nat) (wt : List R) :
    ∀ (ys : List (List R)) (a a1 : ann R), valid_state ns wt a →
      ann_inference_seq a ys = some a1 → valid_state ns wt a1 := by
  intro ys
  induction ys with
  | nil =>
    intro a a1 hv h
    simp only [ann_inference_seq, Option.some.injEq] at h
    rw [← h]; exact hv
  | cons y ys ih =>
    intro a a1 hv h
    rw [ann_inference_seq] at h
    simp only [Option.bind_eq_bind, Option.bind_eq_some] at h
    obtain ⟨res, h1, h2⟩ := h
    obtain ⟨out0, st, e1, _, e3, _, e5, _⟩ := ann_inference_inv a y res h1
    have hlen : out0.length = ns.sum := by
      obtain ⟨_, _, _, _, _, _, _, _, out, ho, hl⟩ := hv
      rw [ho] at e1
      cases e1
      exact hl
    refine ih res.net a1 ?_ h2
    rw [e5]
    exact valid_state_output ns wt a hv st.out (by omega)

/-- C12: on a network built by `ann_init`, let a call of `ann_inference` with an input `x`
of `inputs` values return.  Then the call returns the same output values whatever the
activation block held before: with any other content of the block, when repeated right
after itself, and after any sequence of other calls of `ann_inference`.  The view has
`outputs` values. -/
theorem ann_inference_history_independent {R : Type} [IntCast R] [Div R] [Zero R] [Add R]
    [Mul R] (env : Env R) (inputs outputs hiddens hidden_layers : Int) (hi : 0 ≤ inputs)
    (ho : 0 ≤ outputs) (hh : 0 ≤ hiddens) (h0 : 0 ≤ hidden_layers) (r : InitResult R)
    (hr : ann_init env inputs outputs hiddens hidden_layers = some r) (hret : r.ret = 0)
    (x : List R) (hx : (x.length : Int) = inputs) (res : InferResult R)
    (hres : ann_inference r.net x = some res) :
    (∀ out1 : List R, (out1.length : Int) = r.net.total_nodes →
      ∃ res1, ann_inference { r.net with output := some out1 } x = some res1 ∧
        res1.view = res.view) ∧
    (∃ res2, ann_inference res.net x = some res2 ∧ res2.view = res.view) ∧
    (∀ (ys : List (List R)) (a1 : ann R), ann_inference_seq r.net ys = some a1 →
      ∃ res1, ann_inference a1 x = some res1 ∧ res1.view = res.view) ∧
    (res.view.length : Int) = outputs := by
  have hv := ann_init_valid_of_defined env inputs outputs hiddens hidden_layers hi ho hh h0
    r hr hret x res hres
  have hx1 : x.length = (init_widths inputs outputs hiddens hidden_layers).getD 0 0 := by
    rw [init_widths_getD_zero]; omega
  have key : ∀ a1 : ann R,
      valid_state (init_widths inputs outputs hiddens hidden_layers)
        ((List.range (init_weight_count inputs outputs hiddens hidden_layers).toNat).map
          (fun j => weight_of_rand env.RAND_MAX (env.rand j))) a1 →
      ∃ res1, ann_inference a1 x = some res1 ∧ res1.view = res.view := by
    intro a1 hv1
    obtain ⟨out, e1, e2, _, _⟩ := valid_state_deterministic _ _ r.net a1 hv hv1 x hx1
    rw [hres] at e1
    cases e1
    exact ⟨_, e2, rfl⟩
  have htot : r.net.total_nodes
      = ((init_widths inputs outputs hiddens hidden_layers).sum : Nat) := hv.2.2.2.2.2.2.1
  refine ⟨?_, ?_, ?_, ?_⟩
  · intro out1 hlen
    exact key _ (valid_state_output _ _ r.net hv out1 (by omega))
  · have hseq : ann_inference_seq r.net [x] = some res.net := by
      simp [ann_inference_seq, hres]
    exact key _ (valid_state_seq _ _ [x] r.net res.net hv hseq)
  · intro ys a1 hseq
    exact key _ (valid_state_seq _ _ ys r.net a1 hv hseq)
  · obtain ⟨out, e1, _, _, e4⟩ := valid_state_deterministic _ _ r.net r.net hv hv x hx1
    rw [hres] at e1
    cases e1
    simp only at e4 ⊢
    rw [e4, init_widths_length, show hidden_layers.toNat + 2 - 1 = hidden_layers.toNat + 1 by omega,
      init_widths_getD_last]
    omega

theorem ann_inference_history_independent_witness :
    ∃ r res res2, ann_init (env_of fun _ => true) 4 1 3 1 = some r ∧ r.ret = 0 ∧
      ann_inference r.net [1, 1, 1, 1] = some res ∧
      ann_inference res.net [1, 1, 1, 1] = some res2 ∧ res2.view = res.view ∧
      (res.view.length : Int) = 1 := by
  obtain ⟨r, res, hr, hret, hres⟩ := demo_network
  have h := ann_inference_history_independent (env_of fun _ => true) 4 1 3 1 (by decide)
    (by decide) (by decide) (by decide) r hr hret [1, 1, 1, 1] rfl res hres
  obtain ⟨res2, h1, h2⟩ := h.2.1
  exact ⟨r, res, res2, hr, hret, hres, h1, h2, h.2.2.2⟩

/-! ## Determinism of the construction (C13) -/

/-- C13: two calls of `ann_init` with the same arguments, both returning 0, in libraries
with the same `RAND_MAX` and the same stream of `rand()` results: each call draws exactly
`weights` values, the two weight blocks are equal, entry `k` being the weight made from the
`k`-th draw alone, and a call of `ann_inference` that returns on the first network returns
on the second one, for the same input, with the same output values. -/
theorem ann_init_deterministic {R : Type} [IntCast R] [Div R] [Zero R] [Add R] [Mul R]
    (env1 env2 : Env R) (inputs outputs hiddens hidden_layers : Int) (hi : 0 ≤ inputs)
    (ho : 0 ≤ outputs) (hh : 0 ≤ hiddens) (h0 : 0 ≤ hidden_layers)
    (hmax : env1.RAND_MAX = env2.RAND_MAX) (hrand : ∀ k, env1.rand k = env2.rand k)
    (r1 r2 : InitResult R)
    (hr1 : ann_init env1 inputs outputs hiddens hidden_layers = some r1) (hret1 : r1.ret = 0)
    (hr2 : ann_init env2 inputs outputs hiddens hidden_layers = some r2) (hret2 : r2.ret = 0) :
    (r1.draws : Int) = r1.net.weights ∧ (r2.draws : Int) = r2.net.weights ∧
    r1.net.weights = r2.net.weights ∧
    (∃ wt, r1.net.weight = some wt ∧ r2.net.weight = some wt ∧
      (wt.length : Int) = r1.net.weights ∧
      ∀ k, k < wt.length → wt[k]? = some (weight_of_rand env1.RAND_MAX (env1.rand k))) ∧
    ∀ (x : List R) (res1 : InferResult R), (x.length : Int) = inputs →
      ann_inference r1.net x = some res1 →
      ∃ res2, ann_inference r2.net x = some res2 ∧ res2.view = res1.view := by
  have hfun : (fun j => (weight_of_rand env2.RAND_MAX (env2.rand j) : R))
      = fun j => weight_of_rand env1.RAND_MAX (env1.rand j) := by
    funext j
    rw [hmax, hrand]
  refine ⟨?_, ?_, ?_, ?_, ?_⟩
  · obtain ⟨hW, _, rfl⟩ := ann_init_success env1 _ _ _ _ h0 r1 hr1 hret1
    show (((init_weight_count inputs outputs hiddens hidden_layers).toNat : Nat) : Int) = _
    exact Int.toNat_of_nonneg hW
  · obtain ⟨hW, _, rfl⟩ := ann_init_success env2 _ _ _ _ h0 r2 hr2 hret2
    show (((init_weight_count inputs outputs hiddens hidden_layers).toNat : Nat) : Int) = _
    exact Int.toNat_of_nonneg hW
  · obtain ⟨_, _, rfl⟩ := ann_init_success env1 _ _ _ _ h0 r1 hr1 hret1
    obtain ⟨_, _, rfl⟩ := ann_init_success env2 _ _ _ _ h0 r2 hr2 hret2
    rfl
  · obtain ⟨hW, _, rfl⟩ := ann_init_success env1 _ _ _ _ h0 r1 hr1 hret1
    obtain ⟨_, _, rfl⟩ := ann_init_success env2 _ _ _ _ h0 r2 hr2 hret2
    refine ⟨_, rfl, ?_, ?_, ?_⟩
    · simp only [hfun]
    · simp only [List.length_map, List.length_range]
      exact Int.toNat_of_nonneg hW
    · intro k hk
      simp only [List.length_map, List.length_range] at hk
      simp [List.getElem?_map, List.getElem?_range hk]
  · intro x res1 hx hres1
    have hs := init_weights_suffice_of_defined env1 _ _ _ _ hi ho hh h0 r1 hr1 hret1 x res1
      hres1
    have hv1 := (ann_init_valid_state env1 _ _ _ _ hi ho hh h0 r1 hr1 hret1 hs).1
    have hv2 := (ann_init_valid_state env2 _ _ _ _ hi ho hh h0 r2 hr2 hret2 hs).1
    rw [hfun] at hv2
    obtain ⟨out, e1, e2, _, _⟩ := valid_state_deterministic _ _ r1.net r2.net hv1 hv2 x
      (by rw [init_widths_getD_zero]; omega)
    rw [hres1] at e1
    cases e1
    exact ⟨_, e2, rfl⟩

theorem ann_init_deterministic_witness :
    ∃ r1 r2 res1 res2, ann_init (env_of fun _ => true) 4 1 3 1 = some r1 ∧
      ann_init (env_of fun k => decide (k < 3)) 4 1 3 1 = some r2 ∧
      r1.net.weight = r2.net.weight ∧ (r1.draws : Int) = r1.net.weights ∧
      ann_inference r1.net [1, 1, 1, 1] = some res1 ∧
      ann_inference r2.net [1, 1, 1, 1] = some res2 ∧ res2.view = res1.view := by
  obtain ⟨r1, res1, hr1, hret1, hres1⟩ := demo_network
  have hr2 : ∃ r2, ann_init (env_of fun k => decide (k < 3)) 4 1 3 1 = some r2 ∧ r2.ret = 0 := by
    rw [ann_init_eq _ _ _ _ _ (by decide)]
    simp [env_of, init_weight_count]
  obtain ⟨r2, hr2, hret2⟩ := hr2
  have h := ann_init_deterministic (env_of fun _ => true) (env_of fun k => decide (k < 3))
    4 1 3 1 (by decide) (by decide) (by decide) (by decide) rfl (fun _ => rfl) r1 r2 hr1
    hret1 hr2 hret2
  obtain ⟨wt, e1, e2, _⟩ := h.2.2.2.1
  obtain ⟨res2, k1, k2⟩ := h.2.2.2.2 [1, 1, 1, 1] res1 rfl hres1
  exact ⟨r1, r2, res1, res2, hr1, hr2, by rw [e1, e2], h.1, hres1, k1, k2⟩

/-! ## Exact arithmetic: the activations as sums -/

/-- Where the segments and the weight blocks of layer `l` and neuron `h` lie. -/
theorem layer_bounds (ns : List Nat) (l h : Nat) (hl1 : 1 ≤ l) (hl2 : l < ns.length)
    (hh : h < ns.getD l 0) :
    layer_offset ns (l - 1) + ns.getD (l - 1) 0 = layer_offset ns l ∧
    layer_offset ns l + ns.getD l 0 ≤ ns.sum ∧
    weight_offset ns l + h * ns.getD (l - 1) 0 + ns.getD (l - 1) 0
      ≤ weight_offset ns ns.length := by
  have hlo : layer_offset ns l = layer_offset ns (l - 1) + ns.getD (l - 1) 0 := by
    have := layer_offset_succ ns (l - 1)
    rwa [Nat.sub_add_cancel hl1] at this
  have hm1 := layer_offset_mono ns (l + 1) (ns.length - (l + 1))
  rw [Nat.add_sub_cancel' (by omega), layer_offset_length, layer_offset_succ] at hm1
  have hm2 := weight_offset_mono ns (l + 1) (ns.length - (l + 1)) (by omega)
  rw [Nat.add_sub_cancel' (by omega), weight_offset_succ ns l hl1] at hm2
  have hmul : (h + 1) * ns.getD (l - 1) 0 ≤ ns.getD l 0 * ns.getD (l - 1) 0 :=
    Nat.mul_le_mul_right _ (by omega)
  rw [Nat.mul_comm (ns.getD l 0), Nat.add_mul, Nat.one_mul] at hmul
  exact ⟨hlo.symm, hm1, by omega⟩

theorem getElem?_eq_some_getD {α : Type} (xs : List α) (j : Nat) (d : α)
    (h : j < xs.length) : xs[j]? = some (xs.getD j d) := by
  rw [List.getD_eq_getElem?_getD, List.getElem?_eq_getElem h]
  rfl

/-- With exact arithmetic, a block of the right length that starts with the input and in
which every later entry is the sum of the products of the previous segment with the
weight block is the block `ann_inference` leaves. -/
theorem valid_state_output_eq {R : Type} [Semiring R] (ns : List Nat) (wt : List R)
    (a : ann R) (hv : valid_state ns wt a) (x : List R) (hx : x.length = ns.getD 0 0)
    (oc : List R) (hlen : oc.length = ns.sum) (hx0 : oc.take (ns.getD 0 0) = x)
    (hrec : ∀ l h, 1 ≤ l → l < ns.length → h < ns.getD l 0 →
      oc.getD (layer_offset ns l + h) 0
        = ∑ k ∈ Finset.range (ns.getD (l - 1) 0),
            oc.getD (layer_offset ns (l - 1) + k) 0
              * wt.getD (weight_offset ns l + h * ns.getD (l - 1) 0 + k) 0) :
    ann_inference a x
      = some ⟨{ a with output := some oc }, a.total_nodes - a.outputs,
          oc.drop (layer_offset ns (ns.length - 1))⟩ := by
  obtain ⟨out, e1, l1, x1, _, _, r1⟩ := valid_state_inference ns wt a hv x hx
  have hwl : weight_offset ns ns.length ≤ wt.length := hv.2.2.2.2.2.2.2.1
  have hL : 2 ≤ ns.length := by
    obtain ⟨_, _, h0, hL, _⟩ := hv
    omega
  have rc : ∀ l h, 1 ≤ l → l < ns.length → h < ns.getD l 0 →
      oc[layer_offset ns l + h]?
        = dotp (segment oc (layer_offset ns (l - 1)) (ns.getD (l - 1) 0))
            (segment wt (weight_offset ns l + h * ns.getD (l - 1) 0) (ns.getD (l - 1) 0))
            ((ns.getD (l - 1) 0 : Nat) : Int) := by
    intro l h hl1 hl2 hh
    obtain ⟨b1, b2, b3⟩ := layer_bounds ns l h hl1 hl2 hh
    rw [dotp_segment_sum oc wt _ _ _ (by omega) (by omega),
      getElem?_eq_some_getD oc _ 0 (by omega), hrec l h hl1 hl2 hh]
  have hu := activations_unique ns wt out oc (by rw [x1, hx0]) r1 rc (ns.length - 1)
    (by omega)
  rw [Nat.sub_add_cancel (by omega), layer_offset_length, List.take_of_length_le (by omega),
    List.take_of_length_le (by omega)] at hu
  rw [← hu]
  exact e1

/-- With exact arithmetic, every entry `ann_inference` leaves after segment 0 is the sum
of the products of the previous segment with the weight block. -/
theorem valid_state_inference_sum {R : Type} [Semiring R] (ns : List Nat) (wt : List R)
    (a : ann R) (hv : valid_state ns wt a) (x : List R) (hx : x.length = ns.getD 0 0) :
    ∃ out, ann_inference a x
        = some ⟨{ a with output := some out }, a.total_nodes - a.outputs,
            out.drop (layer_offset ns (ns.length - 1))⟩ ∧
      out.length = ns.sum ∧ out.take (ns.getD 0 0) = x ∧
      ∀ l h, 1 ≤ l → l < ns.length → h < ns.getD l 0 →
        out.getD (layer_offset ns l + h) 0
          = ∑ k ∈ Finset.range (ns.getD (l - 1) 0),
              out.getD (layer_offset ns (l - 1) + k) 0
                * wt.getD (weight_offset ns l + h * ns.getD (l - 1) 0 + k) 0 := by
  obtain ⟨out, e1, l1, x1, _, _, r1⟩ := valid_state_inference ns wt a hv x hx
  have hwl : weight_offset ns ns.length ≤ wt.length := hv.2.2.2.2.2.2.2.1
  refine ⟨out, e1, l1, x1, ?_⟩
  intro l h hl1 hl2 hh
  obtain ⟨b1, b2, b3⟩ := layer_bounds ns l h hl1 hl2 hh
  have e := r1 l h hl1 hl2 hh
  rw [dotp_segment_sum out wt _ _ _ (by omega) (by omega),
    getElem?_eq_some_getD out _ 0 (by omega)] at e
  exact Option.some.inj e

theorem getD_zipWith {R : Type} [Zero R] (f : R → R → R) (xs ys : List R) (j : Nat)
    (hx : j < xs.length) (hy : j < ys.length) :
    (List.zipWith f xs ys).getD j 0 = f (xs.getD j 0) (ys.getD j 0) := by
  simp [List.getD_eq_getElem?_getD, List.getElem?_zipWith, List.getElem?_eq_getElem hx,
    List.getElem?_eq_getElem hy]

/-- With exact arithmetic and fixed weights, the block `ann_inference` leaves for the
input `c * x + y` is `c` times the block for `x` plus the block for `y`. -/
theorem valid_state_linear {R : Type} [Semiring R] (ns : List Nat) (wt : List R)
    (a : ann R) (hv : valid_state ns wt a) (x y : List R) (c : R)
    (hx : x.length = ns.getD 0 0) (hy : y.length = ns.getD 0 0) :
    ∃ ox oy, ann_inference a x
        = some ⟨{ a with output := some ox }, a.total_nodes - a.outputs,
            ox.drop (layer_offset ns (ns.length - 1))⟩ ∧
      ann_inference a y
        = some ⟨{ a with output := some oy }, a.total_nodes - a.outputs,
            oy.drop (layer_offset ns (ns.length - 1))⟩ ∧
      ann_inference a (List.zipWith (fun u v => c * u + v) x y)
        = some ⟨{ a with output := some (List.zipWith (fun u v => c * u + v) ox oy) },
            a.total_nodes - a.outputs,
            List.zipWith (fun u v => c * u + v) (ox.drop (layer_offset ns (ns.length - 1)))
              (oy.drop (layer_offset ns (ns.length - 1)))⟩ := by
  obtain ⟨ox, ex, lx, tx, rx⟩ := valid_state_inference_sum ns wt a hv x hx
  obtain ⟨oy, ey, ly, ty, ry⟩ := valid_state_inference_sum ns wt a hv y hy
  refine ⟨ox, oy, ex, ey, ?_⟩
  rw [← List.drop_zipWith]
  apply valid_state_output_eq ns wt a hv
  · simp [hx, hy]
  · simp [lx, ly]
  · rw [List.take_zipWith, tx, ty]
  · intro l h hl1 hl2 hh
    obtain ⟨b1, b2, b3⟩ := layer_bounds ns l h hl1 hl2 hh
    rw [getD_zipWith _ _ _ _ (by omega) (by omega), rx l h hl1 hl2 hh, ry l h hl1 hl2 hh,
      Finset.mul_sum, ← Finset.sum_add_distrib]
    apply Finset.sum_congr rfl
    intro k hk
    have hk1 := Finset.mem_range.mp hk
    rw [getD_zipWith _ _ _ _ (by omega) (by omega), add_mul, mul_assoc]

/-- With exact arithmetic, the block `ann_inference` leaves for the all-zero input is
all zero. -/
theorem valid_state_zero {R : Type} [Semiring R] (ns : List Nat) (wt : List R)
    (a : ann R) (hv : valid_state ns wt a) :
    ann_inference a (List.replicate (ns.getD 0 0) 0)
      = some ⟨{ a with output := some (List.replicate ns.sum 0) }, a.total_nodes - a.outputs,
          List.replicate (ns.getD (ns.length - 1) 0) 0⟩ := by
  have hL : 2 ≤ ns.length := by
    obtain ⟨_, _, h0, hL, _⟩ := hv
    omega
  have hlast := layer_offset_last ns (by omega)
  have hn0 : ns.getD 0 0 ≤ ns.sum := by
    have := layer_offset_mono ns 1 (ns.length - 1)
    rwa [Nat.add_sub_cancel' (by omega), layer_offset_length, layer_offset_one] at this
  have hd : (List.replicate ns.sum (0 : R)).drop (layer_offset ns (ns.length - 1))
      = List.replicate (ns.getD (ns.length - 1) 0) 0 := by
    rw [List.drop_replicate]
    congr 1
    omega
  rw [← hd]
  apply valid_state_output_eq ns wt a hv
  · simp
  · simp
  · rw [List.take_replicate, Nat.min_eq_left hn0]
  · intro l h hl1 hl2 hh
    obtain ⟨b1, b2, b3⟩ := layer_bounds ns l h hl1 hl2 hh
    have hz : ∀ j, (List.replicate ns.sum (0 : R)).getD j 0 = 0 := by
      intro j
      rw [List.getD_eq_getElem?_getD, List.getElem?_replicate]
      split <;> rfl
    rw [hz]
    symm
    apply Finset.sum_eq_zero
    intro k _
    rw [hz, zero_mul]

/-! ## Linearity of the inference (C16) -/

/-- C16: with exact arithmetic (a field) and the scalar kernel, on a network built by
`ann_init`, let `ann_inference` return for the inputs `x` and `y` of `inputs` values.
Then for every scalar `c` it returns for the input `c * x + y`, and its output is `c`
times the output for `x` plus the output for `y`, entry by entry; and for the all-zero
input it returns the all-zero output. -/
theorem ann_inference_linear {R : Type} [Field R] (env : Env R)
    (inputs outputs hiddens hidden_layers : Int) (hi : 0 ≤ inputs) (ho : 0 ≤ outputs)
    (hh : 0 ≤ hiddens) (h0 : 0 ≤ hidden_layers) (r : InitResult R)
    (hr : ann_init env inputs outputs hiddens hidden_layers = some r) (hret : r.ret = 0)
    (x y : List R) (c : R) (hx : (x.length : Int) = inputs) (hy : (y.length : Int) = inputs)
    (resx resy : InferResult R) (hresx : ann_inference r.net x = some resx)
    (hresy : ann_inference r.net y = some resy) :
    (∃ res, ann_inference r.net (List.zipWith (fun u v => c * u + v) x y) = some res ∧
      res.view = List.zipWith (fun u v => c * u + v) resx.view resy.view) ∧
    (∃ res0, ann_inference r.net (List.replicate inputs.toNat 0) = some res0 ∧
      res0.view = List.replicate outputs.toNat 0) := by
  have hv := ann_init_valid_of_defined env inputs outputs hiddens hidden_layers hi ho hh h0
    r hr hret x resx hresx
  have hn0 : (init_widths inputs outputs hiddens hidden_layers).getD 0 0 = inputs.toNat :=
    init_widths_getD_zero _ _ _ _
  have hnl : (init_widths inputs outputs hiddens hidden_layers).getD
      ((init_widths inputs outputs hiddens hidden_layers).length - 1) 0 = outputs.toNat := by
    rw [init_widths_length, show hidden_layers.toNat + 2 - 1 = hidden_layers.toNat + 1 by omega,
      init_widths_getD_last]
  constructor
  · obtain ⟨ox, oy, ex, ey, ez⟩ := valid_state_linear _ _ r.net hv x y c
      (by rw [hn0]; omega) (by rw [hn0]; omega)
    rw [hresx] at ex
    rw [hresy] at ey
    cases ex
    cases ey
    exact ⟨_, ez, rfl⟩
  · have hz := valid_state_zero _ _ r.net hv
    rw [hn0, hnl] at hz
    exact ⟨_, hz, rfl⟩

theorem ann_inference_linear_witness :
    ∃ r resx res, ann_init (env_of fun _ => true) 4 1 3 1 = some r ∧
      ann_inference r.net [1, 1, 1, 1] = some resx ∧
      ann_inference r.net (List.zipWith (fun u v => 2 * u + v) [1, 1, 1, 1] [1, 1, 1, 1])
        = some res ∧
      res.view = List.zipWith (fun u v => 2 * u + v) resx.view resx.view := by
  obtain ⟨r, resx, hr, hret, hres⟩ := demo_network
  obtain ⟨res, h1, h2⟩ := (ann_inference_linear (env_of fun _ => true) 4 1 3 1 (by decide)
    (by decide) (by decide) (by decide) r hr hret [1, 1, 1, 1] [1, 1, 1, 1] 2 rfl rfl
    resx resx hres hres).1
  exact ⟨r, resx, res, hr, hres, h1, h2⟩

/-! ## The inference with a kernel parameter and a call log -/

/-- With the scalar kernel and the log forgotten, the loop over the neurons is the loop
of `ann_inference`. -/
theorem infer_neurons_with_dotp {R : Type} [Zero R] [Add R] [Mul R] (a : ann R) (l : Int) :
    ∀ (n : Nat) (st : InferState R) (log : List KernelCall),
      (infer_neurons_with dotp a l n (st, log)).map Prod.fst = infer_neurons a l n st := by
  intro n
  induction n with
  | zero => intro st log; rfl
  | succ n ih =>
    intro st log
    rw [infer_neurons_with, infer_neurons]
    simp only [Option.bind_eq_bind]
    cases a.nodes_in_layer with
    | none => rfl
    | some nodes =>
      simp only [Option.some_bind]
      cases load nodes (l - 1) with
      | none => rfl
      | some p =>
        simp only [Option.some_bind]
        cases a.weight with
        | none => rfl
        | some weight =>
          simp only [Option.some_bind]
          cases ptr st.out st.i with
          | none => rfl
          | some pi =>
            simp only [Option.some_bind]
            cases ptr weight st.w with
            | none => rfl
            | some pw =>
              simp only [Option.some_bind]
              cases dotp pi pw p with
              | none => rfl
              | some sum =>
                simp only [Option.some_bind]
                cases store st.out st.o sum with
                | none => rfl
                | some out1 =>
                  simp only [Option.some_bind]
                  exact ih _ _

/-- With the scalar kernel and the log forgotten, the loop over the layers is the loop of
`ann_inference`. -/
theorem infer_layers_with_dotp {R : Type} [Zero R] [Add R] [Mul R] (a : ann R) :
    ∀ (n : Nat) (l : Int) (st : InferState R) (log : List KernelCall),
      (infer_layers_with dotp a n l (st, log)).map Prod.fst = infer_layers a n l st := by
  intro n
  induction n with
  | zero => intro l st log; rfl
  | succ n ih =>
    intro l st log
    rw [infer_layers_with, infer_layers]
    simp only [Option.bind_eq_bind]
    cases a.nodes_in_layer with
    | none => rfl
    | some nodes =>
      simp only [Option.some_bind]
      cases load nodes l with
      | none => rfl
      | some cnt =>
        simp only [Option.some_bind]
        have e := infer_neurons_with_dotp a l (cnt - 0).toNat st log
        cases hw : infer_neurons_with dotp a l (cnt - 0).toNat (st, log) with
        | none =>
          rw [hw] at e
          simp only [Option.map_none'] at e
          rw [← e]
          rfl
        | some s1 =>
          obtain ⟨st1, log1⟩ := s1
          rw [hw] at e
          simp only [Option.map_some'] at e
          rw [← e]
          simp only [Option.some_bind]
          cases load nodes (l - 1) with
          | none => rfl
          | some prev =>
            simp only [Option.some_bind]
            exact ih _ _ _

/-- With the scalar kernel and the log forgotten, `ann_inference_run_with` is
`ann_inference_run`. -/
theorem ann_inference_run_with_dotp {R : Type} [Zero R] [Add R] [Mul R] (a : ann R)
    (x : List R) :
    (ann_inference_run_with dotp a x).map Prod.fst = ann_inference_run a x := by
  rw [ann_inference_run_with, ann_inference_run]
  simp only [Option.bind_eq_bind]
  cases a.output with
  | none => rfl
  | some out0 =>
    simp only [Option.some_bind]
    cases memcpy out0 x a.inputs with
    | none => rfl
    | some out1 =>
      simp only [Option.some_bind]
      exact infer_layers_with_dotp a _ _ _ _

/-- With the scalar kernel and the log forgotten, `ann_inference_with` is
`ann_inference`. -/
theorem ann_inference_with_dotp {R : Type} [Zero R] [Add R] [Mul R] (a : ann R)
    (x : List R) :
    (ann_inference_with dotp a x).map Prod.fst = ann_inference a x := by
  have e := ann_inference_run_with_dotp a x
  rw [ann_inference_with, ann_inference]
  simp only [Option.bind_eq_bind]
  cases hw : ann_inference_run_with dotp a x with
  | none =>
    rw [hw] at e
    simp only [Option.map_none'] at e
    rw [← e]
    rfl
  | some s =>
    obtain ⟨st, log⟩ := s
    rw [hw] at e
    simp only [Option.map_some'] at e
    rw [← e]
    simp only [Option.some_bind]
    cases ptr st.out (a.total_nodes - a.outputs) with
    | none => rfl
    | some view => rfl

/-- One iteration of the logged loop over the neurons, read backwards from its result. -/
theorem infer_neurons_with_succ_inv {R : Type} (k : List R → List R → Int → Option R)
    (a : ann R) (l : Int) (n : Nat) (st : InferState R) (log : List KernelCall)
    (s1 : InferState R × List KernelCall)
    (h : infer_neurons_with k a l (n + 1) (st, log) = some s1) :
    ∃ nodes p weight pi pw sum out1, a.nodes_in_layer = some nodes ∧
      load nodes (l - 1) = some p ∧ a.weight = some weight ∧
      ptr st.out st.i = some pi ∧ ptr weight st.w = some pw ∧ k pi pw p = some sum ∧
      store st.out st.o sum = some out1 ∧
      infer_neurons_with k a l n
        ({ st with w := st.w + p, o := st.o + 1, out := out1 }, log ++ [⟨l, st.i, p, st.o⟩])
        = some s1 := by
  rw [infer_neurons_with] at h
  simp only [Option.bind_eq_bind, Option.bind_eq_some] at h
  obtain ⟨nodes, h1, p, h2, weight, h3, pi, h4, pw, h5, sum, h6, out1, h7, h8⟩ := h
  exact ⟨nodes, p, weight, pi, pw, sum, out1, h1, h2, h3, h4, h5, h6, h7, h8⟩

/-- One iteration of the logged loop over the layers, read backwards from its result. -/
theorem infer_layers_with_succ_inv {R : Type} (k : List R → List R → Int → Option R)
    (a : ann R) (l : Int) (n : Nat) (s s2 : InferState R × List KernelCall)
    (h : infer_layers_with k a (n + 1) l s = some s2) :
    ∃ nodes cnt st1 log1 prev, a.nodes_in_layer = some nodes ∧ load nodes l = some cnt ∧
      infer_neurons_with k a l (cnt - 0).toNat s = some (st1, log1) ∧
      load nodes (l - 1) = some prev ∧
      infer_layers_with k a n (l + 1) ({ st1 with i := st1.i + prev }, log1) = some s2 := by
  rw [infer_layers_with] at h
  simp only [Option.bind_eq_bind, Option.bind_eq_some] at h
  obtain ⟨nodes, h1, cnt, h2, ⟨st1, log1⟩, h3, prev, h4, h5⟩ := h
  exact ⟨nodes, cnt, st1, log1, prev, h1, h2, h3, h4, h5⟩

/-- What a returning run of the logged loop over the neurons adds to the log: `n` calls
for layer `l`, each reading `p` elements at the cursor `i` and storing at one of the `n`
offsets from `o` on. -/
theorem infer_neurons_with_log {R : Type} (k : List R → List R → Int → Option R)
    (a : ann R) (l : Int) (nodes : List Int) (p : Int)
    (hn : a.nodes_in_layer = some nodes) (hp : load nodes (l - 1) = some p) :
    ∀ (n : Nat) (st : InferState R) (log : List KernelCall) (st1 : InferState R)
      (log1 : List KernelCall),
      infer_neurons_with k a l n (st, log) = some (st1, log1) →
      st1.i = st.i ∧ st1.o = st.o + n ∧ log1.length = log.length + n ∧
      ∀ c ∈ log1, c ∈ log ∨ (c.layer = l ∧ c.read_at = st.i ∧ c.size = p ∧
        st.o ≤ c.write_at ∧ c.write_at < st.o + n) := by
  intro n
  induction n with
  | zero =>
    intro st log st1 log1 h
    simp only [infer_neurons_with, Option.some.injEq, Prod.mk.injEq] at h
    obtain ⟨rfl, rfl⟩ := h
    exact ⟨rfl, by simp, by simp, fun c hc => Or.inl hc⟩
  | succ n ih =>
    intro st log st1 log1 h
    obtain ⟨nodes1, p1, _, _, _, _, out1, e1, e2, _, _, _, _, _, e8⟩ :=
      infer_neurons_with_succ_inv k a l n st log _ h
    rw [hn] at e1
    cases e1
    rw [hp] at e2
    cases e2
    obtain ⟨h1, h2, h3, h4⟩ := ih _ _ _ _ e8
    simp only at h1 h2
    refine ⟨h1, by rw [h2]; push_cast; ring, by
      rw [h3, List.length_append, List.length_singleton]; omega, ?_⟩
    intro c hc
    rcases h4 c hc with hm | ⟨c1, c2, c3, c4, c5⟩
    · rcases List.mem_append.mp hm with hm1 | hm2
      · exact Or.inl hm1
      · right
        simp only [List.mem_singleton] at hm2
        subst hm2
        exact ⟨rfl, rfl, rfl, Int.le_refl _, by push_cast; omega⟩
    · right
      simp only at c2 c4 c5
      exact ⟨c1, c2, c3, by omega, by push_cast; omega⟩

/-- A returning run of the logged loop over the layers, started with the cursors at the
offsets of layer `l`, adds only calls that lie in their layers, one per neuron, and ends
with the cursors at the offsets of layer `l + n`. -/
theorem infer_layers_with_log {R : Type} (k : List R → List R → Int → Option R)
    (a : ann R) (ns : List Nat)
    (hn : a.nodes_in_layer = some (ns.map (Nat.cast : Nat → Int))) :
    ∀ (n l : Nat) (st : InferState R) (log : List KernelCall) (st1 : InferState R)
      (log1 : List KernelCall),
      infer_layers_with k a n (l : Int) (st, log) = some (st1, log1) → 1 ≤ l →
      l + n ≤ ns.length → st.i = (layer_offset ns (l - 1) : Nat) →
      st.o = (layer_offset ns l : Nat) → (∀ c ∈ log, call_in_layer ns c) →
      (∀ c ∈ log1, call_in_layer ns c) ∧
      st1.i = (layer_offset ns (l + n - 1) : Nat) ∧ st1.o = (layer_offset ns (l + n) : Nat) ∧
      log1.length + layer_offset ns l = log.length + layer_offset ns (l + n) := by
  intro n
  induction n with
  | zero =>
    intro l st log st1 log1 h _ _ hi ho hlog
    simp only [infer_layers_with, Option.some.injEq, Prod.mk.injEq] at h
    obtain ⟨rfl, rfl⟩ := h
    exact ⟨hlog, hi, ho, rfl⟩
  | succ n ih =>
    intro l st log st1 log1 h hl1 hlen hi ho hlog
    obtain ⟨nodes, cnt, st2, log2, prev, e1, e2, e3, e4, e5⟩ :=
      infer_layers_with_succ_inv k a l n _ _ h
    rw [hn] at e1
    cases e1
    have hl1c : ((l : Int) - 1) = ((l - 1 : Nat) : Int) := by omega
    rw [load_nodes ns l (by omega)] at e2
    cases e2
    rw [hl1c, load_nodes ns (l - 1) (by omega)] at e4
    cases e4
    have hprev : load (ns.map (Nat.cast : Nat → Int)) ((l : Int) - 1)
        = some ((ns.getD (l - 1) 0 : Nat) : Int) := by
      rw [hl1c]; exact load_nodes ns (l - 1) (by omega)
    simp only [Int.sub_zero, Int.toNat_ofNat] at e3
    obtain ⟨n1, n2, n3, n4⟩ := infer_neurons_with_log k a l _ _ hn hprev _ _ _ _ _ e3
    have hlo : layer_offset ns l = layer_offset ns (l - 1) + ns.getD (l - 1) 0 := by
      have := layer_offset_succ ns (l - 1)
      rwa [Nat.sub_add_cancel hl1] at this
    have hlo1 := layer_offset_succ ns l
    have hidx : l + 1 + n = l + (n + 1) := by ring
    have e' : ((l : Int) + 1) = ((l + 1 : Nat) : Int) := by push_cast; rfl
    rw [e'] at e5
    obtain ⟨k1, k2, k3, k4⟩ := ih (l + 1) _ _ _ _ e5 (by omega) (by omega)
      (by simp only [Nat.add_sub_cancel]; rw [n1, hi, hlo]; push_cast; rfl)
      (by simp only; rw [n2, ho, hlo1]; push_cast; rfl)
      (by
        intro c hc
        rcases n4 c hc with hm | ⟨c1, c2, c3, c4, c5⟩
        · exact hlog c hm
        · refine ⟨l, c1, hl1, by omega, by rw [c2, hi], c3, ?_, ?_, ?_⟩
          · rw [c2, c3, hi, hlo]; push_cast; rfl
          · rw [ho] at c4; exact c4
          · rw [ho] at c5; rw [hlo1]; push_cast; exact c5)
    rw [hidx] at k2 k3 k4
    refine ⟨k1, k2, k3, ?_⟩
    rw [hlo1] at k4
    omega

/-- In a valid state, whatever the kernel, a returning run of the logged body of
`ann_inference` makes only calls that lie in their layers, one per neuron, and ends with
the write cursor at the sum of the widths. -/
theorem valid_state_call_log {R : Type} (k : List R → List R → Int → Option R)
    (ns : List Nat) (wt : List R) (a : ann R) (hv : valid_state ns wt a) (x : List R)
    (st : InferState R) (log : List KernelCall)
    (hw : ann_inference_run_with k a x = some (st, log)) :
    (∀ c ∈ log, call_in_layer ns c) ∧ log.length + ns.getD 0 0 = ns.sum ∧
      st.o = (ns.sum : Nat) := by
  obtain ⟨hn, _, hh0, hL, hin, _, htot, _, out0, hout, hlen0⟩ := hv
  rw [ann_inference_run_with] at hw
  simp only [Option.bind_eq_bind, Option.bind_eq_some] at hw
  obtain ⟨_, _, out1, _, hlay⟩ := hw
  have hcount : (a.hidden_layers + 2 - 1).toNat = ns.length - 1 := by omega
  rw [hcount] at hlay
  obtain ⟨k1, _, k3, k4⟩ := infer_layers_with_log k a _ hn _ 1 _ _ _ _ hlay
    (by omega) (by omega) (by simp [layer_offset_zero])
    (by simp only; rw [hin, layer_offset_one])
    (by intro c hc; simp at hc)
  rw [Nat.add_sub_cancel' (by omega), layer_offset_length] at k3 k4
  rw [layer_offset_one] at k4
  simp only [List.length_nil] at k4
  exact ⟨k1, by omega, k3⟩

/-! ## The segments read and written by each layer (C18) -/

theorem dotp_loop_none {R : Type} [Add R] [Mul R] :
    ∀ (n : Nat) (a b : List R) (s : R), a.length < n ∨ b.length < n →
      dotp_loop n a b s = none
  | 0, _, _, _, h => by omega
  | n + 1, [], _, _, _ => by simp [dotp_loop]
  | n + 1, _ :: _, [], _, _ => by simp [dotp_loop]
  | n + 1, x :: a, y :: b, s, h => by
    rw [dotp_loop]
    exact dotp_loop_none n a b _ (by simp only [List.length_cons] at h; omega)

theorem load_ps_none {R : Type} (xs : List R) (h : xs.length < 4) : load_ps xs = none := by
  match xs, h with
  | [], _ => rfl
  | [_], _ => rfl
  | [_, _], _ => rfl
  | [_, _, _], _ => rfl
  | _ :: _ :: _ :: _ :: _, h => simp at h; omega

theorem load_ps_some {R : Type} (xs : List R) (h : 4 ≤ xs.length) :
    ∃ v rest, load_ps xs = some (v, rest) ∧ rest.length + 4 = xs.length := by
  match xs, h with
  | x0 :: x1 :: x2 :: x3 :: rest, _ => exact ⟨⟨x0, x1, x2, x3⟩, rest, rfl, by simp⟩
  | [], h => simp at h
  | [_], h => simp at h
  | [_, _], h => simp at h
  | [_, _, _], h => simp at h

theorem dotp_intrinsics_loop_none {R : Type} [Add R] [Mul R] :
    ∀ (n : Nat) (a b : List R) (acc : M128 R), a.length < 4 * n ∨ b.length < 4 * n →
      dotp_intrinsics_loop n a b acc = none := by
  intro n
  induction n with
  | zero => intro a b acc h; omega
  | succ n ih =>
    intro a b acc h
    rw [dotp_intrinsics_loop]
    by_cases ha : 4 ≤ a.length
    · obtain ⟨va, ra, ea, la⟩ := load_ps_some a ha
      by_cases hb : 4 ≤ b.length
      · obtain ⟨vb, rb, eb, lb⟩ := load_ps_some b hb
        simp only [ea, eb, Option.bind_eq_bind, Option.some_bind]
        exact ih ra rb _ (by omega)
      · simp [ea, load_ps_none b (by omega)]
    · simp [load_ps_none a (by omega)]

theorem dotp_dp_intrinsics_loop_none {R : Type} [Zero R] [Add R] [Mul R] :
    ∀ (n : Nat) (a b : List R) (s : R), a.length < 4 * n ∨ b.length < 4 * n →
      dotp_dp_intrinsics_loop n a b s = none := by
  intro n
  induction n with
  | zero => intro a b s h; omega
  | succ n ih =>
    intro a b s h
    rw [dotp_dp_intrinsics_loop]
    by_cases ha : 4 ≤ a.length
    · obtain ⟨va, ra, ea, la⟩ := load_ps_some a ha
      by_cases hb : 4 ≤ b.length
      · obtain ⟨vb, rb, eb, lb⟩ := load_ps_some b hb
        simp only [ea, eb, Option.bind_eq_bind, Option.some_bind]
        exact ih ra rb _ (by omega)
      · simp [ea, load_ps_none b (by omega)]
    · simp [load_ps_none a (by omega)]

/-- With exact arithmetic, for a `size` that is a non-negative multiple of 4 the two
vectorized kernels return what the scalar kernel returns, on all operands: the same sum
when both operands hold `size` elements, and a failure otherwise. -/
theorem dotp_vectorized_eq_dotp {R : Type} [Semiring R] (a b : List R) (size : Int)
    (h0 : 0 ≤ size) (h4 : size % 4 = 0) :
    dotp_intrinsics a b size = dotp a b size ∧
      dotp_dp_intrinsics a b size = dotp a b size := by
  have e : 4 * (size.toNat / 4) = size.toNat := by omega
  by_cases hin : size.toNat ≤ a.length ∧ size.toNat ≤ b.length
  · rw [dotp_intrinsics_sum a b size h0 (by omega) (by omega),
      dotp_dp_intrinsics_sum a b size h0 (by omega) (by omega), e, dotp, Int.sub_zero,
      dotp_loop_sum _ _ _ 0 hin.1 hin.2, zero_add]
    exact ⟨rfl, rfl⟩
  · have hout : a.length < size.toNat ∨ b.length < size.toNat := by omega
    rw [dotp, Int.sub_zero, dotp_loop_none _ _ _ _ hout, dotp_intrinsics,
      dotp_dp_intrinsics, tdiv_four_toNat size h0,
      dotp_intrinsics_loop_none _ _ _ _ (by omega),
      dotp_dp_intrinsics_loop_none _ _ _ _ (by omega)]
    exact ⟨rfl, rfl⟩

/-- Two kernels that agree on the size read for layer `l` give the same loop over its
neurons. -/
theorem infer_neurons_with_congr {R : Type} (k1 k2 : List R → List R → Int → Option R)
    (a : ann R) (l : Int)
    (hk : ∀ nodes p, a.nodes_in_layer = some nodes → load nodes (l - 1) = some p →
      ∀ u v, k1 u v p = k2 u v p) :
    ∀ (n : Nat) (s : InferState R × List KernelCall),
      infer_neurons_with k1 a l n s = infer_neurons_with k2 a l n s := by
  intro n
  induction n with
  | zero => intro s; rfl
  | succ n ih =>
    intro s
    obtain ⟨st, log⟩ := s
    rw [infer_neurons_with, infer_neurons_with]
    simp only [Option.bind_eq_bind]
    cases hn : a.nodes_in_layer with
    | none => rfl
    | some nodes =>
      simp only [Option.some_bind]
      cases hp : load nodes (l - 1) with
      | none => rfl
      | some p =>
        simp only [Option.some_bind]
        cases a.weight with
        | none => rfl
        | some weight =>
          simp only [Option.some_bind]
          cases ptr st.out st.i with
          | none => rfl
          | some pi =>
            simp only [Option.some_bind]
            cases ptr weight st.w with
            | none => rfl
            | some pw =>
              simp only [Option.some_bind]
              rw [hk nodes p hn hp pi pw]
              cases k2 pi pw p with
              | none => rfl
              | some sum =>
                simp only [Option.some_bind]
                cases store st.out st.o sum with
                | none => rfl
                | some out1 =>
                  simp only [Option.some_bind]
                  exact ih _

/-- Two kernels that agree on the width of every layer but the last give the same loop
over the layers. -/
theorem infer_layers_with_congr {R : Type} (k1 k2 : List R → List R → Int → Option R)
    (a : ann R)
    (hk : ∀ nodes (j : Int) p c, a.nodes_in_layer = some nodes → load nodes j = some p →
      load nodes (j + 1) = some c → ∀ u v, k1 u v p = k2 u v p) :
    ∀ (n : Nat) (l : Int) (s : InferState R × List KernelCall),
      infer_layers_with k1 a n l s = infer_layers_with k2 a n l s := by
  intro n
  induction n with
  | zero => intro l s; rfl
  | succ n ih =>
    intro l s
    rw [infer_layers_with, infer_layers_with]
    simp only [Option.bind_eq_bind]
    cases hn : a.nodes_in_layer with
    | none => rfl
    | some nodes =>
      simp only [Option.some_bind]
      cases hc : load nodes l with
      | none => rfl
      | some cnt =>
        simp only [Option.some_bind]
        rw [infer_neurons_with_congr k1 k2 a l (fun nodes1 p hn1 hp =>
          hk nodes1 (l - 1) p cnt hn1 hp (by
            rw [hn] at hn1
            cases hn1
            rw [Int.sub_add_cancel]
            exact hc))]
        cases infer_neurons_with k2 a l (cnt - 0).toNat s with
        | none => rfl
        | some s1 =>
          obtain ⟨st1, log1⟩ := s1
          simp only [Option.some_bind]
          cases load nodes (l - 1) with
          | none => rfl
          | some prev =>
            simp only [Option.some_bind]
            exact ih _ _

/-- Two kernels that agree on the width of every layer but the last give the same
`ann_inference_with`. -/
theorem ann_inference_with_congr {R : Type} (k1 k2 : List R → List R → Int → Option R)
    (a : ann R)
    (hk : ∀ nodes (j : Int) p c, a.nodes_in_layer = some nodes → load nodes j = some p →
      load nodes (j + 1) = some c → ∀ u v, k1 u v p = k2 u v p) (x : List R) :
    ann_inference_with k1 a x = ann_inference_with k2 a x := by
  have e : ann_inference_run_with k1 a x = ann_inference_run_with k2 a x := by
    rw [ann_inference_run_with, ann_inference_run_with]
    simp only [Option.bind_eq_bind]
    cases a.output with
    | none => rfl
    | some out0 =>
      simp only [Option.some_bind]
      cases memcpy out0 x a.inputs with
      | none => rfl
      | some out1 =>
        simp only [Option.some_bind]
        exact infer_layers_with_congr k1 k2 a hk _ _ _
  rw [ann_inference_with, ann_inference_with, e]

/-! ## The three builds on the topology of the driver (C19) -/

theorem load_some_bound {α : Type} (xs : List α) (i : Int) (v : α)
    (h : load xs i = some v) : 0 ≤ i ∧ i < xs.length := by
  unfold load at h
  split at h
  · rename_i hi
    have := (List.getElem?_eq_some.mp h).1
    exact ⟨hi, by omega⟩
  · simp at h

/-- The parts of a returning call of `ann_inference_with`. -/
theorem ann_inference_with_inv {R : Type} (k : List R → List R → Int → Option R)
    (a : ann R) (x : List R) (res : InferResult R) (log : List KernelCall)
    (h : ann_inference_with k a x = some (res, log)) :
    ∃ st, ann_inference_run_with k a x = some (st, log) := by
  rw [ann_inference_with] at h
  simp only [Option.bind_eq_bind, Option.bind_eq_some, Option.some.injEq,
    Prod.mk.injEq] at h
  obtain ⟨⟨st, log1⟩, h1, view, _, _, h4⟩ := h
  simp only at h4
  subst h4
  exact ⟨st, h1⟩

/-- C19: on the network `ann_init` builds for the topology of the driver
(`inputs = 18 * 18`, `outputs = 2`, `hiddens = 30 * 20`, one hidden layer), a call of
`ann_inference` on an input of 324 values returns and makes 602 calls of the kernel, each
with a size that is a multiple of 4: 324 for the hidden layer and 600 for the output
layer.  With exact arithmetic the builds `USE_INTRINSICS` and `USE_DP_INTRINSICS` make the
same calls and return the same result as the scalar build. -/
theorem driver_kernels_agree {R : Type} [Field R] (env : Env R) (r : InitResult R)
    (hr : ann_init env (18 * 18) 2 (30 * 20) 1 = some r) (hret : r.ret = 0) (x : List R)
    (hx : x.length = 324) :
    ∃ res log, ann_inference r.net x = some res ∧
      ann_inference_with dotp r.net x = some (res, log) ∧
      ann_inference_with dotp_intrinsics r.net x = some (res, log) ∧
      ann_inference_with dotp_dp_intrinsics r.net x = some (res, log) ∧
      log.length = 602 ∧
      (∀ c ∈ log, c.size % 4 = 0 ∧
        ((c.layer = 1 ∧ c.size = 324) ∨ (c.layer = 2 ∧ c.size = 600))) ∧
      res.view.length = 2 := by
  have e1 : ((18 : Int) * 18) = 324 := by decide
  have e2 : ((30 : Int) * 20) = 600 := by decide
  rw [e1, e2] at hr
  obtain ⟨_, res, _, _, _, hres, _, _, _, _, hvl⟩ :=
    ann_init_inference env 324 2 600 1 (by decide) (by decide) (by decide) (by decide)
      r hr hret x (by rw [hx]; rfl)
  have hv := (ann_init_valid_state env 324 2 600 1 (by decide) (by decide) (by decide)
    (by decide) r hr hret
    (init_weights_suffice 324 2 600 1 (by decide) (by decide) (by decide) (by decide))).1
  have hns : init_widths 324 2 600 1 = [324, 600, 2] := by decide
  rw [hns] at hv
  have hers := ann_inference_with_dotp r.net x
  rw [hres] at hers
  cases hw : ann_inference_with dotp r.net x with
  | none => rw [hw] at hers; simp at hers
  | some s =>
    obtain ⟨res', log⟩ := s
    rw [hw] at hers
    simp only [Option.map_some', Option.some.injEq] at hers
    subst hers
    obtain ⟨st, hrun⟩ := ann_inference_with_inv dotp r.net x _ log hw
    obtain ⟨k1, k2, _⟩ := valid_state_call_log dotp _ _ r.net hv x st log hrun
    have hk : ∀ nodes (j : Int) p c, r.net.nodes_in_layer = some nodes →
        load nodes j = some p → load nodes (j + 1) = some c → 0 ≤ p ∧ p % 4 = 0 := by
      intro nodes j p c hn hp hc
      rw [hv.1] at hn
      cases hn
      have b1 := (load_some_bound _ _ _ hp).1
      have b2 := (load_some_bound _ _ _ hc).2
      simp only [List.map_cons, List.map_nil, List.length_cons, List.length_nil] at b2
      have hj : j = 0 ∨ j = 1 := by omega
      rcases hj with rfl | rfl
      · simp [load] at hp
        omega
      · simp [load] at hp
        omega
    refine ⟨res', log, hres, rfl, ?_, ?_, ?_, ?_, by exact_mod_cast hvl⟩
    · rw [← hw]
      exact ann_inference_with_congr _ _ r.net (fun nodes j p c hn hp hc u v =>
        (dotp_vectorized_eq_dotp u v p (hk nodes j p c hn hp hc).1
          (hk nodes j p c hn hp hc).2).1) x
    · rw [← hw]
      exact ann_inference_with_congr _ _ r.net (fun nodes j p c hn hp hc u v =>
        (dotp_vectorized_eq_dotp u v p (hk nodes j p c hn hp hc).1
          (hk nodes j p c hn hp hc).2).2) x
    · simp at k2
      omega
    · intro c hc
      obtain ⟨l, c1, c2, c3, _, c5, _⟩ := k1 c hc
      simp only [List.length_cons, List.length_nil] at c3
      have hl : l = 1 ∨ l = 2 := by omega
      rcases hl with rfl | rfl
      · simp at c5
        rw [c1, c5]
        exact ⟨by decide, Or.inl ⟨rfl, rfl⟩⟩
      · simp at c5
        rw [c1, c5]
        exact ⟨by decide, Or.inr ⟨rfl, rfl⟩⟩

theorem driver_kernels_agree_witness :
    ∃ r res log, ann_init (env_of fun _ => true) (18 * 18) 2 (30 * 20) 1 = some r ∧
      ann_inference r.net (List.replicate 324 1) = some res ∧
      ann_inference_with dotp_intrinsics r.net (List.replicate 324 1) = some (res, log) ∧
      ann_inference_with dotp_dp_intrinsics r.net (List.replicate 324 1) = some (res, log) ∧
      log.length = 602 := by
  have hr : ∃ r, ann_init (env_of fun _ => true) (18 * 18) 2 (30 * 20) 1 = some r ∧
      r.ret = 0 := by
    rw [ann_init_eq _ _ _ _ _ (by decide),
      if_pos (show (env_of fun _ => true).malloc_ok 0 = true from rfl),
      if_pos (show (env_of fun _ => true).malloc_ok 1 = true ∧
        0 ≤ init_weight_count (18 * 18) 2 (30 * 20) 1 from ⟨rfl, by decide⟩),
      if_pos (show (env_of fun _ => true).malloc_ok 2 = true ∧
        (0 : Int) ≤ 18 * 18 + 2 + 1 * (30 * 20) from ⟨rfl, by decide⟩)]
    exact ⟨_, rfl, rfl⟩
  obtain ⟨r, hr, hret⟩ := hr
  obtain ⟨res, log, h1, _, h3, h4, h5, _⟩ :=
    driver_kernels_agree (env_of fun _ => true) r hr hret (List.replicate 324 1)
      (List.length_replicate 324 1)
  exact ⟨r, res, log, hr, h1, h3, h4, h5⟩

/-! ## The driver (C17) -/

/-- In a valid state the loop of `main` returns after any number `n + 1` of calls of
`ann_inference`, each recorded, with the view the last call returned. -/
theorem main_loop_valid {R : Type} [Zero R] [Add R] [Mul R] (ns : List Nat) (wt : List R)
    (input : List R) (hx : input.length = ns.getD 0 0) :
    ∀ (n : Nat) (a : ann R) (output : Option (InferResult R)) (trace : List (Event R)),
      valid_state ns wt a →
      ∃ a1 res, main_loop input (n + 1) a output trace
          = some (a1, some res,
              trace ++ List.replicate (n + 1) Event.call_ann_inference) ∧
        valid_state ns wt a1 ∧ res.view.length = ns.getD (ns.length - 1) 0 ∧
        a1.nodes_in_layer = a.nodes_in_layer ∧ a1.weight = a.weight ∧
        ∃ out, a1.output = some out := by
  intro n
  induction n with
  | zero =>
    intro a output trace hv
    obtain ⟨out, e1, e2, _, e4, _⟩ := valid_state_inference ns wt a hv input hx
    refine ⟨{ a with output := some out },
      ⟨{ a with output := some out }, a.total_nodes - a.outputs,
        out.drop (layer_offset ns (ns.length - 1))⟩, ?_,
      valid_state_output ns wt a hv out e2, e4, rfl, rfl, out, rfl⟩
    rw [main_loop]
    simp only [e1, Option.bind_eq_bind, Option.some_bind, main_loop]
    rfl
  | succ n ih =>
    intro a output trace hv
    obtain ⟨out, e1, e2, _, _, _⟩ := valid_state_inference ns wt a hv input hx
    obtain ⟨a1, res, k1, k2, k3, k4, k5, k6⟩ :=
      ih { a with output := some out }
        (some ⟨{ a with output := some out }, a.total_nodes - a.outputs,
          out.drop (layer_offset ns (ns.length - 1))⟩)
        (trace ++ [Event.call_ann_inference]) (valid_state_output ns wt a hv out e2)
    refine ⟨a1, res, ?_, k2, k3, k4, k5, k6⟩
    rw [main_loop]
    simp only [e1, Option.bind_eq_bind, Option.some_bind]
    rw [k1, List.append_assoc]
    rfl

/-- For `hidden_layers ≥ 0`, `ann_init` returns. -/
theorem ann_init_total {R : Type} [IntCast R] [Div R] (env : Env R) (i o h hl : Int)
    (h0 : 0 ≤ hl) : ∃ r, ann_init env i o h hl = some r := by
  rw [ann_init_eq env i o h hl h0]
  split
  · split
    · split
      · exact ⟨_, rfl⟩
      · exact ⟨_, rfl⟩
    · exact ⟨_, rfl⟩
  · exact ⟨_, rfl⟩

/-- C17: `main` returns for every argument list.  When the first argument is
`--print-header-only` it prints the header line and exits with 0, and it calls neither
`ann_init` nor `ann_inference`.  Otherwise it calls `ann_init`; it exits with 1 exactly
when `ann_init` returns a non-zero code, and then it has printed the message on the
standard error and no result line; and it exits with 0 exactly when `ann_init` returns 0,
after `RERUNS` calls of `ann_inference`, the result line and the call of `ann_free`, which
leaves no block allocated. -/
theorem main_exit_code {R : Type} [Field R] (env : Env R) (argv : List String) :
    ∃ res, main env argv = some res ∧
      ((1 < argv.length ∧ argv[1]? = some "--print-header-only") →
        res.exit = 0 ∧ res.trace = [Event.header_line]) ∧
      (¬ (1 < argv.length ∧ argv[1]? = some "--print-header-only") →
        ∃ r, ann_init env INPUTS 2 HIDDEN 1 = some r ∧
          (res.exit = 1 ↔ r.ret ≠ 0) ∧ (res.exit = 0 ↔ r.ret = 0) ∧
          (r.ret ≠ 0 →
            res.trace = [Event.call_ann_init, Event.init_failed_message]) ∧
          (r.ret = 0 → ∃ output0,
            res.trace = Event.call_ann_init ::
              (List.replicate 1000 Event.call_ann_inference
                ++ [Event.result_line output0, Event.call_ann_free]) ∧
            res.live = [])) := by
  by_cases hh : 1 < argv.length ∧ argv[1]? = some "--print-header-only"
  · refine ⟨_, by rw [main, if_pos hh], fun _ => ⟨rfl, rfl⟩, fun h => absurd hh h⟩
  · obtain ⟨r, hr⟩ := ann_init_total env INPUTS 2 HIDDEN 1 (by decide)
    by_cases hret : r.ret = 0
    · have hr' : ann_init env 324 2 600 1 = some r := hr
      have hv := (ann_init_valid_state env 324 2 600 1 (by decide) (by decide) (by decide)
        (by decide) r hr' hret
        (init_weights_suffice 324 2 600 1 (by decide) (by decide) (by decide)
          (by decide))).1
      have hns : init_widths 324 2 600 1 = [324, 600, 2] := by decide
      rw [hns] at hv
      obtain ⟨a1, res, k1, _, k3, k4, k5, out, k6⟩ :=
        main_loop_valid [324, 600, 2] _
          ((List.range (INPUTS - 0).toNat).map
            (fun i => ((env.rand (r.draws + i) : Int) : R) / ((env.RAND_MAX : Int) : R)))
          (by rw [List.length_map, List.length_range]; rfl) 999 r.net none
          [Event.call_ann_init] hv
      have hview : ∃ v, load res.view 0 = some v := by
        simp only [List.length_cons, List.length_nil, List.getD_cons_succ,
          List.getD_cons_zero] at k3
        match hrv : res.view, k3 with
        | v :: _, _ => exact ⟨v, by simp [load]⟩
      obtain ⟨v, hv0⟩ := hview
      obtain ⟨_, _, hrr⟩ := ann_init_success env 324 2 600 1 (by decide) r hr' hret
      have hlive : r.live = [Blk.nodes_in_layer, Blk.weight, Blk.output] := by rw [hrr]
      have hnl : ∃ nl, a1.nodes_in_layer = some nl := ⟨_, k4.trans hv.1⟩
      have hwt : ∃ w, a1.weight = some w := ⟨_, k5.trans hv.2.1⟩
      obtain ⟨nl, hnl⟩ := hnl
      obtain ⟨w, hwt⟩ := hwt
      refine ⟨{ exit := 0,
                trace := ([Event.call_ann_init]
                  ++ List.replicate (999 + 1) Event.call_ann_inference)
                  ++ [Event.result_line v, Event.call_ann_free],
                live := [] }, ?_, fun h => absurd h hh, fun _ => ⟨r, hr, ?_, ?_, ?_, ?_⟩⟩
      · rw [main, if_neg hh]
        simp only [hr, Option.bind_eq_bind, Option.some_bind, hret, ne_eq,
          not_true_eq_false, if_false]
        have hre : RERUNS - 0 = 999 + 1 := by decide
        rw [hre, k1]
        simp only [Option.some_bind, hv0, ann_free, hnl, hwt, k6, free, hlive]
        rfl
      · simp [hret]
      · simp [hret]
      · intro h; exact absurd hret h
      · intro _
        exact ⟨v, by rw [List.singleton_append, List.cons_append], rfl⟩
    · refine ⟨{ exit := 1, trace := [Event.call_ann_init, Event.init_failed_message],
                live := r.live }, ?_, fun h => absurd h hh, fun _ => ⟨r, hr, ?_, ?_, ?_, ?_⟩⟩
      · rw [main, if_neg hh]
        simp only [hr, Option.bind_eq_bind, Option.some_bind, ne_eq, hret,
          not_false_eq_true, if_true]
      · simp [hret]
      · simp [hret]
      · intro _; rfl
      · intro h; exact absurd h hret

theorem main_exit_code_witness :
    (∃ res, main (env_of fun _ => true) ["ann", "--print-header-only"] = some res ∧
      res.exit = 0 ∧ res.trace = [Event.header_line]) ∧
    (∃ res r, main (env_of fun _ => true) ["ann"] = some res ∧
      ann_init (env_of fun _ => true) INPUTS 2 HIDDEN 1 = some r ∧
      (res.exit = 0 ↔ r.ret = 0) ∧ (res.exit = 1 ↔ r.ret ≠ 0)) := by
  constructor
  · obtain ⟨res, h1, h2, _⟩ :=
      main_exit_code (env_of fun _ => true) ["ann", "--print-header-only"]
    have hh : 1 < ["ann", "--print-header-only"].length ∧
        ["ann", "--print-header-only"][1]? = some "--print-header-only" :=
      ⟨by decide, rfl⟩
    exact ⟨res, h1, (h2 hh).1, (h2 hh).2⟩
  · obtain ⟨res, h1, _, h3⟩ := main_exit_code (env_of fun _ => true) ["ann"]
    have hh : ¬ (1 < ["ann"].length ∧ ["ann"][1]? = some "--print-header-only") := by
      intro h
      exact absurd h.1 (by decide)
    obtain ⟨r, k1, k2, k3, _⟩ := h3 hh
    exact ⟨res, r, h1, k1, k3, k2⟩

end AnnBench
